import Mathlib

/-!
Verification development for the AI-Pathfinding-Visualizer repository.

The embedding models the pathfinding core of the repository:

* `grid.py`: cell state is a draw color (`Color`); `Node.update_neighbors`
  becomes `updateNeighbors`, `Grid.clear_path_nodes` becomes `clearPathNodes`,
  and `Grid.__init__` / `Grid.make_grid` become `gridInit` / `makeGrid`
  (over `Int`, matching Python integers, where division by zero models the
  `ZeroDivisionError` raised when `rows = 0`).
* `utils/heuristics.py`: `manhattan`.
* `algorithms.py`: `reconstruct_path` becomes `reconstructPath`; the four
  searches `bfs`, `dfs`, `dijkstra`, `astar` are modelled as step functions
  (`bfsStep`, `dfsStep`, `dijStep`, `gStep`) driven by a fueled runner.
  A cell (a `Node` object in Python) is identified with its `(row, col)`
  position, and the mutable grid is a function `Pos → Color`.  The runner
  takes a cancellation oracle: `cancel i = true` models the user pausing at
  iteration `i` and a `pygame.QUIT` event being observed, which makes the
  source return `(False, visited_nodes_count, 0)`.  The plain, uninterrupted
  run uses the constantly-false oracle.
  `dijkstra` and `astar` differ only in the key pushed on the heap and the
  stale-entry test, so both are instances of `gStep` over a heuristic
  function `hf`; `dijkstra`'s source has no `f_score` map and is embedded
  separately as `dijStep`, and `dijStep_eq_gStep` proves it coincides with
  `gStep` at `hf = 0`.
  Python's `heapq` pops a minimum of the lexicographic order on
  `(score, count, node)` tuples; since every pushed `count` is distinct the
  third component is never compared (`Node.__lt__` returns `False`), so the
  heap is modelled as a plain list with `popMin` extracting the entry with
  the least `(key, seq)`.
  Scores are Python numbers starting at `float("inf")`, modelled by
  `WithTop Nat`.
  Each state carries a ghost field `expanded` recording, in order, the cells
  that were popped from the frontier and actually processed (stale heap
  entries are skipped before this point, and the pop of `end` returns
  immediately and is not recorded); it instruments the specification of the
  visited-count bookkeeping and does not influence the computation.
-/

namespace PathViz

abbrev Pos : Type := Nat × Nat

inductive Color : Type
  | white
  | black
  | orange
  | turquoise
  | green
  | red
  | purple
deriving DecidableEq, Repr

open Color

/-- Pointwise update of a colour or score map, modelling one mutation of a
Python `Node` attribute or dict entry. -/
def upd {α : Type} (f : Pos → α) (p : Pos) (a : α) : Pos → α :=
  fun q => if q = p then a else f q

/-- Source `Node.is_barrier`: the cell is drawn black. -/
def isBarrier : Color → Bool
  | black => true
  | _ => false

/-- Source `Node.is_start`: the cell is drawn orange. -/
def isStart : Color → Bool
  | orange => true
  | _ => false

/-- Source `Node.is_end`: the cell is drawn turquoise. -/
def isEnd : Color → Bool
  | turquoise => true
  | _ => false

/-- Source `utils.heuristics.manhattan` on `(row, col)` pairs. -/
def manhattan (p1 p2 : Pos) : Nat :=
  ((p1.1 : Int) - (p2.1 : Int)).natAbs + ((p1.2 : Int) - (p2.2 : Int)).natAbs

/-- Source `Node.update_neighbors`: the cached neighbour list, in the order
down, up, right, left, keeping positions that are in bounds and not barriers
at refresh time. -/
def updateNeighbors (totalRows : Nat) (colors : Pos → Color) (p : Pos) : List Pos :=
  (if p.1 < totalRows - 1 ∧ ¬ isBarrier (colors (p.1 + 1, p.2)) then [(p.1 + 1, p.2)] else []) ++
  (if 0 < p.1 ∧ ¬ isBarrier (colors (p.1 - 1, p.2)) then [(p.1 - 1, p.2)] else []) ++
  (if p.2 < totalRows - 1 ∧ ¬ isBarrier (colors (p.1, p.2 + 1)) then [(p.1, p.2 + 1)] else []) ++
  (if 0 < p.2 ∧ ¬ isBarrier (colors (p.1, p.2 - 1)) then [(p.1, p.2 - 1)] else [])

/-- Source `Grid.clear_path_nodes`: every in-bounds cell that is not start,
end or barrier coloured is reset to white, then the given start and end cells
are recoloured orange and turquoise (in that order). -/
def clearPathNodes (rows : Nat) (colors : Pos → Color) (sp ep : Pos) : Pos → Color :=
  let base : Pos → Color := fun p =>
    if p.1 < rows ∧ p.2 < rows ∧
        ¬ (isStart (colors p) ∨ isEnd (colors p) ∨ isBarrier (colors p)) then
      white
    else colors p
  upd (upd base sp orange) ep turquoise

/-- Result triple returned by each algorithm in `algorithms.py`:
`(found_path_boolean, visited_nodes_count, path_length)`. -/
structure RunRes where
  found : Bool
  visitedCount : Nat
  pathLength : Nat
deriving DecidableEq, Repr

/-- Association-list model of a Python dict with most recent binding first;
`alookup` finds the most recent value, mirroring dict lookup after
overwriting assignments. -/
def alookup (cf : List (Pos × Pos)) (x : Pos) : Option Pos :=
  match cf with
  | [] => none
  | (k, v) :: t => if x = k then some v else alookup t x

/-- Source `reconstruct_path`: walk the predecessor map from the end cell,
appending each predecessor that is not start-coloured and painting it purple.
The walk advances to the predecessor before appending, so the end cell itself
is never appended.  The fuel argument only guards against a cyclic
predecessor map, which no reachable run state produces. -/
def reconstructPath : Nat → List (Pos × Pos) → Pos → (Pos → Color) → List Pos × (Pos → Color)
  | 0, _, _, colors => ([], colors)
  | fuel + 1, cf, cur, colors =>
    match alookup cf cur with
    | none => ([], colors)
    | some prev =>
      if isStart (colors prev) then
        reconstructPath fuel cf prev colors
      else
        let rest := reconstructPath fuel cf prev (upd colors prev purple)
        (prev :: rest.1, rest.2)

/-- One observable step of an algorithm loop: either the function returns
with a result and a final state, or the loop continues. -/
inductive StepRes (σ : Type) : Type
  | done : RunRes → σ → StepRes σ
  | next : σ → StepRes σ

/-! ## BFS (`algorithms.bfs`) -/

structure BfsSt where
  colors : Pos → Color
  queue : List Pos
  visited : List Pos
  cameFrom : List (Pos × Pos)
  cnt : Nat
  expanded : List Pos

def bfsInit (colors : Pos → Color) (sp : Pos) : BfsSt :=
  { colors := colors, queue := [sp], visited := [sp], cameFrom := [], cnt := 0, expanded := [] }

/-- Body of the neighbour loop of `bfs`: an unvisited non-barrier neighbour
is recorded as visited, given a predecessor, enqueued, and painted green
unless it is the end cell. -/
def bfsDiscover (tgt cur : Pos) (s : BfsSt) (n : Pos) : BfsSt :=
  if n ∉ s.visited ∧ ¬ isBarrier (s.colors n) then
    { s with visited := n :: s.visited
           , cameFrom := (n, cur) :: s.cameFrom
           , queue := s.queue ++ [n]
           , colors := if n ≠ tgt then upd s.colors n green else s.colors }
  else s

def bfsStep (nbrs : Pos → List Pos) (sp tgt : Pos) (s : BfsSt) : StepRes BfsSt :=
  match s.queue with
  | [] => StepRes.done ⟨false, s.cnt, 0⟩ s
  | cur :: rest =>
    if cur = tgt then
      let pr := reconstructPath (s.cameFrom.length + 1) s.cameFrom tgt s.colors
      StepRes.done ⟨true, s.cnt, pr.1.length + 1⟩
        { s with queue := rest, colors := upd (upd pr.2 tgt turquoise) sp orange }
    else
      let s1 := (nbrs cur).foldl (bfsDiscover tgt cur) { s with queue := rest }
      StepRes.next <|
        if cur ≠ sp ∧ cur ≠ tgt then
          { s1 with colors := upd s1.colors cur red, cnt := s1.cnt + 1,
                    expanded := s1.expanded ++ [cur] }
        else { s1 with expanded := s1.expanded ++ [cur] }

def bfsRunC (nbrs : Pos → List Pos) (sp tgt : Pos) (cancel : Nat → Bool) :
    Nat → Nat → BfsSt → Option (RunRes × BfsSt)
  | 0, _, _ => none
  | fuel + 1, i, s =>
    if cancel i then some (⟨false, s.cnt, 0⟩, s)
    else
      match bfsStep nbrs sp tgt s with
      | StepRes.done r s' => some (r, s')
      | StepRes.next s' => bfsRunC nbrs sp tgt cancel fuel (i + 1) s'

/-- Uninterrupted BFS run: no quit event is ever observed. -/
def bfsRun (nbrs : Pos → List Pos) (sp tgt : Pos) (fuel : Nat) (s : BfsSt) :
    Option (RunRes × BfsSt) :=
  bfsRunC nbrs sp tgt (fun _ => false) fuel 0 s

/-! ## DFS (`algorithms.dfs`)

The stack is stored with its top at the head of the list (`Python` appends
and pops at the end of its list; the orientation is reversed, the contents
and order of operations are identical). -/

structure DfsSt where
  colors : Pos → Color
  stack : List Pos
  visited : List Pos
  cameFrom : List (Pos × Pos)
  cnt : Nat
  expanded : List Pos

def dfsInit (colors : Pos → Color) (sp : Pos) : DfsSt :=
  { colors := colors, stack := [sp], visited := [sp], cameFrom := [], cnt := 0, expanded := [] }

def dfsDiscover (tgt cur : Pos) (s : DfsSt) (n : Pos) : DfsSt :=
  if n ∉ s.visited ∧ ¬ isBarrier (s.colors n) then
    { s with visited := n :: s.visited
           , cameFrom := (n, cur) :: s.cameFrom
           , stack := n :: s.stack
           , colors := if n ≠ tgt then upd s.colors n green else s.colors }
  else s

def dfsStep (nbrs : Pos → List Pos) (sp tgt : Pos) (s : DfsSt) : StepRes DfsSt :=
  match s.stack with
  | [] => StepRes.done ⟨false, s.cnt, 0⟩ s
  | cur :: rest =>
    if cur = tgt then
      let pr := reconstructPath (s.cameFrom.length + 1) s.cameFrom tgt s.colors
      StepRes.done ⟨true, s.cnt, pr.1.length + 1⟩
        { s with stack := rest, colors := upd (upd pr.2 tgt turquoise) sp orange }
    else
      let s0 :=
        if cur ≠ sp ∧ cur ≠ tgt then
          { s with stack := rest, colors := upd s.colors cur red, cnt := s.cnt + 1,
                   expanded := s.expanded ++ [cur] }
        else { s with stack := rest, expanded := s.expanded ++ [cur] }
      StepRes.next <| ((nbrs cur).reverse).foldl (dfsDiscover tgt cur) s0

def dfsRunC (nbrs : Pos → List Pos) (sp tgt : Pos) (cancel : Nat → Bool) :
    Nat → Nat → DfsSt → Option (RunRes × DfsSt)
  | 0, _, _ => none
  | fuel + 1, i, s =>
    if cancel i then some (⟨false, s.cnt, 0⟩, s)
    else
      match dfsStep nbrs sp tgt s with
      | StepRes.done r s' => some (r, s')
      | StepRes.next s' => dfsRunC nbrs sp tgt cancel fuel (i + 1) s'

def dfsRun (nbrs : Pos → List Pos) (sp tgt : Pos) (fuel : Nat) (s : DfsSt) :
    Option (RunRes × DfsSt) :=
  dfsRunC nbrs sp tgt (fun _ => false) fuel 0 s

/-! ## Heap model shared by Dijkstra and A* -/

structure HeapEntry where
  key : WithTop Nat
  seq : Nat
  node : Pos
deriving DecidableEq, Repr

/-- Extract the entry with the least `(key, seq)` from the list, together
with the remaining entries.  This is the observable behaviour of
`heapq.heappop` on tuples whose sequence numbers are pairwise distinct. -/
def popMin : List HeapEntry → Option (HeapEntry × List HeapEntry)
  | [] => none
  | e :: t =>
    match popMin t with
    | none => some (e, [])
    | some (m, rest) =>
      if e.key < m.key ∨ (e.key = m.key ∧ e.seq ≤ m.seq) then some (e, t)
      else some (m, e :: rest)

/-! ## Dijkstra (`algorithms.dijkstra`) -/

structure DijSt where
  colors : Pos → Color
  heap : List HeapEntry
  g : Pos → WithTop Nat
  cameFrom : List (Pos × Pos)
  hash : List Pos
  count : Nat
  cnt : Nat
  expanded : List Pos

def dijInit (colors : Pos → Color) (sp : Pos) : DijSt :=
  { colors := colors, heap := [⟨0, 0, sp⟩], g := upd (fun _ => ⊤) sp 0,
    cameFrom := [], hash := [sp], count := 0, cnt := 0, expanded := [] }

/-- Body of the neighbour loop of `dijkstra`: barrier neighbours are skipped;
when `g[current] + 1 < g[neighbor]` the predecessor and `g` are updated, and
if the neighbour is not pending in `open_set_hash` it is pushed with a fresh
sequence number and painted green unless it is the end cell. -/
def dijRelax (tgt cur : Pos) (s : DijSt) (n : Pos) : DijSt :=
  if isBarrier (s.colors n) then s
  else
    let temp := s.g cur + 1
    if temp < s.g n then
      let s1 := { s with cameFrom := (n, cur) :: s.cameFrom, g := upd s.g n temp }
      if n ∈ s1.hash then s1
      else
        { s1 with count := s1.count + 1
                , heap := s1.heap ++ [⟨temp, s1.count + 1, n⟩]
                , hash := n :: s1.hash
                , colors := if n ≠ tgt then upd s1.colors n green else s1.colors }
    else s

def dijStep (nbrs : Pos → List Pos) (sp tgt : Pos) (s : DijSt) : StepRes DijSt :=
  match popMin s.heap with
  | none => StepRes.done ⟨false, s.cnt, 0⟩ s
  | some (e, rest) =>
    let cur := e.node
    let s0 := { s with heap := rest, hash := s.hash.erase cur }
    if s0.g cur < e.key then StepRes.next s0
    else if cur = tgt then
      let pr := reconstructPath (s0.cameFrom.length + 1) s0.cameFrom tgt s0.colors
      StepRes.done ⟨true, s0.cnt, pr.1.length + 1⟩
        { s0 with colors := upd (upd pr.2 tgt turquoise) sp orange }
    else
      let s1 := (nbrs cur).foldl (dijRelax tgt cur) s0
      StepRes.next <|
        if cur ≠ sp ∧ cur ≠ tgt then
          { s1 with colors := upd s1.colors cur red, cnt := s1.cnt + 1,
                    expanded := s1.expanded ++ [cur] }
        else { s1 with expanded := s1.expanded ++ [cur] }

def dijRunC (nbrs : Pos → List Pos) (sp tgt : Pos) (cancel : Nat → Bool) :
    Nat → Nat → DijSt → Option (RunRes × DijSt)
  | 0, _, _ => none
  | fuel + 1, i, s =>
    if cancel i then some (⟨false, s.cnt, 0⟩, s)
    else
      match dijStep nbrs sp tgt s with
      | StepRes.done r s' => some (r, s')
      | StepRes.next s' => dijRunC nbrs sp tgt cancel fuel (i + 1) s'

def dijRun (nbrs : Pos → List Pos) (sp tgt : Pos) (fuel : Nat) (s : DijSt) :
    Option (RunRes × DijSt) :=
  dijRunC nbrs sp tgt (fun _ => false) fuel 0 s

/-! ## A* (`algorithms.astar`), generalised over the heuristic

`gStep hf` mirrors the source of `astar` with `h(node, end, "manhattan")`
abstracted to `hf node`; `astar` instantiates `hf` with the Manhattan
distance to the end cell.  `dijkstra` coincides with the instance `hf = 0`
(theorem `dijStep_eq_gStep`). -/

structure GSt where
  colors : Pos → Color
  heap : List HeapEntry
  g : Pos → WithTop Nat
  f : Pos → WithTop Nat
  cameFrom : List (Pos × Pos)
  hash : List Pos
  count : Nat
  cnt : Nat
  expanded : List Pos

def gInit (hf : Pos → Nat) (colors : Pos → Color) (sp : Pos) : GSt :=
  { colors := colors, heap := [⟨0, 0, sp⟩], g := upd (fun _ => ⊤) sp 0,
    f := upd (fun _ => ⊤) sp (hf sp), cameFrom := [], hash := [sp],
    count := 0, cnt := 0, expanded := [] }

def gRelax (hf : Pos → Nat) (tgt cur : Pos) (s : GSt) (n : Pos) : GSt :=
  if isBarrier (s.colors n) then s
  else
    let temp := s.g cur + 1
    if temp < s.g n then
      let s1 := { s with cameFrom := (n, cur) :: s.cameFrom, g := upd s.g n temp,
                         f := upd s.f n (temp + (hf n : WithTop Nat)) }
      if n ∈ s1.hash then s1
      else
        { s1 with count := s1.count + 1
                , heap := s1.heap ++ [⟨temp + (hf n : WithTop Nat), s1.count + 1, n⟩]
                , hash := n :: s1.hash
                , colors := if n ≠ tgt then upd s1.colors n green else s1.colors }
    else s

def gStep (hf : Pos → Nat) (nbrs : Pos → List Pos) (sp tgt : Pos) (s : GSt) : StepRes GSt :=
  match popMin s.heap with
  | none => StepRes.done ⟨false, s.cnt, 0⟩ s
  | some (e, rest) =>
    let cur := e.node
    let s0 := { s with heap := rest, hash := s.hash.erase cur }
    if s0.f cur < e.key then StepRes.next s0
    else if cur = tgt then
      let pr := reconstructPath (s0.cameFrom.length + 1) s0.cameFrom tgt s0.colors
      StepRes.done ⟨true, s0.cnt, pr.1.length + 1⟩
        { s0 with colors := upd (upd pr.2 tgt turquoise) sp orange }
    else
      let s1 := (nbrs cur).foldl (gRelax hf tgt cur) s0
      StepRes.next <|
        if cur ≠ sp ∧ cur ≠ tgt then
          { s1 with colors := upd s1.colors cur red, cnt := s1.cnt + 1,
                    expanded := s1.expanded ++ [cur] }
        else { s1 with expanded := s1.expanded ++ [cur] }

def gRunC (hf : Pos → Nat) (nbrs : Pos → List Pos) (sp tgt : Pos) (cancel : Nat → Bool) :
    Nat → Nat → GSt → Option (RunRes × GSt)
  | 0, _, _ => none
  | fuel + 1, i, s =>
    if cancel i then some (⟨false, s.cnt, 0⟩, s)
    else
      match gStep hf nbrs sp tgt s with
      | StepRes.done r s' => some (r, s')
      | StepRes.next s' => gRunC hf nbrs sp tgt cancel fuel (i + 1) s'

def gRun (hf : Pos → Nat) (nbrs : Pos → List Pos) (sp tgt : Pos) (fuel : Nat) (s : GSt) :
    Option (RunRes × GSt) :=
  gRunC hf nbrs sp tgt (fun _ => false) fuel 0 s

/-- The heuristic used by the source `astar`: Manhattan distance to the end
cell. -/
def astarH (tgt : Pos) : Pos → Nat := fun p => manhattan p tgt

def astarInit (colors : Pos → Color) (sp tgt : Pos) : GSt :=
  gInit (astarH tgt) colors sp

def astarRunC (nbrs : Pos → List Pos) (sp tgt : Pos) (cancel : Nat → Bool)
    (fuel i : Nat) (s : GSt) : Option (RunRes × GSt) :=
  gRunC (astarH tgt) nbrs sp tgt cancel fuel i s

def astarRun (nbrs : Pos → List Pos) (sp tgt : Pos) (fuel : Nat) (s : GSt) :
    Option (RunRes × GSt) :=
  astarRunC nbrs sp tgt (fun _ => false) fuel 0 s

/-! ## Grid construction (`grid.Node.__init__`, `Grid.__init__`, `Grid.make_grid`)

Python integers are modelled by `Int` and `//` by `Int.fdiv` (floor
division).  `Grid.__init__` computes `width // rows` before building the
cell array, so construction fails (raises `ZeroDivisionError`, modelled by
`none`) exactly when `rows = 0`; `range(rows)` of a negative `rows` is
empty, modelled by `Int.toNat`. -/

structure PyNode where
  row : Int
  col : Int
  x : Int
  y : Int
  color : Color
  size : Int
  total_rows : Int
deriving DecidableEq, Repr

def nodeInit (row col size totalRows : Int) : PyNode :=
  { row := row, col := col, x := col * size, y := row * size,
    color := white, size := size, total_rows := totalRows }

def makeGrid (rows gap : Int) : List (List PyNode) :=
  (List.range rows.toNat).map fun i =>
    (List.range rows.toNat).map fun j => nodeInit (Int.ofNat i) (Int.ofNat j) gap rows

structure PyGrid where
  rows : Int
  width : Int
  gap : Int
  grid_nodes : List (List PyNode)
deriving DecidableEq, Repr

def gridInit (rows width : Int) : Option PyGrid :=
  if rows = 0 then none
  else
    let gap := width.fdiv rows
    some { rows := rows, width := width, gap := gap, grid_nodes := makeGrid rows gap }

/-! ## Concrete scenario: start adjacent to end on a 2 by 2 grid -/

/-- A 2 by 2 grid with no barriers, start at `(0,0)` and end at `(0,1)`. -/
def adjColors : Pos → Color := fun p =>
  if p = (0, 0) then orange else if p = (0, 1) then turquoise else white

/-- Freshly refreshed neighbour caches for `adjColors`. -/
def adjNbrs : Pos → List Pos := fun p => updateNeighbors 2 adjColors p

/-! ## Concrete scenario: the grid on which A* loses a pending node

A 7 by 7 grid whose open cells form two corridors from the start `(3,6)`
meeting at the cell `(2,2)`, which is the only access to the end `(0,0)`.
The corridor through `(1,2)` reaches `(2,2)` with cost 9, the corridor
through `(2,3)` with cost 7.  A* discovers `(2,2)` first from `(1,2)`
(f-score 13, pushed), then improves it from `(2,3)` while it is pending in
`open_set_hash` (f-score becomes 11) without pushing a new heap entry; when
the old entry with key 13 is popped it fails the stale test `13 > 11` and is
discarded, so `(2,2)` is never expanded and the end is never reached. -/
def mazeOpen : List Pos :=
  [(3,6), (2,6), (1,6), (0,6), (0,5), (0,4), (0,3), (0,2), (1,2),
   (4,6), (4,5), (4,4), (4,3), (3,3), (2,3),
   (2,2), (2,1), (2,0), (1,0), (0,0)]

def mazeColors : Pos → Color := fun p =>
  if p = (3, 6) then orange
  else if p = (0, 0) then turquoise
  else if p ∈ mazeOpen then white
  else black

/-- Freshly refreshed neighbour caches for `mazeColors`. -/
def mazeNbrs : Pos → List Pos := fun p => updateNeighbors 7 mazeColors p

/-! ## Specification-side definitions for the neighbour refresh -/

/-- In-bounds predicate on integer coordinates. -/
abbrev inBoundsZ (rows : Nat) (q : Int × Int) : Prop :=
  0 ≤ q.1 ∧ q.1 < (rows : Int) ∧ 0 ≤ q.2 ∧ q.2 < (rows : Int)

/-- Specification-side definition, following the spec's words: the ordered
candidate sequence down, up, right, left over integer coordinates. -/
def neighborCandidates (p : Pos) : List (Int × Int) :=
  [((p.1 : Int) + 1, (p.2 : Int)), ((p.1 : Int) - 1, (p.2 : Int)),
   ((p.1 : Int), (p.2 : Int) + 1), ((p.1 : Int), (p.2 : Int) - 1)]

/-- Specification-side definition, following the spec's words: the candidate
sequence restricted to in-bounds positions whose cell is not tagged Barrier. -/
def neighborsSpec (rows : Nat) (colors : Pos → Color) (p : Pos) : List Pos :=
  ((neighborCandidates p).filter fun q =>
      decide (inBoundsZ rows q) && ! isBarrier (colors (q.1.toNat, q.2.toNat))).map
    fun q => (q.1.toNat, q.2.toNat)

/-! ## Concrete states used by witnesses -/

/-- A Dijkstra state holding one stale heap entry for the cell `(1,0)`:
the entry key 5 exceeds the cell's current best score 2. -/
def dijStaleSt : DijSt :=
  { dijInit adjColors (0, 0) with
      heap := [⟨5, 1, (1, 0)⟩], g := upd (upd (fun _ => ⊤) (0, 0) 0) (1, 0) 2 }

/-- An A* state holding one stale heap entry for the cell `(1,0)`. -/
def gStaleSt : GSt :=
  { gInit (astarH (0, 1)) adjColors (0, 0) with
      heap := [⟨5, 1, (1, 0)⟩], g := upd (upd (fun _ => ⊤) (0, 0) 0) (1, 0) 2,
      f := upd (upd (fun _ => ⊤) (0, 0) 1) (1, 0) 2 }

/-- A BFS state whose frontier is exhausted. -/
def bfsEmptySt : BfsSt := { bfsInit adjColors (0, 0) with queue := [] }

/-- A DFS state whose frontier is exhausted. -/
def dfsEmptySt : DfsSt := { dfsInit adjColors (0, 0) with stack := [] }

/-- A Dijkstra state whose frontier is exhausted. -/
def dijEmptySt : DijSt := { dijInit adjColors (0, 0) with heap := [] }

/-- An A* state whose frontier is exhausted. -/
def gEmptySt : GSt := { gInit (astarH (0, 1)) adjColors (0, 0) with heap := [] }

/-- Number of recorded expansions that are neither the start nor the end
cell; the specification of the visited-count bookkeeping. -/
def cntFilter (sp tgt : Pos) (l : List Pos) : Nat :=
  (l.filter fun p => decide (p ≠ sp ∧ p ≠ tgt)).length

/-- Invariant tying the visited counter and the frontier discipline of BFS:
the counter counts the recorded non-start/end expansions, no cell is both
expanded and queued or twice in either, and every expanded or queued cell
has been marked visited. -/
def bfsC4Inv (sp tgt : Pos) (s : BfsSt) : Prop :=
  s.cnt = cntFilter sp tgt s.expanded ∧
  (s.expanded ++ s.queue).Nodup ∧
  ∀ x ∈ s.expanded ++ s.queue, x ∈ s.visited

/-- Invariant tying the visited counter and the frontier discipline of DFS. -/
def dfsC4Inv (sp tgt : Pos) (s : DfsSt) : Prop :=
  s.cnt = cntFilter sp tgt s.expanded ∧
  (s.expanded ++ s.stack).Nodup ∧
  ∀ x ∈ s.expanded ++ s.stack, x ∈ s.visited

/-- Invariant for the Dijkstra/A* loop tying the visited counter, the ghost
list of processed expansions, the score maps and the frontier discipline:
`f` is `g` plus the heuristic, every pending entry's key bounds its node's
current `f` from above, expanded cells' `f` values bound every pending key
from below, every node has at most one pending heap entry mirrored exactly
by `open_set_hash`, and no expanded cell is pending. -/
def gC4Inv (hf : Pos → Nat) (sp tgt : Pos) (s : GSt) : Prop :=
  s.cnt = cntFilter sp tgt s.expanded ∧
  s.expanded.Nodup ∧
  (∀ n, s.f n = s.g n + (hf n : WithTop Nat)) ∧
  (∀ e ∈ s.heap, s.f e.node ≤ e.key) ∧
  (∀ p ∈ s.expanded, ∀ e ∈ s.heap, s.f p ≤ e.key) ∧
  (s.heap.map HeapEntry.node).Nodup ∧
  (∀ n, n ∈ s.hash ↔ n ∈ s.heap.map HeapEntry.node) ∧
  s.hash.Nodup ∧
  (∀ p ∈ s.expanded, p ∉ s.hash)

/-- Invariant carried through the relaxation fold of a single expansion:
`prot` is the list of protected cells (the previously expanded cells plus
the cell being expanded); their scores are never touched by the fold and
they are never pushed. -/
def gFoldInv (hf : Pos → Nat) (prot : List Pos) (s0 x : GSt) : Prop :=
  (∀ p ∈ prot, x.g p = s0.g p ∧ x.f p = s0.f p) ∧
  (∀ n, x.f n = x.g n + (hf n : WithTop Nat)) ∧
  (∀ e ∈ x.heap, x.f e.node ≤ e.key) ∧
  (∀ p ∈ prot, ∀ e ∈ x.heap, x.f p ≤ e.key) ∧
  (x.heap.map HeapEntry.node).Nodup ∧
  (∀ n, n ∈ x.hash ↔ n ∈ x.heap.map HeapEntry.node) ∧
  (∀ p ∈ prot, p ∉ x.hash) ∧
  x.hash.Nodup ∧
  x.expanded = s0.expanded

/-- Projection of a Dijkstra state onto the generalised A* state space:
Dijkstra is A* with the zero heuristic, the `f` map coinciding with `g`. -/
def gOfDij (d : DijSt) : GSt :=
  { colors := d.colors, heap := d.heap, g := d.g, f := d.g, cameFrom := d.cameFrom,
    hash := d.hash, count := d.count, cnt := d.cnt, expanded := d.expanded }

/-- `gOfDij` lifted to step results. -/
def gOfDijRes : StepRes DijSt → StepRes GSt
  | StepRes.done r s => StepRes.done r (gOfDij s)
  | StepRes.next s => StepRes.next (gOfDij s)

/-- Colour classification maintained by every run started from a clean grid
`colors0`: start shows Start, end shows End, and every other cell either
still shows its dispatch-time colour or is an in-bounds cell that was white
at dispatch and now carries a run mark (Frontier green, Visited red or Path
purple) — exactly the marks `clear_path_nodes` resets. -/
def colorClass (rows : Nat) (colors0 : Pos → Color) (sp tgt : Pos) (c : Pos → Color) : Prop :=
  c sp = orange ∧ c tgt = turquoise ∧
  ∀ q, q ≠ sp → q ≠ tgt → c q = colors0 q ∨
    (q.1 < rows ∧ q.2 < rows ∧ colors0 q = white ∧
      (c q = green ∨ c q = red ∨ c q = purple))

/-- Every frontier cell is in bounds and, unless it is the start or the end,
was white at dispatch time. -/
def frontierOK (rows : Nat) (colors0 : Pos → Color) (sp tgt : Pos) (l : List Pos) : Prop :=
  ∀ q ∈ l, (q.1 < rows ∧ q.2 < rows) ∧ (q ≠ sp → q ≠ tgt → colors0 q = white)

/-- Every predecessor stored in `came_from` is in bounds and, unless it is
the start or the end, was white at dispatch time. -/
def cameFromOK (rows : Nat) (colors0 : Pos → Color) (sp tgt : Pos)
    (cf : List (Pos × Pos)) : Prop :=
  ∀ pr ∈ cf, (pr.2.1 < rows ∧ pr.2.2 < rows) ∧
    (pr.2 ≠ sp → pr.2 ≠ tgt → colors0 pr.2 = white)

/-- Run invariant for BFS used for the clean-up/re-run claim. -/
def bfsC8Inv (rows : Nat) (colors0 : Pos → Color) (sp tgt : Pos) (s : BfsSt) : Prop :=
  colorClass rows colors0 sp tgt s.colors ∧
  frontierOK rows colors0 sp tgt s.queue ∧
  sp ∈ s.visited ∧
  cameFromOK rows colors0 sp tgt s.cameFrom

/-- Run invariant for DFS used for the clean-up/re-run claim. -/
def dfsC8Inv (rows : Nat) (colors0 : Pos → Color) (sp tgt : Pos) (s : DfsSt) : Prop :=
  colorClass rows colors0 sp tgt s.colors ∧
  frontierOK rows colors0 sp tgt s.stack ∧
  sp ∈ s.visited ∧
  cameFromOK rows colors0 sp tgt s.cameFrom

/-- Run invariant for the Dijkstra/A* loop used for the clean-up/re-run
claim. -/
def gC8Inv (rows : Nat) (colors0 : Pos → Color) (sp tgt : Pos) (s : GSt) : Prop :=
  colorClass rows colors0 sp tgt s.colors ∧
  frontierOK rows colors0 sp tgt (s.heap.map HeapEntry.node) ∧
  s.g sp = 0 ∧
  cameFromOK rows colors0 sp tgt s.cameFrom

/-! ## Helper lemmas: fold invariants and visited-count monotonicity -/

theorem foldlPres {σ : Type} (P : σ → Prop) (f : σ → Pos → σ)
    (hf : ∀ s n, P s → P (f s n)) : ∀ (l : List Pos) (s : σ), P s → P (List.foldl f s l)
  | [], _, hs => hs
  | n :: t, s, hs => foldlPres P f hf t (f s n) (hf s n hs)

theorem bfsDiscover_cnt (tgt cur : Pos) (s : BfsSt) (n : Pos) :
    (bfsDiscover tgt cur s n).cnt = s.cnt := by
  unfold bfsDiscover
  split <;> rfl

theorem bfsFold_cnt (tgt cur : Pos) (l : List Pos) (s : BfsSt) :
    (List.foldl (bfsDiscover tgt cur) s l).cnt = s.cnt :=
  foldlPres (fun x => x.cnt = s.cnt) (bfsDiscover tgt cur)
    (fun x n hx => (bfsDiscover_cnt tgt cur x n).trans hx) l s rfl

theorem bfsStep_next_cnt {nbrs : Pos → List Pos} {sp tgt : Pos} {s s' : BfsSt}
    (h : bfsStep nbrs sp tgt s = StepRes.next s') : s.cnt ≤ s'.cnt := by
  unfold bfsStep at h
  split at h
  · exact absurd h (by simp)
  · split at h
    · exact absurd h (by simp)
    · cases h
      split <;> simp [bfsFold_cnt]

theorem bfsStep_done_cnt {nbrs : Pos → List Pos} {sp tgt : Pos} {s s' : BfsSt} {r : RunRes}
    (h : bfsStep nbrs sp tgt s = StepRes.done r s') : r.visitedCount = s.cnt := by
  unfold bfsStep at h
  split at h
  · cases h; rfl
  · split at h
    · cases h; rfl
    · exact absurd h (by simp)

theorem bfsRunC_cnt_le (nbrs : Pos → List Pos) (sp tgt : Pos) (cancel : Nat → Bool) :
    ∀ (fuel i : Nat) (s : BfsSt) (r : RunRes) (sc : BfsSt),
      bfsRunC nbrs sp tgt cancel fuel i s = some (r, sc) → s.cnt ≤ r.visitedCount := by
  intro fuel
  induction fuel with
  | zero => intro i s r sc h; exact absurd h (by simp [bfsRunC])
  | succ fuel ih =>
    intro i s r sc h
    rw [bfsRunC] at h
    by_cases hc : cancel i = true
    · rw [if_pos hc] at h
      cases h; rfl
    · rw [if_neg (by simpa using hc)] at h
      rcases hstep : bfsStep nbrs sp tgt s with _ | s0 <;> rw [hstep] at h
      · cases h
        exact le_of_eq (bfsStep_done_cnt hstep).symm
      · exact le_trans (bfsStep_next_cnt hstep) (ih _ _ _ _ h)

theorem bfsRunC_vs_plain (nbrs : Pos → List Pos) (sp tgt : Pos) (cancel : Nat → Bool) :
    ∀ (fuel i j : Nat) (s : BfsSt) (r r' : RunRes) (sc s' : BfsSt),
      bfsRunC nbrs sp tgt cancel fuel i s = some (r, sc) →
      bfsRunC nbrs sp tgt (fun _ => false) fuel j s = some (r', s') →
      (r.found = false ∧ r.visitedCount ≤ r'.visitedCount) ∨ ((r, sc) = (r', s')) := by
  intro fuel
  induction fuel with
  | zero => intro i j s r r' sc s' h _; exact absurd h (by simp [bfsRunC])
  | succ fuel ih =>
    intro i j s r r' sc s' h h'
    rw [bfsRunC] at h h'
    rw [if_neg (by simp)] at h'
    by_cases hc : cancel i = true
    · rw [if_pos hc] at h
      cases h
      refine Or.inl ⟨rfl, ?_⟩
      rcases hstep : bfsStep nbrs sp tgt s with _ | s0 <;> rw [hstep] at h'
      · cases h'
        exact le_of_eq (bfsStep_done_cnt hstep).symm
      · exact le_trans (bfsStep_next_cnt hstep)
          (bfsRunC_cnt_le nbrs sp tgt (fun _ => false) fuel (j + 1) _ _ _ h')
    · rw [if_neg (by simpa using hc)] at h
      rcases hstep : bfsStep nbrs sp tgt s with _ | s0 <;> rw [hstep] at h h'
      · cases h; cases h'
        exact Or.inr rfl
      · exact ih (i + 1) (j + 1) s0 r r' sc s' h h'

theorem dfsDiscover_cnt (tgt cur : Pos) (s : DfsSt) (n : Pos) :
    (dfsDiscover tgt cur s n).cnt = s.cnt := by
  unfold dfsDiscover
  split <;> rfl

theorem dfsFold_cnt (tgt cur : Pos) (l : List Pos) (s : DfsSt) :
    (List.foldl (dfsDiscover tgt cur) s l).cnt = s.cnt :=
  foldlPres (fun x => x.cnt = s.cnt) (dfsDiscover tgt cur)
    (fun x n hx => (dfsDiscover_cnt tgt cur x n).trans hx) l s rfl

theorem dfsStep_next_cnt {nbrs : Pos → List Pos} {sp tgt : Pos} {s s' : DfsSt}
    (h : dfsStep nbrs sp tgt s = StepRes.next s') : s.cnt ≤ s'.cnt := by
  unfold dfsStep at h
  split at h
  · exact absurd h (by simp)
  · split at h
    · exact absurd h (by simp)
    · cases h
      rw [dfsFold_cnt]
      split <;> simp

theorem dfsStep_done_cnt {nbrs : Pos → List Pos} {sp tgt : Pos} {s s' : DfsSt} {r : RunRes}
    (h : dfsStep nbrs sp tgt s = StepRes.done r s') : r.visitedCount = s.cnt := by
  unfold dfsStep at h
  split at h
  · cases h; rfl
  · split at h
    · cases h; rfl
    · exact absurd h (by simp)

theorem dfsRunC_cnt_le (nbrs : Pos → List Pos) (sp tgt : Pos) (cancel : Nat → Bool) :
    ∀ (fuel i : Nat) (s : DfsSt) (r : RunRes) (sc : DfsSt),
      dfsRunC nbrs sp tgt cancel fuel i s = some (r, sc) → s.cnt ≤ r.visitedCount := by
  intro fuel
  induction fuel with
  | zero => intro i s r sc h; exact absurd h (by simp [dfsRunC])
  | succ fuel ih =>
    intro i s r sc h
    rw [dfsRunC] at h
    by_cases hc : cancel i = true
    · rw [if_pos hc] at h
      cases h; rfl
    · rw [if_neg (by simpa using hc)] at h
      rcases hstep : dfsStep nbrs sp tgt s with _ | s0 <;> rw [hstep] at h
      · cases h
        exact le_of_eq (dfsStep_done_cnt hstep).symm
      · exact le_trans (dfsStep_next_cnt hstep) (ih _ _ _ _ h)

theorem dfsRunC_vs_plain (nbrs : Pos → List Pos) (sp tgt : Pos) (cancel : Nat → Bool) :
    ∀ (fuel i j : Nat) (s : DfsSt) (r r' : RunRes) (sc s' : DfsSt),
      dfsRunC nbrs sp tgt cancel fuel i s = some (r, sc) →
      dfsRunC nbrs sp tgt (fun _ => false) fuel j s = some (r', s') →
      (r.found = false ∧ r.visitedCount ≤ r'.visitedCount) ∨ ((r, sc) = (r', s')) := by
  intro fuel
  induction fuel with
  | zero => intro i j s r r' sc s' h _; exact absurd h (by simp [dfsRunC])
  | succ fuel ih =>
    intro i j s r r' sc s' h h'
    rw [dfsRunC] at h h'
    rw [if_neg (by simp)] at h'
    by_cases hc : cancel i = true
    · rw [if_pos hc] at h
      cases h
      refine Or.inl ⟨rfl, ?_⟩
      rcases hstep : dfsStep nbrs sp tgt s with _ | s0 <;> rw [hstep] at h'
      · cases h'
        exact le_of_eq (dfsStep_done_cnt hstep).symm
      · exact le_trans (dfsStep_next_cnt hstep)
          (dfsRunC_cnt_le nbrs sp tgt (fun _ => false) fuel (j + 1) _ _ _ h')
    · rw [if_neg (by simpa using hc)] at h
      rcases hstep : dfsStep nbrs sp tgt s with _ | s0 <;> rw [hstep] at h h'
      · cases h; cases h'
        exact Or.inr rfl
      · exact ih (i + 1) (j + 1) s0 r r' sc s' h h'

theorem dijRelax_cnt (tgt cur : Pos) (s : DijSt) (n : Pos) :
    (dijRelax tgt cur s n).cnt = s.cnt := by
  unfold dijRelax
  dsimp only
  split
  · rfl
  · split
    · split <;> rfl
    · rfl

theorem dijFold_cnt (tgt cur : Pos) (l : List Pos) (s : DijSt) :
    (List.foldl (dijRelax tgt cur) s l).cnt = s.cnt :=
  foldlPres (fun x => x.cnt = s.cnt) (dijRelax tgt cur)
    (fun x n hx => (dijRelax_cnt tgt cur x n).trans hx) l s rfl

theorem dijStep_next_cnt {nbrs : Pos → List Pos} {sp tgt : Pos} {s s' : DijSt}
    (h : dijStep nbrs sp tgt s = StepRes.next s') : s.cnt ≤ s'.cnt := by
  unfold dijStep at h
  split at h
  · exact absurd h (by simp)
  · dsimp only at h
    split at h
    · cases h
      exact le_refl _
    · split at h
      · exact absurd h (by simp)
      · cases h
        split <;> simp [dijFold_cnt]

theorem dijStep_done_cnt {nbrs : Pos → List Pos} {sp tgt : Pos} {s s' : DijSt} {r : RunRes}
    (h : dijStep nbrs sp tgt s = StepRes.done r s') : r.visitedCount = s.cnt := by
  unfold dijStep at h
  split at h
  · cases h; rfl
  · dsimp only at h
    split at h
    · exact absurd h (by simp)
    · split at h
      · cases h; rfl
      · exact absurd h (by simp)

theorem dijRunC_cnt_le (nbrs : Pos → List Pos) (sp tgt : Pos) (cancel : Nat → Bool) :
    ∀ (fuel i : Nat) (s : DijSt) (r : RunRes) (sc : DijSt),
      dijRunC nbrs sp tgt cancel fuel i s = some (r, sc) → s.cnt ≤ r.visitedCount := by
  intro fuel
  induction fuel with
  | zero => intro i s r sc h; exact absurd h (by simp [dijRunC])
  | succ fuel ih =>
    intro i s r sc h
    rw [dijRunC] at h
    by_cases hc : cancel i = true
    · rw [if_pos hc] at h
      cases h; rfl
    · rw [if_neg (by simpa using hc)] at h
      rcases hstep : dijStep nbrs sp tgt s with _ | s0 <;> rw [hstep] at h
      · cases h
        exact le_of_eq (dijStep_done_cnt hstep).symm
      · exact le_trans (dijStep_next_cnt hstep) (ih _ _ _ _ h)

theorem dijRunC_vs_plain (nbrs : Pos → List Pos) (sp tgt : Pos) (cancel : Nat → Bool) :
    ∀ (fuel i j : Nat) (s : DijSt) (r r' : RunRes) (sc s' : DijSt),
      dijRunC nbrs sp tgt cancel fuel i s = some (r, sc) →
      dijRunC nbrs sp tgt (fun _ => false) fuel j s = some (r', s') →
      (r.found = false ∧ r.visitedCount ≤ r'.visitedCount) ∨ ((r, sc) = (r', s')) := by
  intro fuel
  induction fuel with
  | zero => intro i j s r r' sc s' h _; exact absurd h (by simp [dijRunC])
  | succ fuel ih =>
    intro i j s r r' sc s' h h'
    rw [dijRunC] at h h'
    rw [if_neg (by simp)] at h'
    by_cases hc : cancel i = true
    · rw [if_pos hc] at h
      cases h
      refine Or.inl ⟨rfl, ?_⟩
      rcases hstep : dijStep nbrs sp tgt s with _ | s0 <;> rw [hstep] at h'
      · cases h'
        exact le_of_eq (dijStep_done_cnt hstep).symm
      · exact le_trans (dijStep_next_cnt hstep)
          (dijRunC_cnt_le nbrs sp tgt (fun _ => false) fuel (j + 1) _ _ _ h')
    · rw [if_neg (by simpa using hc)] at h
      rcases hstep : dijStep nbrs sp tgt s with _ | s0 <;> rw [hstep] at h h'
      · cases h; cases h'
        exact Or.inr rfl
      · exact ih (i + 1) (j + 1) s0 r r' sc s' h h'

theorem gRelax_cnt (hf : Pos → Nat) (tgt cur : Pos) (s : GSt) (n : Pos) :
    (gRelax hf tgt cur s n).cnt = s.cnt := by
  unfold gRelax
  dsimp only
  split
  · rfl
  · split
    · split <;> rfl
    · rfl

theorem gFold_cnt (hf : Pos → Nat) (tgt cur : Pos) (l : List Pos) (s : GSt) :
    (List.foldl (gRelax hf tgt cur) s l).cnt = s.cnt :=
  foldlPres (fun x => x.cnt = s.cnt) (gRelax hf tgt cur)
    (fun x n hx => (gRelax_cnt hf tgt cur x n).trans hx) l s rfl

theorem gStep_next_cnt {hf : Pos → Nat} {nbrs : Pos → List Pos} {sp tgt : Pos} {s s' : GSt}
    (h : gStep hf nbrs sp tgt s = StepRes.next s') : s.cnt ≤ s'.cnt := by
  unfold gStep at h
  split at h
  · exact absurd h (by simp)
  · dsimp only at h
    split at h
    · cases h
      exact le_refl _
    · split at h
      · exact absurd h (by simp)
      · cases h
        split <;> simp [gFold_cnt]

theorem gStep_done_cnt {hf : Pos → Nat} {nbrs : Pos → List Pos} {sp tgt : Pos} {s s' : GSt}
    {r : RunRes} (h : gStep hf nbrs sp tgt s = StepRes.done r s') : r.visitedCount = s.cnt := by
  unfold gStep at h
  split at h
  · cases h; rfl
  · dsimp only at h
    split at h
    · exact absurd h (by simp)
    · split at h
      · cases h; rfl
      · exact absurd h (by simp)

theorem gRunC_cnt_le (hf : Pos → Nat) (nbrs : Pos → List Pos) (sp tgt : Pos)
    (cancel : Nat → Bool) :
    ∀ (fuel i : Nat) (s : GSt) (r : RunRes) (sc : GSt),
      gRunC hf nbrs sp tgt cancel fuel i s = some (r, sc) → s.cnt ≤ r.visitedCount := by
  intro fuel
  induction fuel with
  | zero => intro i s r sc h; exact absurd h (by simp [gRunC])
  | succ fuel ih =>
    intro i s r sc h
    rw [gRunC] at h
    by_cases hc : cancel i = true
    · rw [if_pos hc] at h
      cases h; rfl
    · rw [if_neg (by simpa using hc)] at h
      rcases hstep : gStep hf nbrs sp tgt s with _ | s0 <;> rw [hstep] at h
      · cases h
        exact le_of_eq (gStep_done_cnt hstep).symm
      · exact le_trans (gStep_next_cnt hstep) (ih _ _ _ _ h)

theorem gRunC_vs_plain (hf : Pos → Nat) (nbrs : Pos → List Pos) (sp tgt : Pos)
    (cancel : Nat → Bool) :
    ∀ (fuel i j : Nat) (s : GSt) (r r' : RunRes) (sc s' : GSt),
      gRunC hf nbrs sp tgt cancel fuel i s = some (r, sc) →
      gRunC hf nbrs sp tgt (fun _ => false) fuel j s = some (r', s') →
      (r.found = false ∧ r.visitedCount ≤ r'.visitedCount) ∨ ((r, sc) = (r', s')) := by
  intro fuel
  induction fuel with
  | zero => intro i j s r r' sc s' h _; exact absurd h (by simp [gRunC])
  | succ fuel ih =>
    intro i j s r r' sc s' h h'
    rw [gRunC] at h h'
    rw [if_neg (by simp)] at h'
    by_cases hc : cancel i = true
    · rw [if_pos hc] at h
      cases h
      refine Or.inl ⟨rfl, ?_⟩
      rcases hstep : gStep hf nbrs sp tgt s with _ | s0 <;> rw [hstep] at h'
      · cases h'
        exact le_of_eq (gStep_done_cnt hstep).symm
      · exact le_trans (gStep_next_cnt hstep)
          (gRunC_cnt_le hf nbrs sp tgt (fun _ => false) fuel (j + 1) _ _ _ h')
    · rw [if_neg (by simpa using hc)] at h
      rcases hstep : gStep hf nbrs sp tgt s with _ | s0 <;> rw [hstep] at h h'
      · cases h; cases h'
        exact Or.inr rfl
      · exact ih (i + 1) (j + 1) s0 r r' sc s' h h'

/-! ## Helper lemmas: the popMin heap model -/

theorem popMin_cons (a : HeapEntry) (t : List HeapEntry) :
    popMin (a :: t) =
      match popMin t with
      | none => some (a, [])
      | some (m, rest) =>
        if a.key < m.key ∨ (a.key = m.key ∧ a.seq ≤ m.seq) then some (a, t)
        else some (m, a :: rest) := rfl

theorem popMin_eq_none {l : List HeapEntry} : popMin l = none ↔ l = [] := by
  cases l with
  | nil => simp [popMin]
  | cons a t =>
    rw [popMin_cons]
    rcases ht : popMin t with _ | ⟨m, r⟩
    · simp
    · constructor
      · intro h
        dsimp only at h
        split at h <;> exact absurd h (by simp)
      · intro h
        exact absurd h (by simp)

theorem popMin_perm : ∀ {l : List HeapEntry} {e : HeapEntry} {rest : List HeapEntry},
    popMin l = some (e, rest) → l.Perm (e :: rest) := by
  intro l
  induction l with
  | nil => intro e rest h; simp [popMin] at h
  | cons a t ih =>
    intro e rest h
    rw [popMin_cons] at h
    rcases ht : popMin t with _ | ⟨m, r⟩ <;> rw [ht] at h <;> dsimp only at h
    · cases h
      rw [popMin_eq_none.mp ht]
    · split at h
      · cases h
        exact List.Perm.refl _
      · cases h
        exact ((ih ht).cons a).trans (List.Perm.swap _ _ _)

theorem popMin_le_key : ∀ {l : List HeapEntry} {e : HeapEntry} {rest : List HeapEntry},
    popMin l = some (e, rest) → ∀ x ∈ l, e.key ≤ x.key := by
  intro l
  induction l with
  | nil => intro e rest h; simp [popMin] at h
  | cons a t ih =>
    intro e rest h x hx
    rw [popMin_cons] at h
    rcases ht : popMin t with _ | ⟨m, r⟩ <;> rw [ht] at h <;> dsimp only at h
    · cases h
      rcases List.mem_cons.mp hx with rfl | hx
      · exact le_refl _
      · rw [popMin_eq_none.mp ht] at hx
        exact absurd hx (by simp)
    · split at h
      · rename_i hcond
        cases h
        rcases List.mem_cons.mp hx with rfl | hx
        · exact le_refl _
        · have hem : a.key ≤ m.key := by
            rcases hcond with h1 | h2
            · exact le_of_lt h1
            · exact le_of_eq h2.1
          exact le_trans hem (ih ht x hx)
      · rename_i hcond
        cases h
        rcases List.mem_cons.mp hx with rfl | hx
        · exact le_of_not_lt (fun hl => hcond (Or.inl hl))
        · exact ih ht x hx

/-! ## Helper lemmas: visited count equals the number of counted expansions

The ghost `expanded` field records processed pops in order; these lemmas
show `cnt` always equals the number of recorded expansions that are neither
start nor end. -/

theorem cntFilter_append (sp tgt : Pos) (l : List Pos) (cur : Pos) :
    cntFilter sp tgt (l ++ [cur]) =
      cntFilter sp tgt l + (if cur ≠ sp ∧ cur ≠ tgt then 1 else 0) := by
  by_cases h : cur ≠ sp ∧ cur ≠ tgt <;>
    simp [cntFilter, List.filter_append, h]

theorem bfsStep_cntFilter {nbrs : Pos → List Pos} {sp tgt : Pos} {s : BfsSt}
    (hs : s.cnt = cntFilter sp tgt s.expanded) :
    (∀ s', bfsStep nbrs sp tgt s = StepRes.next s' →
      s'.cnt = cntFilter sp tgt s'.expanded) ∧
    (∀ r s', bfsStep nbrs sp tgt s = StepRes.done r s' →
      r.visitedCount = cntFilter sp tgt s'.expanded) := by
  have hfold : ∀ (cur : Pos) (l : List Pos) (x : BfsSt),
      (List.foldl (bfsDiscover tgt cur) x l).cnt = x.cnt ∧
      (List.foldl (bfsDiscover tgt cur) x l).expanded = x.expanded := by
    intro cur l x
    refine foldlPres (fun y => y.cnt = x.cnt ∧ y.expanded = x.expanded) _ ?_ l x ⟨rfl, rfl⟩
    intro y n hy
    unfold bfsDiscover
    split <;> simpa using hy
  constructor
  · intro s' h
    unfold bfsStep at h
    split at h
    · exact absurd h (by simp)
    · split at h
      · exact absurd h (by simp)
      · cases h
        rename_i cur rest hq hc
        split <;> rename_i hcond <;> (try dsimp only) <;>
          rw [(hfold cur (nbrs cur) _).1, (hfold cur (nbrs cur) _).2, cntFilter_append] <;>
          (try dsimp only) <;> rw [hs] <;> simp [hcond]
  · intro r s' h
    unfold bfsStep at h
    split at h
    · cases h
      exact hs
    · split at h
      · cases h
        exact hs
      · exact absurd h (by simp)

theorem dfsStep_cntFilter {nbrs : Pos → List Pos} {sp tgt : Pos} {s : DfsSt}
    (hs : s.cnt = cntFilter sp tgt s.expanded) :
    (∀ s', dfsStep nbrs sp tgt s = StepRes.next s' →
      s'.cnt = cntFilter sp tgt s'.expanded) ∧
    (∀ r s', dfsStep nbrs sp tgt s = StepRes.done r s' →
      r.visitedCount = cntFilter sp tgt s'.expanded) := by
  have hfold : ∀ (cur : Pos) (l : List Pos) (x : DfsSt),
      (List.foldl (dfsDiscover tgt cur) x l).cnt = x.cnt ∧
      (List.foldl (dfsDiscover tgt cur) x l).expanded = x.expanded := by
    intro cur l x
    refine foldlPres (fun y => y.cnt = x.cnt ∧ y.expanded = x.expanded) _ ?_ l x ⟨rfl, rfl⟩
    intro y n hy
    unfold dfsDiscover
    split <;> simpa using hy
  constructor
  · intro s' h
    unfold dfsStep at h
    split at h
    · exact absurd h (by simp)
    · split at h
      · exact absurd h (by simp)
      · cases h
        rename_i cur rest hq hc
        rw [(hfold cur (nbrs cur).reverse _).1, (hfold cur (nbrs cur).reverse _).2]
        split <;> rename_i hcond <;> (try dsimp only) <;>
          rw [cntFilter_append] <;> (try dsimp only) <;> rw [hs] <;> simp [hcond]
  · intro r s' h
    unfold dfsStep at h
    split at h
    · cases h
      exact hs
    · split at h
      · cases h
        exact hs
      · exact absurd h (by simp)

theorem dijStep_cntFilter {nbrs : Pos → List Pos} {sp tgt : Pos} {s : DijSt}
    (hs : s.cnt = cntFilter sp tgt s.expanded) :
    (∀ s', dijStep nbrs sp tgt s = StepRes.next s' →
      s'.cnt = cntFilter sp tgt s'.expanded) ∧
    (∀ r s', dijStep nbrs sp tgt s = StepRes.done r s' →
      r.visitedCount = cntFilter sp tgt s'.expanded) := by
  have hfold : ∀ (cur : Pos) (l : List Pos) (x : DijSt),
      (List.foldl (dijRelax tgt cur) x l).cnt = x.cnt ∧
      (List.foldl (dijRelax tgt cur) x l).expanded = x.expanded := by
    intro cur l x
    refine foldlPres (fun y => y.cnt = x.cnt ∧ y.expanded = x.expanded) _ ?_ l x ⟨rfl, rfl⟩
    intro y n hy
    unfold dijRelax
    dsimp only
    split
    · exact hy
    · split
      · split <;> simpa using hy
      · exact hy
  constructor
  · intro s' h
    unfold dijStep at h
    split at h
    · exact absurd h (by simp)
    · dsimp only at h
      split at h
      · cases h
        exact hs
      · split at h
        · exact absurd h (by simp)
        · cases h
          rename_i e rest hpop hstale hc
          split <;> rename_i hcond <;> (try dsimp only) <;>
            rw [(hfold e.node (nbrs e.node) _).1, (hfold e.node (nbrs e.node) _).2,
              cntFilter_append] <;>
            (try dsimp only) <;> rw [hs] <;> simp [hcond]
  · intro r s' h
    unfold dijStep at h
    split at h
    · cases h
      exact hs
    · dsimp only at h
      split at h
      · exact absurd h (by simp)
      · split at h
        · cases h
          exact hs
        · exact absurd h (by simp)

theorem gStep_cntFilter {hf : Pos → Nat} {nbrs : Pos → List Pos} {sp tgt : Pos} {s : GSt}
    (hs : s.cnt = cntFilter sp tgt s.expanded) :
    (∀ s', gStep hf nbrs sp tgt s = StepRes.next s' →
      s'.cnt = cntFilter sp tgt s'.expanded) ∧
    (∀ r s', gStep hf nbrs sp tgt s = StepRes.done r s' →
      r.visitedCount = cntFilter sp tgt s'.expanded) := by
  have hfold : ∀ (cur : Pos) (l : List Pos) (x : GSt),
      (List.foldl (gRelax hf tgt cur) x l).cnt = x.cnt ∧
      (List.foldl (gRelax hf tgt cur) x l).expanded = x.expanded := by
    intro cur l x
    refine foldlPres (fun y => y.cnt = x.cnt ∧ y.expanded = x.expanded) _ ?_ l x ⟨rfl, rfl⟩
    intro y n hy
    unfold gRelax
    dsimp only
    split
    · exact hy
    · split
      · split <;> simpa using hy
      · exact hy
  constructor
  · intro s' h
    unfold gStep at h
    split at h
    · exact absurd h (by simp)
    · dsimp only at h
      split at h
      · cases h
        exact hs
      · split at h
        · exact absurd h (by simp)
        · cases h
          rename_i e rest hpop hstale hc
          split <;> rename_i hcond <;> (try dsimp only) <;>
            rw [(hfold e.node (nbrs e.node) _).1, (hfold e.node (nbrs e.node) _).2,
              cntFilter_append] <;>
            (try dsimp only) <;> rw [hs] <;> simp [hcond]
  · intro r s' h
    unfold gStep at h
    split at h
    · cases h
      exact hs
    · dsimp only at h
      split at h
      · exact absurd h (by simp)
      · split at h
        · cases h
          exact hs
        · exact absurd h (by simp)

/-! ## Helper lemmas: each cell is expanded at most once (BFS and DFS) -/

theorem bfsStep_C4Inv {nbrs : Pos → List Pos} {sp tgt : Pos} {s : BfsSt}
    (hinv : bfsC4Inv sp tgt s) :
    (∀ s', bfsStep nbrs sp tgt s = StepRes.next s' → bfsC4Inv sp tgt s') ∧
    (∀ r s', bfsStep nbrs sp tgt s = StepRes.done r s' →
      r.visitedCount = cntFilter sp tgt s'.expanded ∧ s'.expanded.Nodup) := by
  obtain ⟨hcnt, hnd, hsub⟩ := hinv
  constructor
  · intro s' h
    have hcnt' := (bfsStep_cntFilter hcnt).1 s' h
    unfold bfsStep at h
    split at h
    · exact absurd h (by simp)
    · split at h
      · exact absurd h (by simp)
      · cases h
        rename_i cur rest hq hc
        rw [hq] at hnd hsub
        have hre : (s.expanded ++ [cur]) ++ rest = s.expanded ++ cur :: rest := by
          rw [List.append_assoc]; rfl
        have hstepP : ∀ (x : BfsSt) (n : Pos),
            (x.expanded = s.expanded ∧
              ((s.expanded ++ [cur]) ++ x.queue).Nodup ∧
              ∀ y ∈ (s.expanded ++ [cur]) ++ x.queue, y ∈ x.visited) →
            ((bfsDiscover tgt cur x n).expanded = s.expanded ∧
              ((s.expanded ++ [cur]) ++ (bfsDiscover tgt cur x n).queue).Nodup ∧
              ∀ y ∈ (s.expanded ++ [cur]) ++ (bfsDiscover tgt cur x n).queue,
                y ∈ (bfsDiscover tgt cur x n).visited) := by
          intro x n hx
          obtain ⟨hxe, hxnd, hxsub⟩ := hx
          unfold bfsDiscover
          split
          · rename_i hcondn
            dsimp only
            refine ⟨hxe, ?_, ?_⟩
            · rw [← List.append_assoc]
              refine List.Nodup.append hxnd (List.nodup_singleton n) ?_
              intro a ha hb
              rw [List.mem_singleton] at hb
              exact hcondn.1 (hb ▸ hxsub a ha)
            · intro y hy
              rw [← List.append_assoc] at hy
              rcases List.mem_append.mp hy with hy' | hy'
              · exact List.mem_cons_of_mem n (hxsub y hy')
              · rw [List.mem_singleton] at hy'
                subst hy'
                exact List.mem_cons_self _ _
          · exact ⟨hxe, hxnd, hxsub⟩
        have hinit : ({ s with queue := rest } : BfsSt).expanded = s.expanded ∧
            ((s.expanded ++ [cur]) ++ rest).Nodup ∧
            ∀ y ∈ (s.expanded ++ [cur]) ++ rest, y ∈ s.visited := by
          rw [hre]
          exact ⟨rfl, hnd, hsub⟩
        have hP := foldlPres
          (fun x : BfsSt => x.expanded = s.expanded ∧
            ((s.expanded ++ [cur]) ++ x.queue).Nodup ∧
            ∀ y ∈ (s.expanded ++ [cur]) ++ x.queue, y ∈ x.visited)
          (bfsDiscover tgt cur) hstepP (nbrs cur) { s with queue := rest } hinit
        obtain ⟨h1, h2, h3⟩ := hP
        split at hcnt' <;> rename_i hcond
        · rw [if_pos hcond]
          refine ⟨hcnt', ?_, ?_⟩
          · dsimp only
            rw [h1]
            exact h2
          · dsimp only
            rw [h1]
            exact h3
        · rw [if_neg hcond]
          refine ⟨hcnt', ?_, ?_⟩
          · dsimp only
            rw [h1]
            exact h2
          · dsimp only
            rw [h1]
            exact h3
  · intro r s' h
    have hcnt' := (bfsStep_cntFilter hcnt).2 r s' h
    refine ⟨hcnt', ?_⟩
    unfold bfsStep at h
    split at h
    · cases h
      exact (List.nodup_append.mp hnd).1
    · split at h
      · cases h
        exact (List.nodup_append.mp hnd).1
      · exact absurd h (by simp)

theorem bfsRunC_C4 (nbrs : Pos → List Pos) (sp tgt : Pos) (cancel : Nat → Bool) :
    ∀ (fuel i : Nat) (s : BfsSt) (r : RunRes) (sc : BfsSt),
      bfsC4Inv sp tgt s →
      bfsRunC nbrs sp tgt cancel fuel i s = some (r, sc) →
      r.visitedCount = cntFilter sp tgt sc.expanded ∧ sc.expanded.Nodup := by
  intro fuel
  induction fuel with
  | zero => intro i s r sc _ h; exact absurd h (by simp [bfsRunC])
  | succ fuel ih =>
    intro i s r sc hinv h
    rw [bfsRunC] at h
    by_cases hc : cancel i = true
    · rw [if_pos hc] at h
      cases h
      exact ⟨hinv.1, (List.nodup_append.mp hinv.2.1).1⟩
    · rw [if_neg (by simpa using hc)] at h
      rcases hstep : bfsStep nbrs sp tgt s with _ | s0 <;> rw [hstep] at h
      · cases h
        exact (bfsStep_C4Inv hinv).2 _ _ hstep
      · exact ih _ _ _ _ ((bfsStep_C4Inv hinv).1 s0 hstep) h

theorem dfsStep_C4Inv {nbrs : Pos → List Pos} {sp tgt : Pos} {s : DfsSt}
    (hinv : dfsC4Inv sp tgt s) :
    (∀ s', dfsStep nbrs sp tgt s = StepRes.next s' → dfsC4Inv sp tgt s') ∧
    (∀ r s', dfsStep nbrs sp tgt s = StepRes.done r s' →
      r.visitedCount = cntFilter sp tgt s'.expanded ∧ s'.expanded.Nodup) := by
  obtain ⟨hcnt, hnd, hsub⟩ := hinv
  constructor
  · intro s' h
    have hcnt' := (dfsStep_cntFilter hcnt).1 s' h
    unfold dfsStep at h
    split at h
    · exact absurd h (by simp)
    · split at h
      · exact absurd h (by simp)
      · cases h
        rename_i cur rest hq hc
        rw [hq] at hnd hsub
        have hre : (s.expanded ++ [cur]) ++ rest = s.expanded ++ cur :: rest := by
          rw [List.append_assoc]; rfl
        have hstepP : ∀ (x : DfsSt) (n : Pos),
            ((x.expanded ++ x.stack).Nodup ∧
              ∀ y ∈ x.expanded ++ x.stack, y ∈ x.visited) →
            (((dfsDiscover tgt cur x n).expanded ++ (dfsDiscover tgt cur x n).stack).Nodup ∧
              ∀ y ∈ (dfsDiscover tgt cur x n).expanded ++ (dfsDiscover tgt cur x n).stack,
                y ∈ (dfsDiscover tgt cur x n).visited) := by
          intro x n hx
          obtain ⟨hxnd, hxsub⟩ := hx
          unfold dfsDiscover
          split
          · rename_i hcondn
            dsimp only
            constructor
            · rw [List.Perm.nodup_iff List.perm_middle, List.nodup_cons]
              exact ⟨fun hmem => hcondn.1 (hxsub n hmem), hxnd⟩
            · intro y hy
              rcases List.mem_cons.mp ((List.Perm.mem_iff List.perm_middle).mp hy)
                with rfl | hy'
              · exact List.mem_cons_self _ _
              · exact List.mem_cons_of_mem n (hxsub y hy')
          · exact ⟨hxnd, hxsub⟩
        have hinit : ((s.expanded ++ [cur]) ++ rest).Nodup ∧
            ∀ y ∈ (s.expanded ++ [cur]) ++ rest, y ∈ s.visited := by
          rw [hre]
          exact ⟨hnd, hsub⟩
        split at hcnt' <;> rename_i hcond
        · rw [if_pos hcond]
          have hP := foldlPres
            (fun x : DfsSt => (x.expanded ++ x.stack).Nodup ∧
              ∀ y ∈ x.expanded ++ x.stack, y ∈ x.visited)
            (dfsDiscover tgt cur) hstepP (nbrs cur).reverse
            { s with stack := rest, colors := upd s.colors cur red, cnt := s.cnt + 1,
                     expanded := s.expanded ++ [cur] } hinit
          exact ⟨hcnt', hP.1, hP.2⟩
        · rw [if_neg hcond]
          have hP := foldlPres
            (fun x : DfsSt => (x.expanded ++ x.stack).Nodup ∧
              ∀ y ∈ x.expanded ++ x.stack, y ∈ x.visited)
            (dfsDiscover tgt cur) hstepP (nbrs cur).reverse
            { s with stack := rest, expanded := s.expanded ++ [cur] } hinit
          exact ⟨hcnt', hP.1, hP.2⟩
  · intro r s' h
    have hcnt' := (dfsStep_cntFilter hcnt).2 r s' h
    refine ⟨hcnt', ?_⟩
    unfold dfsStep at h
    split at h
    · cases h
      exact (List.nodup_append.mp hnd).1
    · split at h
      · cases h
        exact (List.nodup_append.mp hnd).1
      · exact absurd h (by simp)

theorem dfsRunC_C4 (nbrs : Pos → List Pos) (sp tgt : Pos) (cancel : Nat → Bool) :
    ∀ (fuel i : Nat) (s : DfsSt) (r : RunRes) (sc : DfsSt),
      dfsC4Inv sp tgt s →
      dfsRunC nbrs sp tgt cancel fuel i s = some (r, sc) →
      r.visitedCount = cntFilter sp tgt sc.expanded ∧ sc.expanded.Nodup := by
  intro fuel
  induction fuel with
  | zero => intro i s r sc _ h; exact absurd h (by simp [dfsRunC])
  | succ fuel ih =>
    intro i s r sc hinv h
    rw [dfsRunC] at h
    by_cases hc : cancel i = true
    · rw [if_pos hc] at h
      cases h
      exact ⟨hinv.1, (List.nodup_append.mp hinv.2.1).1⟩
    · rw [if_neg (by simpa using hc)] at h
      rcases hstep : dfsStep nbrs sp tgt s with _ | s0 <;> rw [hstep] at h
      · cases h
        exact (dfsStep_C4Inv hinv).2 _ _ hstep
      · exact ih _ _ _ _ ((dfsStep_C4Inv hinv).1 s0 hstep) h

/-! ## Helper lemmas: once-only expansion for Dijkstra and A* -/

theorem foldlPresMem {σ : Type} (P : σ → Prop) (f : σ → Pos → σ) :
    ∀ (l : List Pos), (∀ s n, n ∈ l → P s → P (f s n)) → ∀ s, P s → P (List.foldl f s l)
  | [], _, _, hs => hs
  | n :: t, hstep, s, hs =>
    foldlPresMem P f t (fun x m hm hx => hstep x m (List.mem_cons_of_mem n hm) hx) (f s n)
      (hstep s n (List.mem_cons_self n t) hs)

theorem updateNeighbors_adj (totalRows : Nat) (colors : Pos → Color) (p n : Pos)
    (hn : n ∈ updateNeighbors totalRows colors p) : manhattan p n = 1 := by
  unfold updateNeighbors at hn
  simp only [List.mem_append] at hn
  rcases hn with ((h | h) | h) | h <;> split at h <;>
    first
      | exact absurd h (List.not_mem_nil n)
      | · rename_i hcond
          rw [List.mem_singleton] at h
          subst h
          unfold manhattan
          push_cast [hcond.1]
          omega

theorem astarH_consistent (tgt c n : Pos) (h : manhattan c n = 1) :
    astarH tgt c ≤ astarH tgt n + 1 := by
  unfold astarH manhattan at *
  omega

theorem popMin_mem {l : List HeapEntry} {e : HeapEntry} {rest : List HeapEntry}
    (h : popMin l = some (e, rest)) : e ∈ l :=
  (popMin_perm h).symm.subset (List.mem_cons_self _ _)

theorem popMin_rest_subset {l : List HeapEntry} {e : HeapEntry} {rest : List HeapEntry}
    (h : popMin l = some (e, rest)) : ∀ x ∈ rest, x ∈ l :=
  fun x hx => (popMin_perm h).symm.subset (List.mem_cons_of_mem _ hx)

theorem popMin_node_nodup {l : List HeapEntry} {e : HeapEntry} {rest : List HeapEntry}
    (h : popMin l = some (e, rest)) (hl : (l.map HeapEntry.node).Nodup) :
    e.node ∉ rest.map HeapEntry.node ∧ (rest.map HeapEntry.node).Nodup := by
  have hperm := (popMin_perm h).map HeapEntry.node
  have hcons : (e.node :: rest.map HeapEntry.node).Nodup := by
    have := (List.Perm.nodup_iff hperm).mp hl
    simpa using this
  exact List.nodup_cons.mp hcons

theorem gRelax_foldInv {hf : Pos → Nat} {tgt cur : Pos} {prot : List Pos} {s0 : GSt}
    (hcur : cur ∈ prot) (hK : ∀ p ∈ prot, s0.f p ≤ s0.f cur)
    {x : GSt} {n : Pos} (hcons : hf cur ≤ hf n + 1)
    (hx : gFoldInv hf prot s0 x) : gFoldInv hf prot s0 (gRelax hf tgt cur x n) := by
  obtain ⟨hQ1, hQ2, hQ3, hQ4, hQ5, hQ6, hQ7, hQ8, hQ9⟩ := hx
  unfold gRelax
  dsimp only
  split
  · exact ⟨hQ1, hQ2, hQ3, hQ4, hQ5, hQ6, hQ7, hQ8, hQ9⟩
  · split
    · rename_i hbar htemp
      have hnprot : n ∉ prot := by
        intro hn
        have h1 : x.f n ≤ x.g cur + (hf cur : WithTop Nat) := by
          rw [(hQ1 n hn).2]
          calc s0.f n ≤ s0.f cur := hK n hn
            _ = x.f cur := ((hQ1 cur hcur).2).symm
            _ = x.g cur + (hf cur : WithTop Nat) := hQ2 cur
        have h2 : x.g n + (hf n : WithTop Nat) ≤ (x.g cur + 1) + (hf n : WithTop Nat) := by
          calc x.g n + (hf n : WithTop Nat) = x.f n := (hQ2 n).symm
            _ ≤ x.g cur + (hf cur : WithTop Nat) := h1
            _ ≤ x.g cur + ((hf n : WithTop Nat) + 1) := by
                refine add_le_add_left ?_ _
                have hcc : ((hf cur : Nat) : WithTop Nat) ≤ ((hf n + 1 : Nat) : WithTop Nat) :=
                  WithTop.coe_le_coe.mpr hcons
                simpa using hcc
            _ = (x.g cur + 1) + (hf n : WithTop Nat) := by
                rw [add_comm ((hf n : WithTop Nat)) 1, ← add_assoc]
        have h3 : x.g n ≤ x.g cur + 1 :=
          (WithTop.add_le_add_iff_right WithTop.coe_ne_top).mp h2
        exact absurd htemp (not_lt.mpr h3)
      split
      · rename_i hhash
        refine ⟨?_, ?_, ?_, ?_, hQ5, hQ6, hQ7, hQ8, hQ9⟩
        · intro p hp
          have hpn : p ≠ n := fun h => hnprot (h ▸ hp)
          dsimp only
          constructor
          · simp only [upd, if_neg hpn]
            exact (hQ1 p hp).1
          · simp only [upd, if_neg hpn]
            exact (hQ1 p hp).2
        · intro m
          dsimp only
          by_cases hm : m = n
          · subst hm
            simp [upd]
          · simp only [upd, if_neg hm]
            exact hQ2 m
        · intro e he
          dsimp only at he ⊢
          by_cases hen : e.node = n
          · rw [hen]
            simp only [upd, if_pos rfl]
            calc x.g cur + 1 + (hf n : WithTop Nat)
                ≤ x.g n + (hf n : WithTop Nat) := add_le_add_right (le_of_lt htemp) _
              _ = x.f n := (hQ2 n).symm
              _ ≤ e.key := by
                  have := hQ3 e he
                  rw [hen] at this
                  exact this
          · simp only [upd, if_neg hen]
            exact hQ3 e he
        · intro p hp e he
          have hpn : p ≠ n := fun h => hnprot (h ▸ hp)
          dsimp only at he ⊢
          simp only [upd, if_neg hpn]
          exact hQ4 p hp e he
      · rename_i hhash
        refine ⟨?_, ?_, ?_, ?_, ?_, ?_, ?_, ?_, hQ9⟩
        · intro p hp
          have hpn : p ≠ n := fun h => hnprot (h ▸ hp)
          dsimp only
          constructor
          · simp only [upd, if_neg hpn]
            exact (hQ1 p hp).1
          · simp only [upd, if_neg hpn]
            exact (hQ1 p hp).2
        · intro m
          dsimp only
          by_cases hm : m = n
          · subst hm
            simp [upd]
          · simp only [upd, if_neg hm]
            exact hQ2 m
        · intro e he
          dsimp only at he ⊢
          rcases List.mem_append.mp he with he | he
          · have hen : e.node ≠ n := by
              intro h
              exact hhash ((hQ6 n).mpr (List.mem_map.mpr ⟨e, he, h⟩))
            simp only [upd, if_neg hen]
            exact hQ3 e he
          · rw [List.mem_singleton] at he
            subst he
            dsimp only
            simp [upd]
        · intro p hp e he
          have hpn : p ≠ n := fun h => hnprot (h ▸ hp)
          dsimp only at he ⊢
          simp only [upd, if_neg hpn]
          rcases List.mem_append.mp he with he | he
          · exact hQ4 p hp e he
          · rw [List.mem_singleton] at he
            subst he
            dsimp only
            calc x.f p = s0.f p := (hQ1 p hp).2
              _ ≤ s0.f cur := hK p hp
              _ = x.f cur := ((hQ1 cur hcur).2).symm
              _ = x.g cur + (hf cur : WithTop Nat) := hQ2 cur
              _ ≤ x.g cur + ((hf n : WithTop Nat) + 1) := by
                  refine add_le_add_left ?_ _
                  have hcc : ((hf cur : Nat) : WithTop Nat) ≤ ((hf n + 1 : Nat) : WithTop Nat) :=
                    WithTop.coe_le_coe.mpr hcons
                  simpa using hcc
              _ = (x.g cur + 1) + (hf n : WithTop Nat) := by
                  rw [add_comm ((hf n : WithTop Nat)) 1, ← add_assoc]
        · dsimp only
          rw [List.map_append]
          refine List.Nodup.append hQ5 (by simp) ?_
          intro a ha hb
          simp only [List.map_cons, List.map_nil, List.mem_singleton] at hb
          subst hb
          exact hhash ((hQ6 a).mpr ha)
        · intro m
          dsimp only
          rw [List.map_append]
          constructor
          · intro hm
            rcases List.mem_cons.mp hm with rfl | hm
            · exact List.mem_append.mpr (Or.inr (by simp))
            · exact List.mem_append.mpr (Or.inl ((hQ6 m).mp hm))
          · intro hm
            rcases List.mem_append.mp hm with hm | hm
            · exact List.mem_cons_of_mem _ ((hQ6 m).mpr hm)
            · simp only [List.map_cons, List.map_nil, List.mem_singleton] at hm
              subst hm
              exact List.mem_cons_self _ _
        · intro p hp hmem
          dsimp only at hmem
          have hpn : p ≠ n := fun h => hnprot (h ▸ hp)
          rcases List.mem_cons.mp hmem with h | h
          · exact hpn h
          · exact hQ7 p hp h
        · dsimp only
          exact List.nodup_cons.mpr ⟨hhash, hQ8⟩
    · exact ⟨hQ1, hQ2, hQ3, hQ4, hQ5, hQ6, hQ7, hQ8, hQ9⟩

theorem gRelaxFold_inv {hf : Pos → Nat} {tgt cur : Pos} {prot : List Pos} {s0 : GSt}
    (hcur : cur ∈ prot) (hK : ∀ p ∈ prot, s0.f p ≤ s0.f cur) (l : List Pos)
    (hcons : ∀ n ∈ l, hf cur ≤ hf n + 1) {x : GSt} (hx : gFoldInv hf prot s0 x) :
    gFoldInv hf prot s0 (List.foldl (gRelax hf tgt cur) x l) :=
  foldlPresMem _ _ l (fun y n hn hy => gRelax_foldInv hcur hK (hcons n hn) hy) x hx

theorem gStep_C4Inv {hf : Pos → Nat} {nbrs : Pos → List Pos} {sp tgt : Pos} {s : GSt}
    (hcons : ∀ c n, n ∈ nbrs c → hf c ≤ hf n + 1)
    (hinv : gC4Inv hf sp tgt s) :
    (∀ s', gStep hf nbrs sp tgt s = StepRes.next s' → gC4Inv hf sp tgt s') ∧
    (∀ r s', gStep hf nbrs sp tgt s = StepRes.done r s' →
      r.visitedCount = cntFilter sp tgt s'.expanded ∧ s'.expanded.Nodup) := by
  obtain ⟨hcnt, hEN, hFG, hU, hM, hH1, hH2, hHN, hEH⟩ := hinv
  constructor
  · intro s' h
    have hcnt' := (gStep_cntFilter hcnt).1 s' h
    unfold gStep at h
    split at h
    · exact absurd h (by simp)
    · dsimp only at h
      split at h
      · cases h
        rename_i e rest hpop hstale
        have hrest_sub := popMin_rest_subset hpop
        obtain ⟨hcurNotRest, hndrest⟩ := popMin_node_nodup hpop hH1
        refine ⟨hcnt', hEN, hFG, ?_, ?_, hndrest, ?_, hHN.erase _, ?_⟩
        · intro e' he'
          exact hU e' (hrest_sub e' he')
        · intro p hp e' he'
          exact hM p hp e' (hrest_sub e' he')
        · intro m
          dsimp only
          constructor
          · intro hm
            obtain ⟨hne, hmem⟩ := (List.Nodup.mem_erase_iff hHN).mp hm
            have := (hH2 m).mp hmem
            have hperm := (popMin_perm hpop).map HeapEntry.node
            have hm2 := hperm.mem_iff.mp this
            rw [List.map_cons] at hm2
            rcases List.mem_cons.mp hm2 with h1 | h1
            · exact absurd h1 hne
            · exact h1
          · intro hm
            have hne : m ≠ e.node := fun h => hcurNotRest (h ▸ hm)
            have hperm := (popMin_perm hpop).map HeapEntry.node
            have : m ∈ s.heap.map HeapEntry.node := by
              refine hperm.mem_iff.mpr ?_
              simpa using List.mem_cons_of_mem e.node hm
            exact (List.Nodup.mem_erase_iff hHN).mpr ⟨hne, (hH2 m).mpr this⟩
        · intro p hp hmem
          exact hEH p hp (List.mem_of_mem_erase hmem)
      · split at h
        · exact absurd h (by simp)
        · cases h
          rename_i e rest hpop hstale hc
          have hmemE : e ∈ s.heap := popMin_mem hpop
          have hfcur : s.f e.node = e.key := le_antisymm (hU e hmemE) (not_lt.mp hstale)
          have hcurhash : e.node ∈ s.hash := (hH2 e.node).mpr (List.mem_map.mpr ⟨e, hmemE, rfl⟩)
          have hcurnotexp : e.node ∉ s.expanded := fun hx => hEH e.node hx hcurhash
          have hrest_sub := popMin_rest_subset hpop
          obtain ⟨hcurNotRest, hndrest⟩ := popMin_node_nodup hpop hH1
          have hmin := popMin_le_key hpop
          have hK : ∀ p ∈ s.expanded ++ [e.node], s.f p ≤ s.f e.node := by
            intro p hp
            rcases List.mem_append.mp hp with hp | hp
            · rw [hfcur]
              exact hM p hp e hmemE
            · rw [List.mem_singleton] at hp
              subst hp
              exact le_refl _
          have hfold0 : gFoldInv hf (s.expanded ++ [e.node])
              { s with heap := rest, hash := s.hash.erase e.node }
              { s with heap := rest, hash := s.hash.erase e.node } := by
            refine ⟨fun p _ => ⟨rfl, rfl⟩, hFG, ?_, ?_, hndrest, ?_, ?_, hHN.erase _, rfl⟩
            · intro e' he'
              exact hU e' (hrest_sub e' he')
            · intro p hp e' he'
              rcases List.mem_append.mp hp with hp | hp
              · exact hM p hp e' (hrest_sub e' he')
              · rw [List.mem_singleton] at hp
                subst hp
                dsimp only
                rw [hfcur]
                exact hmin e' (hrest_sub e' he')
            · intro m
              dsimp only
              constructor
              · intro hm
                obtain ⟨hne, hmem⟩ := (List.Nodup.mem_erase_iff hHN).mp hm
                have := (hH2 m).mp hmem
                have hperm := (popMin_perm hpop).map HeapEntry.node
                have hm2 := hperm.mem_iff.mp this
                rw [List.map_cons] at hm2
                rcases List.mem_cons.mp hm2 with h1 | h1
                · exact absurd h1 hne
                · exact h1
              · intro hm
                have hne : m ≠ e.node := fun hq => hcurNotRest (hq ▸ hm)
                have hperm := (popMin_perm hpop).map HeapEntry.node
                have : m ∈ s.heap.map HeapEntry.node := by
                  refine hperm.mem_iff.mpr ?_
                  simpa using List.mem_cons_of_mem e.node hm
                exact (List.Nodup.mem_erase_iff hHN).mpr ⟨hne, (hH2 m).mpr this⟩
            · intro p hp
              rcases List.mem_append.mp hp with hp | hp
              · intro hmem
                exact hEH p hp (List.mem_of_mem_erase hmem)
              · rw [List.mem_singleton] at hp
                subst hp
                intro hmem
                exact ((List.Nodup.mem_erase_iff hHN).mp hmem).1 rfl
          have hP := @gRelaxFold_inv hf tgt e.node (s.expanded ++ [e.node])
            { s with heap := rest, hash := s.hash.erase e.node }
            (List.mem_append.mpr (Or.inr (List.mem_singleton.mpr rfl)))
            hK (nbrs e.node) (fun n hn => hcons e.node n hn)
            { s with heap := rest, hash := s.hash.erase e.node }
            hfold0
          obtain ⟨hQ1, hQ2, hQ3, hQ4, hQ5, hQ6, hQ7, hQ8, hQ9⟩ := hP
          have hENfin : ((List.foldl (gRelax hf tgt e.node)
              { s with heap := rest, hash := s.hash.erase e.node }
              (nbrs e.node)).expanded ++ [e.node]).Nodup := by
            rw [hQ9]
            refine List.Nodup.append hEN (by simp) ?_
            intro a ha hb
            rw [List.mem_singleton] at hb
            subst hb
            exact hcurnotexp ha
          have hMfin : ∀ p ∈ (List.foldl (gRelax hf tgt e.node)
              { s with heap := rest, hash := s.hash.erase e.node }
              (nbrs e.node)).expanded ++ [e.node],
              ∀ e' ∈ (List.foldl (gRelax hf tgt e.node)
                { s with heap := rest, hash := s.hash.erase e.node }
                (nbrs e.node)).heap,
              (List.foldl (gRelax hf tgt e.node)
                { s with heap := rest, hash := s.hash.erase e.node }
                (nbrs e.node)).f p ≤ e'.key := by
            intro p hp
            rw [hQ9] at hp
            exact hQ4 p hp
          have hEHfin : ∀ p ∈ (List.foldl (gRelax hf tgt e.node)
              { s with heap := rest, hash := s.hash.erase e.node }
              (nbrs e.node)).expanded ++ [e.node],
              p ∉ (List.foldl (gRelax hf tgt e.node)
                { s with heap := rest, hash := s.hash.erase e.node }
                (nbrs e.node)).hash := by
            intro p hp
            rw [hQ9] at hp
            exact hQ7 p hp
          split at hcnt' <;> rename_i hcond
          · rw [if_pos hcond]
            exact ⟨hcnt', hENfin, hQ2, hQ3, hMfin, hQ5, hQ6, hQ8, hEHfin⟩
          · rw [if_neg hcond]
            exact ⟨hcnt', hENfin, hQ2, hQ3, hMfin, hQ5, hQ6, hQ8, hEHfin⟩
  · intro r s' h
    have hcnt' := (gStep_cntFilter hcnt).2 r s' h
    refine ⟨hcnt', ?_⟩
    unfold gStep at h
    split at h
    · cases h
      exact hEN
    · dsimp only at h
      split at h
      · exact absurd h (by simp)
      · split at h
        · cases h
          exact hEN
        · exact absurd h (by simp)

theorem gStep_init_C4 {hf : Pos → Nat} {nbrs : Pos → List Pos} {sp tgt : Pos}
    {colors : Pos → Color}
    (hcons : ∀ c n, n ∈ nbrs c → hf c ≤ hf n + 1) :
    (∀ s', gStep hf nbrs sp tgt (gInit hf colors sp) = StepRes.next s' → gC4Inv hf sp tgt s') ∧
    (∀ r s', gStep hf nbrs sp tgt (gInit hf colors sp) = StepRes.done r s' →
      r.visitedCount = cntFilter sp tgt s'.expanded ∧ s'.expanded.Nodup) := by
  have hcnt0 : (gInit hf colors sp).cnt = cntFilter sp tgt (gInit hf colors sp).expanded := rfl
  have hFG0 : ∀ n, (gInit hf colors sp).f n = (gInit hf colors sp).g n + (hf n : WithTop Nat) := by
    intro n
    by_cases hn : n = sp
    · subst hn
      simp [gInit, upd]
    · simp [gInit, upd, hn]
  have herase : (gInit hf colors sp).hash.erase sp = [] := by simp [gInit]
  constructor
  · intro s' h
    have hcnt' := (gStep_cntFilter hcnt0).1 s' h
    unfold gStep at h
    split at h
    · exact absurd h (by simp)
    · rename_i e rest hpop
      have hpop0 : popMin (gInit hf colors sp).heap =
          some (⟨0, 0, sp⟩, ([] : List HeapEntry)) := rfl
      rw [hpop0] at hpop
      have hpair := Option.some.inj hpop
      have he : (⟨0, 0, sp⟩ : HeapEntry) = e := congrArg Prod.fst hpair
      have hrest : ([] : List HeapEntry) = rest := congrArg Prod.snd hpair
      subst he
      subst hrest
      dsimp only at h
      split at h
      · rename_i hstale
        exact absurd hstale (by simp)
      · split at h
        · exact absurd h (by simp)
        · cases h
          rename_i hstale hc
          have hfold0 : gFoldInv hf [sp]
              { gInit hf colors sp with heap := [], hash := (gInit hf colors sp).hash.erase sp }
              { gInit hf colors sp with
                  heap := [], hash := (gInit hf colors sp).hash.erase sp } := by
            refine ⟨fun p _ => ⟨rfl, rfl⟩, hFG0, ?_, ?_, by simp, ?_, ?_, ?_, rfl⟩
            · intro e' he'
              exact absurd he' (List.not_mem_nil e')
            · intro p hp e' he'
              exact absurd he' (List.not_mem_nil e')
            · intro m
              dsimp only
              rw [herase]
              simp
            · intro p hp hmem
              dsimp only at hmem
              rw [herase] at hmem
              exact absurd hmem (List.not_mem_nil p)
            · dsimp only
              rw [herase]
              exact List.nodup_nil
          have hK : ∀ p ∈ ([sp] : List Pos),
              ({ gInit hf colors sp with
                  heap := [], hash := (gInit hf colors sp).hash.erase sp } : GSt).f p ≤
                ({ gInit hf colors sp with
                    heap := [], hash := (gInit hf colors sp).hash.erase sp } : GSt).f sp := by
            intro p hp
            rw [List.mem_singleton] at hp
            subst hp
            exact le_refl _
          have hP := @gRelaxFold_inv hf tgt sp [sp]
            { gInit hf colors sp with heap := [], hash := (gInit hf colors sp).hash.erase sp }
            (List.mem_singleton.mpr rfl) hK (nbrs sp) (fun n hn => hcons sp n hn)
            { gInit hf colors sp with heap := [], hash := (gInit hf colors sp).hash.erase sp }
            hfold0
          obtain ⟨hQ1, hQ2, hQ3, hQ4, hQ5, hQ6, hQ7, hQ8, hQ9⟩ := hP
          have hexp0 : ({ gInit hf colors sp with
              heap := [], hash := (gInit hf colors sp).hash.erase sp } : GSt).expanded =
              ([] : List Pos) := rfl
          have hENfin : ((List.foldl (gRelax hf tgt sp)
              { gInit hf colors sp with heap := [], hash := (gInit hf colors sp).hash.erase sp }
              (nbrs sp)).expanded ++ [sp]).Nodup := by
            rw [hQ9, hexp0]
            simp
          have hMfin : ∀ p ∈ (List.foldl (gRelax hf tgt sp)
              { gInit hf colors sp with heap := [], hash := (gInit hf colors sp).hash.erase sp }
              (nbrs sp)).expanded ++ [sp],
              ∀ e' ∈ (List.foldl (gRelax hf tgt sp)
                { gInit hf colors sp with
                    heap := [], hash := (gInit hf colors sp).hash.erase sp }
                (nbrs sp)).heap,
              (List.foldl (gRelax hf tgt sp)
                { gInit hf colors sp with
                    heap := [], hash := (gInit hf colors sp).hash.erase sp }
                (nbrs sp)).f p ≤ e'.key := by
            intro p hp
            rw [hQ9, hexp0, List.nil_append] at hp
            exact hQ4 p hp
          have hEHfin : ∀ p ∈ (List.foldl (gRelax hf tgt sp)
              { gInit hf colors sp with heap := [], hash := (gInit hf colors sp).hash.erase sp }
              (nbrs sp)).expanded ++ [sp],
              p ∉ (List.foldl (gRelax hf tgt sp)
                { gInit hf colors sp with
                    heap := [], hash := (gInit hf colors sp).hash.erase sp }
                (nbrs sp)).hash := by
            intro p hp
            rw [hQ9, hexp0, List.nil_append] at hp
            exact hQ7 p hp
          split at hcnt' <;> rename_i hcond
          · rw [if_pos hcond]
            exact ⟨hcnt', hENfin, hQ2, hQ3, hMfin, hQ5, hQ6, hQ8, hEHfin⟩
          · rw [if_neg hcond]
            exact ⟨hcnt', hENfin, hQ2, hQ3, hMfin, hQ5, hQ6, hQ8, hEHfin⟩
  · intro r s' h
    have hcnt' := (gStep_cntFilter hcnt0).2 r s' h
    refine ⟨hcnt', ?_⟩
    unfold gStep at h
    split at h
    · cases h
      exact List.nodup_nil
    · dsimp only at h
      split at h
      · exact absurd h (by simp)
      · split at h
        · cases h
          exact List.nodup_nil
        · exact absurd h (by simp)

theorem gRunC_C4 {hf : Pos → Nat} {nbrs : Pos → List Pos} {sp tgt : Pos} {cancel : Nat → Bool}
    (hcons : ∀ c n, n ∈ nbrs c → hf c ≤ hf n + 1) :
    ∀ (fuel i : Nat) (s : GSt) (r : RunRes) (sc : GSt), gC4Inv hf sp tgt s →
      gRunC hf nbrs sp tgt cancel fuel i s = some (r, sc) →
      r.visitedCount = cntFilter sp tgt sc.expanded ∧ sc.expanded.Nodup := by
  intro fuel
  induction fuel with
  | zero => intro i s r sc _ h; exact absurd h (by simp [gRunC])
  | succ fuel ih =>
    intro i s r sc hinv h
    rw [gRunC] at h
    by_cases hcan : cancel i = true
    · rw [if_pos hcan] at h
      cases h
      exact ⟨hinv.1, hinv.2.1⟩
    · rw [if_neg (by simpa using hcan)] at h
      rcases hstep : gStep hf nbrs sp tgt s with _ | s0 <;> rw [hstep] at h
      · cases h
        exact (gStep_C4Inv hcons hinv).2 _ _ hstep
      · exact ih _ _ _ _ ((gStep_C4Inv hcons hinv).1 s0 hstep) h

theorem gRunC_C4_init {hf : Pos → Nat} {nbrs : Pos → List Pos} {sp tgt : Pos}
    {cancel : Nat → Bool} {colors : Pos → Color}
    (hcons : ∀ c n, n ∈ nbrs c → hf c ≤ hf n + 1) :
    ∀ (fuel i : Nat) (r : RunRes) (sc : GSt),
      gRunC hf nbrs sp tgt cancel fuel i (gInit hf colors sp) = some (r, sc) →
      r.visitedCount = cntFilter sp tgt sc.expanded ∧ sc.expanded.Nodup := by
  intro fuel i r sc h
  cases fuel with
  | zero => exact absurd h (by simp [gRunC])
  | succ fuel =>
    rw [gRunC] at h
    by_cases hcan : cancel i = true
    · rw [if_pos hcan] at h
      cases h
      exact ⟨rfl, List.nodup_nil⟩
    · rw [if_neg (by simpa using hcan)] at h
      rcases hstep : gStep hf nbrs sp tgt (gInit hf colors sp) with _ | s0 <;> rw [hstep] at h
      · cases h
        exact (gStep_init_C4 hcons).2 _ _ hstep
      · exact gRunC_C4 hcons fuel (i + 1) s0 r sc ((gStep_init_C4 hcons).1 s0 hstep) h

theorem gOfDij_init (colors : Pos → Color) (sp : Pos) :
    gOfDij (dijInit colors sp) = gInit (fun _ => 0) colors sp := rfl

theorem gOfDij_relax (tgt cur : Pos) (d : DijSt) (n : Pos) :
    gOfDij (dijRelax tgt cur d n) = gRelax (fun _ => 0) tgt cur (gOfDij d) n := by
  simp only [dijRelax, gRelax, gOfDij]
  (try dsimp only)
  by_cases hb : isBarrier (d.colors n) = true
  · simp [hb]
  · by_cases ht : d.g cur + 1 < d.g n
    · by_cases hh : n ∈ d.hash
      · simp [hb, ht, hh]
      · simp [hb, ht, hh]
    · simp [hb, ht]

theorem gOfDij_foldRelax (tgt cur : Pos) :
    ∀ (l : List Pos) (d : DijSt),
      gOfDij (List.foldl (dijRelax tgt cur) d l) =
        List.foldl (gRelax (fun _ => 0) tgt cur) (gOfDij d) l
  | [], _ => rfl
  | n :: t, d => by
    rw [List.foldl_cons, List.foldl_cons, gOfDij_foldRelax tgt cur t, gOfDij_relax]

theorem gOfDij_step (nbrs : Pos → List Pos) (sp tgt : Pos) (d : DijSt) :
    gOfDijRes (dijStep nbrs sp tgt d) = gStep (fun _ => 0) nbrs sp tgt (gOfDij d) := by
  unfold dijStep gStep
  rcases hpop : popMin d.heap with _ | ⟨e, rest⟩ <;>
    rw [show (gOfDij d).heap = d.heap from rfl, hpop] <;> (try dsimp only)
  · rfl
  · by_cases hst : d.g e.node < e.key
    · rw [if_pos hst, if_pos (show (gOfDij d).f e.node < e.key from hst)]
      rfl
    · rw [if_neg hst, if_neg (show ¬ (gOfDij d).f e.node < e.key from hst)]
      by_cases htg : e.node = tgt
      · rw [if_pos htg, if_pos htg]
        rfl
      · rw [if_neg htg, if_neg htg]
        (try dsimp only)
        rw [show ({ gOfDij d with heap := rest, hash := (gOfDij d).hash.erase e.node } : GSt) =
            gOfDij { d with heap := rest, hash := d.hash.erase e.node } from rfl,
          ← gOfDij_foldRelax]
        split <;> rfl

theorem gOfDij_runC (nbrs : Pos → List Pos) (sp tgt : Pos) (cancel : Nat → Bool) :
    ∀ (fuel i : Nat) (d : DijSt),
      gRunC (fun _ => 0) nbrs sp tgt cancel fuel i (gOfDij d) =
        (dijRunC nbrs sp tgt cancel fuel i d).map (fun rs => (rs.1, gOfDij rs.2)) := by
  intro fuel
  induction fuel with
  | zero => intro i d; simp [gRunC, dijRunC]
  | succ fuel ih =>
    intro i d
    rw [gRunC, dijRunC]
    by_cases hcan : cancel i = true
    · rw [if_pos hcan, if_pos hcan]
      rfl
    · rw [if_neg (by simpa using hcan), if_neg (by simpa using hcan)]
      have hstep := gOfDij_step nbrs sp tgt d
      rcases hd : dijStep nbrs sp tgt d with ⟨r, s1⟩ | s1 <;> rw [hd] at hstep <;>
        rw [← hstep]
      · rfl
      · exact ih (i + 1) s1

/-! ## Claim C4 -/

/-- **C4**: In every run of any of the four algorithms (from its initial
state, with the neighbour lists computed by the source neighbour refresh,
under an arbitrary cancellation oracle), the reported `visitedCount` equals
the number of cells popped from the frontier and processed that are neither
the start nor the end cell (the ghost `expanded` list records exactly the
processed pops), and no cell is processed twice: each such cell is counted
exactly once, at its expansion.  For Dijkstra this rests on the bisimulation
with the zero-heuristic A* loop, and for A* on the consistency of the
Manhattan heuristic over grid-adjacent cells. -/
theorem claim_C4 (rows : Nat) (colors : Pos → Color) (sp tgt : Pos)
    (cancel : Nat → Bool) (fuel i : Nat) :
    (∀ r sc, bfsRunC (updateNeighbors rows colors) sp tgt cancel fuel i (bfsInit colors sp) =
        some (r, sc) →
      r.visitedCount = cntFilter sp tgt sc.expanded ∧ sc.expanded.Nodup) ∧
    (∀ r sc, dfsRunC (updateNeighbors rows colors) sp tgt cancel fuel i (dfsInit colors sp) =
        some (r, sc) →
      r.visitedCount = cntFilter sp tgt sc.expanded ∧ sc.expanded.Nodup) ∧
    (∀ r sc, dijRunC (updateNeighbors rows colors) sp tgt cancel fuel i (dijInit colors sp) =
        some (r, sc) →
      r.visitedCount = cntFilter sp tgt sc.expanded ∧ sc.expanded.Nodup) ∧
    (∀ r sc, astarRunC (updateNeighbors rows colors) sp tgt cancel fuel i
        (astarInit colors sp tgt) = some (r, sc) →
      r.visitedCount = cntFilter sp tgt sc.expanded ∧ sc.expanded.Nodup) := by
  refine ⟨?_, ?_, ?_, ?_⟩
  · intro r sc h
    refine bfsRunC_C4 (updateNeighbors rows colors) sp tgt cancel fuel i _ r sc ?_ h
    exact ⟨rfl, by simp [bfsInit], by simp [bfsInit]⟩
  · intro r sc h
    refine dfsRunC_C4 (updateNeighbors rows colors) sp tgt cancel fuel i _ r sc ?_ h
    exact ⟨rfl, by simp [dfsInit], by simp [dfsInit]⟩
  · intro r sc h
    have h2 : gRunC (fun _ => 0) (updateNeighbors rows colors) sp tgt cancel fuel i
        (gInit (fun _ => 0) colors sp) = some (r, gOfDij sc) := by
      rw [← gOfDij_init, gOfDij_runC, h]
      rfl
    exact gRunC_C4_init (fun _ _ _ => Nat.zero_le _) fuel i r (gOfDij sc) h2
  · intro r sc h
    have hcons : ∀ c n, n ∈ updateNeighbors rows colors c →
        astarH tgt c ≤ astarH tgt n + 1 :=
      fun c n hn => astarH_consistent tgt c n (updateNeighbors_adj rows colors c n hn)
    exact gRunC_C4_init hcons fuel i r sc h

/-- Concrete instantiation of `claim_C4` on the 2-by-2 barrier-free grid with
start `(0,0)` and end `(0,1)`: all four uninterrupted runs terminate and their
reported counts match the recorded duplicate-free expansions. -/
theorem claim_C4_witness :
    ∃ r1 sc1 r2 sc2 r3 sc3 r4 sc4,
      bfsRunC (updateNeighbors 2 adjColors) (0, 0) (0, 1) (fun _ => false) 8 0
          (bfsInit adjColors (0, 0)) = some (r1, sc1) ∧
      r1.visitedCount = cntFilter (0, 0) (0, 1) sc1.expanded ∧ sc1.expanded.Nodup ∧
      dfsRunC (updateNeighbors 2 adjColors) (0, 0) (0, 1) (fun _ => false) 8 0
          (dfsInit adjColors (0, 0)) = some (r2, sc2) ∧
      r2.visitedCount = cntFilter (0, 0) (0, 1) sc2.expanded ∧ sc2.expanded.Nodup ∧
      dijRunC (updateNeighbors 2 adjColors) (0, 0) (0, 1) (fun _ => false) 8 0
          (dijInit adjColors (0, 0)) = some (r3, sc3) ∧
      r3.visitedCount = cntFilter (0, 0) (0, 1) sc3.expanded ∧ sc3.expanded.Nodup ∧
      astarRunC (updateNeighbors 2 adjColors) (0, 0) (0, 1) (fun _ => false) 8 0
          (astarInit adjColors (0, 0) (0, 1)) = some (r4, sc4) ∧
      r4.visitedCount = cntFilter (0, 0) (0, 1) sc4.expanded ∧ sc4.expanded.Nodup := by
  obtain ⟨r1, sc1, h1⟩ : ∃ r sc,
      bfsRunC (updateNeighbors 2 adjColors) (0, 0) (0, 1) (fun _ => false) 8 0
        (bfsInit adjColors (0, 0)) = some (r, sc) := ⟨_, _, rfl⟩
  obtain ⟨r2, sc2, h2⟩ : ∃ r sc,
      dfsRunC (updateNeighbors 2 adjColors) (0, 0) (0, 1) (fun _ => false) 8 0
        (dfsInit adjColors (0, 0)) = some (r, sc) := ⟨_, _, rfl⟩
  obtain ⟨r3, sc3, h3⟩ : ∃ r sc,
      dijRunC (updateNeighbors 2 adjColors) (0, 0) (0, 1) (fun _ => false) 8 0
        (dijInit adjColors (0, 0)) = some (r, sc) := ⟨_, _, rfl⟩
  obtain ⟨r4, sc4, h4⟩ : ∃ r sc,
      astarRunC (updateNeighbors 2 adjColors) (0, 0) (0, 1) (fun _ => false) 8 0
        (astarInit adjColors (0, 0) (0, 1)) = some (r, sc) := ⟨_, _, rfl⟩
  have hc := claim_C4 2 adjColors (0, 0) (0, 1) (fun _ => false) 8 0
  exact ⟨r1, sc1, r2, sc2, r3, sc3, r4, sc4,
    h1, (hc.1 r1 sc1 h1).1, (hc.1 r1 sc1 h1).2,
    h2, (hc.2.1 r2 sc2 h2).1, (hc.2.1 r2 sc2 h2).2,
    h3, (hc.2.2.1 r3 sc3 h3).1, (hc.2.2.1 r3 sc3 h3).2,
    h4, (hc.2.2.2 r4 sc4 h4).1, (hc.2.2.2 r4 sc4 h4).2⟩

/-! ## Helper lemmas: the start and end cells keep their tags -/

theorem bfsStep_C10 {nbrs : Pos → List Pos} {sp tgt : Pos} (hne : sp ≠ tgt) {s : BfsSt}
    (hv : sp ∈ s.visited) (hsp : s.colors sp = orange) (htgt : s.colors tgt = turquoise) :
    (∀ s', bfsStep nbrs sp tgt s = StepRes.next s' →
      sp ∈ s'.visited ∧ s'.colors sp = orange ∧ s'.colors tgt = turquoise) ∧
    (∀ r s', bfsStep nbrs sp tgt s = StepRes.done r s' →
      s'.colors sp = orange ∧ s'.colors tgt = turquoise) := by
  constructor
  · intro s' h
    unfold bfsStep at h
    split at h
    · exact absurd h (by simp)
    · split at h
      · exact absurd h (by simp)
      · cases h
        rename_i cur rest hq hc
        have hone : ∀ (x : BfsSt) (n : Pos),
            (sp ∈ x.visited ∧ x.colors sp = orange ∧ x.colors tgt = turquoise) →
            (sp ∈ (bfsDiscover tgt cur x n).visited ∧
              (bfsDiscover tgt cur x n).colors sp = orange ∧
              (bfsDiscover tgt cur x n).colors tgt = turquoise) := by
          intro x n hx
          obtain ⟨hxv, hxsp, hxtgt⟩ := hx
          unfold bfsDiscover
          split
          · rename_i hcond
            have hnsp : n ≠ sp := fun hh => hcond.1 (hh ▸ hxv)
            refine ⟨List.mem_cons_of_mem _ hxv, ?_, ?_⟩
            · dsimp only
              split
              · simp only [upd]
                rw [if_neg (Ne.symm hnsp)]
                exact hxsp
              · exact hxsp
            · dsimp only
              split
              · rename_i hntgt
                simp only [upd]
                rw [if_neg (Ne.symm hntgt)]
                exact hxtgt
              · exact hxtgt
          · exact ⟨hxv, hxsp, hxtgt⟩
        have hfold := foldlPres
          (fun x : BfsSt => sp ∈ x.visited ∧ x.colors sp = orange ∧ x.colors tgt = turquoise)
          (bfsDiscover tgt cur) hone (nbrs cur) { s with queue := rest } ⟨hv, hsp, htgt⟩
        obtain ⟨h1, h2, h3⟩ := hfold
        split <;> rename_i hcond
        · refine ⟨h1, ?_, ?_⟩
          · dsimp only
            simp only [upd]
            rw [if_neg (Ne.symm hcond.1)]
            exact h2
          · dsimp only
            simp only [upd]
            rw [if_neg (Ne.symm hcond.2)]
            exact h3
        · exact ⟨h1, h2, h3⟩
  · intro r s' h
    unfold bfsStep at h
    split at h
    · cases h
      exact ⟨hsp, htgt⟩
    · split at h
      · cases h
        constructor
        · dsimp only
          simp [upd]
        · dsimp only
          simp [upd, Ne.symm hne]
      · exact absurd h (by simp)

theorem bfsRunC_C10 (nbrs : Pos → List Pos) (sp tgt : Pos) (cancel : Nat → Bool)
    (hne : sp ≠ tgt) :
    ∀ (fuel i : Nat) (s : BfsSt) (r : RunRes) (sc : BfsSt),
      sp ∈ s.visited → s.colors sp = orange → s.colors tgt = turquoise →
      bfsRunC nbrs sp tgt cancel fuel i s = some (r, sc) →
      sc.colors sp = orange ∧ sc.colors tgt = turquoise := by
  intro fuel
  induction fuel with
  | zero => intro i s r sc _ _ _ h; exact absurd h (by simp [bfsRunC])
  | succ fuel ih =>
    intro i s r sc hv hsp htgt h
    rw [bfsRunC] at h
    by_cases hcan : cancel i = true
    · rw [if_pos hcan] at h
      cases h
      exact ⟨hsp, htgt⟩
    · rw [if_neg (by simpa using hcan)] at h
      rcases hstep : bfsStep nbrs sp tgt s with ⟨r0, s0⟩ | s0 <;> rw [hstep] at h
      · cases h
        exact (bfsStep_C10 hne hv hsp htgt).2 _ _ hstep
      · obtain ⟨h1, h2, h3⟩ := (bfsStep_C10 hne hv hsp htgt).1 s0 hstep
        exact ih _ _ _ _ h1 h2 h3 h

theorem dfsStep_C10 {nbrs : Pos → List Pos} {sp tgt : Pos} (hne : sp ≠ tgt) {s : DfsSt}
    (hv : sp ∈ s.visited) (hsp : s.colors sp = orange) (htgt : s.colors tgt = turquoise) :
    (∀ s', dfsStep nbrs sp tgt s = StepRes.next s' →
      sp ∈ s'.visited ∧ s'.colors sp = orange ∧ s'.colors tgt = turquoise) ∧
    (∀ r s', dfsStep nbrs sp tgt s = StepRes.done r s' →
      s'.colors sp = orange ∧ s'.colors tgt = turquoise) := by
  constructor
  · intro s' h
    unfold dfsStep at h
    split at h
    · exact absurd h (by simp)
    · split at h
      · exact absurd h (by simp)
      · cases h
        rename_i cur rest hq hc
        refine foldlPres
          (fun x : DfsSt => sp ∈ x.visited ∧ x.colors sp = orange ∧ x.colors tgt = turquoise)
          (dfsDiscover tgt cur) ?_ ((nbrs cur).reverse) _ ?_
        · intro x n hx
          obtain ⟨hxv, hxsp, hxtgt⟩ := hx
          unfold dfsDiscover
          split
          · rename_i hcond
            have hnsp : n ≠ sp := fun hh => hcond.1 (hh ▸ hxv)
            refine ⟨List.mem_cons_of_mem _ hxv, ?_, ?_⟩
            · dsimp only
              split
              · simp only [upd]
                rw [if_neg (Ne.symm hnsp)]
                exact hxsp
              · exact hxsp
            · dsimp only
              split
              · rename_i hntgt
                simp only [upd]
                rw [if_neg (Ne.symm hntgt)]
                exact hxtgt
              · exact hxtgt
          · exact ⟨hxv, hxsp, hxtgt⟩
        · split <;> rename_i hcond
          · refine ⟨hv, ?_, ?_⟩
            · dsimp only
              simp only [upd]
              rw [if_neg (Ne.symm hcond.1)]
              exact hsp
            · dsimp only
              simp only [upd]
              rw [if_neg (Ne.symm hcond.2)]
              exact htgt
          · exact ⟨hv, hsp, htgt⟩
  · intro r s' h
    unfold dfsStep at h
    split at h
    · cases h
      exact ⟨hsp, htgt⟩
    · split at h
      · cases h
        constructor
        · dsimp only
          simp [upd]
        · dsimp only
          simp [upd, Ne.symm hne]
      · exact absurd h (by simp)

theorem dfsRunC_C10 (nbrs : Pos → List Pos) (sp tgt : Pos) (cancel : Nat → Bool)
    (hne : sp ≠ tgt) :
    ∀ (fuel i : Nat) (s : DfsSt) (r : RunRes) (sc : DfsSt),
      sp ∈ s.visited → s.colors sp = orange → s.colors tgt = turquoise →
      dfsRunC nbrs sp tgt cancel fuel i s = some (r, sc) →
      sc.colors sp = orange ∧ sc.colors tgt = turquoise := by
  intro fuel
  induction fuel with
  | zero => intro i s r sc _ _ _ h; exact absurd h (by simp [dfsRunC])
  | succ fuel ih =>
    intro i s r sc hv hsp htgt h
    rw [dfsRunC] at h
    by_cases hcan : cancel i = true
    · rw [if_pos hcan] at h
      cases h
      exact ⟨hsp, htgt⟩
    · rw [if_neg (by simpa using hcan)] at h
      rcases hstep : dfsStep nbrs sp tgt s with ⟨r0, s0⟩ | s0 <;> rw [hstep] at h
      · cases h
        exact (dfsStep_C10 hne hv hsp htgt).2 _ _ hstep
      · obtain ⟨h1, h2, h3⟩ := (dfsStep_C10 hne hv hsp htgt).1 s0 hstep
        exact ih _ _ _ _ h1 h2 h3 h

theorem gStep_C10 {hf : Pos → Nat} {nbrs : Pos → List Pos} {sp tgt : Pos} (hne : sp ≠ tgt)
    {s : GSt} (hg : s.g sp = 0) (hsp : s.colors sp = orange)
    (htgt : s.colors tgt = turquoise) :
    (∀ s', gStep hf nbrs sp tgt s = StepRes.next s' →
      s'.g sp = 0 ∧ s'.colors sp = orange ∧ s'.colors tgt = turquoise) ∧
    (∀ r s', gStep hf nbrs sp tgt s = StepRes.done r s' →
      s'.colors sp = orange ∧ s'.colors tgt = turquoise) := by
  constructor
  · intro s' h
    unfold gStep at h
    split at h
    · exact absurd h (by simp)
    · dsimp only at h
      split at h
      · cases h
        exact ⟨hg, hsp, htgt⟩
      · split at h
        · exact absurd h (by simp)
        · cases h
          rename_i e rest hpop hstale hc
          have hone : ∀ (x : GSt) (n : Pos),
              (x.g sp = 0 ∧ x.colors sp = orange ∧ x.colors tgt = turquoise) →
              ((gRelax hf tgt e.node x n).g sp = 0 ∧
                (gRelax hf tgt e.node x n).colors sp = orange ∧
                (gRelax hf tgt e.node x n).colors tgt = turquoise) := by
            intro x n hx
            obtain ⟨hxg, hxsp, hxtgt⟩ := hx
            unfold gRelax
            dsimp only
            split
            · exact ⟨hxg, hxsp, hxtgt⟩
            · split
              · rename_i hbar htemp
                have hnsp : n ≠ sp := by
                  intro hh
                  subst hh
                  rw [hxg] at htemp
                  exact absurd htemp (by simp)
                split
                · refine ⟨?_, hxsp, hxtgt⟩
                  dsimp only
                  simp only [upd]
                  rw [if_neg (Ne.symm hnsp)]
                  exact hxg
                · refine ⟨?_, ?_, ?_⟩
                  · dsimp only
                    simp only [upd]
                    rw [if_neg (Ne.symm hnsp)]
                    exact hxg
                  · dsimp only
                    split
                    · simp only [upd]
                      rw [if_neg (Ne.symm hnsp)]
                      exact hxsp
                    · exact hxsp
                  · dsimp only
                    split
                    · rename_i hntgt
                      simp only [upd]
                      rw [if_neg (Ne.symm hntgt)]
                      exact hxtgt
                    · exact hxtgt
              · exact ⟨hxg, hxsp, hxtgt⟩
          have hfold := foldlPres
            (fun x : GSt => x.g sp = 0 ∧ x.colors sp = orange ∧ x.colors tgt = turquoise)
            (gRelax hf tgt e.node) hone (nbrs e.node)
            { s with heap := rest, hash := s.hash.erase e.node } ⟨hg, hsp, htgt⟩
          obtain ⟨h1, h2, h3⟩ := hfold
          split <;> rename_i hcond
          · refine ⟨h1, ?_, ?_⟩
            · dsimp only
              simp only [upd]
              rw [if_neg (Ne.symm hcond.1)]
              exact h2
            · dsimp only
              simp only [upd]
              rw [if_neg (Ne.symm hcond.2)]
              exact h3
          · exact ⟨h1, h2, h3⟩
  · intro r s' h
    unfold gStep at h
    split at h
    · cases h
      exact ⟨hsp, htgt⟩
    · dsimp only at h
      split at h
      · exact absurd h (by simp)
      · split at h
        · cases h
          constructor
          · dsimp only
            simp [upd]
          · dsimp only
            simp [upd, Ne.symm hne]
        · exact absurd h (by simp)

theorem gRunC_C10 (hf : Pos → Nat) (nbrs : Pos → List Pos) (sp tgt : Pos)
    (cancel : Nat → Bool) (hne : sp ≠ tgt) :
    ∀ (fuel i : Nat) (s : GSt) (r : RunRes) (sc : GSt),
      s.g sp = 0 → s.colors sp = orange → s.colors tgt = turquoise →
      gRunC hf nbrs sp tgt cancel fuel i s = some (r, sc) →
      sc.colors sp = orange ∧ sc.colors tgt = turquoise := by
  intro fuel
  induction fuel with
  | zero => intro i s r sc _ _ _ h; exact absurd h (by simp [gRunC])
  | succ fuel ih =>
    intro i s r sc hg hsp htgt h
    rw [gRunC] at h
    by_cases hcan : cancel i = true
    · rw [if_pos hcan] at h
      cases h
      exact ⟨hsp, htgt⟩
    · rw [if_neg (by simpa using hcan)] at h
      rcases hstep : gStep hf nbrs sp tgt s with ⟨r0, s0⟩ | s0 <;> rw [hstep] at h
      · cases h
        exact (gStep_C10 hne hg hsp htgt).2 _ _ hstep
      · obtain ⟨h1, h2, h3⟩ := (gStep_C10 hne hg hsp htgt).1 s0 hstep
        exact ih _ _ _ _ h1 h2 h3 h

/-! ## Claim C10 -/

/-- **C10**: Throughout every search run (every state surfaced by a run under
an arbitrary cancellation oracle, including the final one), the start and
end cells never take the Frontier (green) or Visited (red) tag: starting
from a grid where start is tagged Start (orange) and end is tagged End
(turquoise), every surfaced state still shows exactly those two tags —
discovery skips painting the end, expansion skips painting start and end,
and on success the Start and End tags are re-asserted after path
reconstruction. -/
theorem claim_C10 (nbrs : Pos → List Pos) (colors0 : Pos → Color) (sp tgt : Pos)
    (cancel : Nat → Bool) (fuel i : Nat) (hne : sp ≠ tgt)
    (hsp : colors0 sp = orange) (htgt : colors0 tgt = turquoise) :
    (∀ r sc, bfsRunC nbrs sp tgt cancel fuel i (bfsInit colors0 sp) = some (r, sc) →
      sc.colors sp = orange ∧ sc.colors tgt = turquoise) ∧
    (∀ r sc, dfsRunC nbrs sp tgt cancel fuel i (dfsInit colors0 sp) = some (r, sc) →
      sc.colors sp = orange ∧ sc.colors tgt = turquoise) ∧
    (∀ r sc, dijRunC nbrs sp tgt cancel fuel i (dijInit colors0 sp) = some (r, sc) →
      sc.colors sp = orange ∧ sc.colors tgt = turquoise) ∧
    (∀ r sc, gRunC (astarH tgt) nbrs sp tgt cancel fuel i (astarInit colors0 sp tgt) =
        some (r, sc) →
      sc.colors sp = orange ∧ sc.colors tgt = turquoise) := by
  refine ⟨?_, ?_, ?_, ?_⟩
  · intro r sc h
    exact bfsRunC_C10 nbrs sp tgt cancel hne fuel i _ r sc (by simp [bfsInit]) hsp htgt h
  · intro r sc h
    exact dfsRunC_C10 nbrs sp tgt cancel hne fuel i _ r sc (by simp [dfsInit]) hsp htgt h
  · intro r sc h
    have h2 : gRunC (fun _ => 0) nbrs sp tgt cancel fuel i
        (gInit (fun _ => 0) colors0 sp) = some (r, gOfDij sc) := by
      rw [← gOfDij_init, gOfDij_runC, h]
      rfl
    exact gRunC_C10 (fun _ => 0) nbrs sp tgt cancel hne fuel i _ r (gOfDij sc)
      (by simp [gInit, upd]) hsp htgt h2
  · intro r sc h
    exact gRunC_C10 (astarH tgt) nbrs sp tgt cancel hne fuel i _ r sc
      (by simp [astarInit, gInit, upd]) hsp htgt h

/-- Concrete instantiation of `claim_C10` on the 2-by-2 grid: after each of
the four uninterrupted runs the start cell is still orange and the end cell
still turquoise. -/
theorem claim_C10_witness :
    ∃ r1 sc1 r2 sc2 r3 sc3 r4 sc4,
      bfsRunC adjNbrs (0, 0) (0, 1) (fun _ => false) 8 0 (bfsInit adjColors (0, 0)) =
          some (r1, sc1) ∧
      sc1.colors (0, 0) = orange ∧ sc1.colors (0, 1) = turquoise ∧
      dfsRunC adjNbrs (0, 0) (0, 1) (fun _ => false) 8 0 (dfsInit adjColors (0, 0)) =
          some (r2, sc2) ∧
      sc2.colors (0, 0) = orange ∧ sc2.colors (0, 1) = turquoise ∧
      dijRunC adjNbrs (0, 0) (0, 1) (fun _ => false) 8 0 (dijInit adjColors (0, 0)) =
          some (r3, sc3) ∧
      sc3.colors (0, 0) = orange ∧ sc3.colors (0, 1) = turquoise ∧
      gRunC (astarH (0, 1)) adjNbrs (0, 0) (0, 1) (fun _ => false) 8 0
          (astarInit adjColors (0, 0) (0, 1)) = some (r4, sc4) ∧
      sc4.colors (0, 0) = orange ∧ sc4.colors (0, 1) = turquoise := by
  obtain ⟨r1, sc1, h1⟩ : ∃ r sc,
      bfsRunC adjNbrs (0, 0) (0, 1) (fun _ => false) 8 0 (bfsInit adjColors (0, 0)) =
        some (r, sc) := ⟨_, _, rfl⟩
  obtain ⟨r2, sc2, h2⟩ : ∃ r sc,
      dfsRunC adjNbrs (0, 0) (0, 1) (fun _ => false) 8 0 (dfsInit adjColors (0, 0)) =
        some (r, sc) := ⟨_, _, rfl⟩
  obtain ⟨r3, sc3, h3⟩ : ∃ r sc,
      dijRunC adjNbrs (0, 0) (0, 1) (fun _ => false) 8 0 (dijInit adjColors (0, 0)) =
        some (r, sc) := ⟨_, _, rfl⟩
  obtain ⟨r4, sc4, h4⟩ : ∃ r sc,
      gRunC (astarH (0, 1)) adjNbrs (0, 0) (0, 1) (fun _ => false) 8 0
        (astarInit adjColors (0, 0) (0, 1)) = some (r, sc) := ⟨_, _, rfl⟩
  have hc := claim_C10 adjNbrs adjColors (0, 0) (0, 1) (fun _ => false) 8 0
    (by decide) (by decide) (by decide)
  exact ⟨r1, sc1, r2, sc2, r3, sc3, r4, sc4,
    h1, (hc.1 r1 sc1 h1).1, (hc.1 r1 sc1 h1).2,
    h2, (hc.2.1 r2 sc2 h2).1, (hc.2.1 r2 sc2 h2).2,
    h3, (hc.2.2.1 r3 sc3 h3).1, (hc.2.2.1 r3 sc3 h3).2,
    h4, (hc.2.2.2 r4 sc4 h4).1, (hc.2.2.2 r4 sc4 h4).2⟩

/-! ## Helper lemmas: clean-up restores the dispatch-time grid -/

theorem alookup_mem : ∀ {cf : List (Pos × Pos)} {x v : Pos},
    alookup cf x = some v → ∃ pr ∈ cf, pr.2 = v := by
  intro cf
  induction cf with
  | nil => intro x v h; exact absurd h (by simp [alookup])
  | cons a t ih =>
    intro x v h
    rcases a with ⟨k, w⟩
    rw [alookup] at h
    split at h
    · cases h
      exact ⟨(k, v), List.mem_cons_self _ _, rfl⟩
    · obtain ⟨pr, hm, hv⟩ := ih h
      exact ⟨pr, List.mem_cons_of_mem _ hm, hv⟩

theorem reconstructPath_colors :
    ∀ (fuel : Nat) (cf : List (Pos × Pos)) (cur : Pos) (colors : Pos → Color) (q : Pos),
      (reconstructPath fuel cf cur colors).2 q = colors q ∨
        ((reconstructPath fuel cf cur colors).2 q = purple ∧ ∃ pr ∈ cf, pr.2 = q) := by
  intro fuel
  induction fuel with
  | zero => intro cf cur colors q; exact Or.inl rfl
  | succ fuel ih =>
    intro cf cur colors q
    rw [reconstructPath]
    rcases hl : alookup cf cur with _ | prev
    · exact Or.inl rfl
    · dsimp only
      split
      · exact ih cf prev colors q
      · dsimp only
        rcases ih cf prev (upd colors prev purple) q with h | ⟨h1, h2⟩
        · by_cases hqp : q = prev
          · subst hqp
            right
            refine ⟨?_, alookup_mem hl⟩
            rw [h]
            simp [upd]
          · left
            rw [h]
            simp only [upd]
            rw [if_neg hqp]
        · exact Or.inr ⟨h1, h2⟩

theorem updateNeighbors_inBounds (rows : Nat) (colors : Pos → Color) (p n : Pos)
    (hp1 : p.1 < rows) (hp2 : p.2 < rows)
    (hn : n ∈ updateNeighbors rows colors p) : n.1 < rows ∧ n.2 < rows := by
  unfold updateNeighbors at hn
  simp only [List.mem_append] at hn
  rcases hn with ((h | h) | h) | h <;> split at h <;>
    first
      | exact absurd h (List.not_mem_nil n)
      | · rename_i hcond
          rw [List.mem_singleton] at h
          subst h
          dsimp only
          omega

theorem colorClass_white {rows : Nat} {colors0 : Pos → Color} {sp tgt : Pos}
    {c : Pos → Color} (hcc : colorClass rows colors0 sp tgt c)
    (hclean : ∀ q, q ≠ sp → q ≠ tgt → colors0 q = white ∨ colors0 q = black)
    {n : Pos} (hn1 : n ≠ sp) (hn2 : n ≠ tgt) (hb : ¬ isBarrier (c n) = true) :
    colors0 n = white := by
  rcases hcc.2.2 n hn1 hn2 with h | h
  · rcases hclean n hn1 hn2 with h0 | h0
    · exact h0
    · rw [h, h0] at hb
      exact absurd rfl hb
  · exact h.2.2.1

theorem colorClass_done {rows : Nat} {colors0 : Pos → Color} {sp tgt : Pos}
    (hne : sp ≠ tgt) {c : Pos → Color} (hcc : colorClass rows colors0 sp tgt c)
    {cf : List (Pos × Pos)} (hcf : cameFromOK rows colors0 sp tgt cf) (fuel : Nat) :
    colorClass rows colors0 sp tgt
      (upd (upd (reconstructPath fuel cf tgt c).2 tgt turquoise) sp orange) := by
  refine ⟨by simp [upd], by simp [upd, Ne.symm hne], ?_⟩
  intro q hqs hqt
  have hq : upd (upd (reconstructPath fuel cf tgt c).2 tgt turquoise) sp orange q =
      (reconstructPath fuel cf tgt c).2 q := by
    simp [upd, hqs, hqt]
  rw [hq]
  rcases reconstructPath_colors fuel cf tgt c q with h | ⟨hp, pr, hpr, hv⟩
  · rw [h]
    exact hcc.2.2 q hqs hqt
  · subst hv
    right
    obtain ⟨hbnd, hwhite⟩ := hcf pr hpr
    exact ⟨hbnd.1, hbnd.2, hwhite hqs hqt, Or.inr (Or.inr hp)⟩

theorem clearPath_restores {rows : Nat} {colors0 colors1 : Pos → Color} {sp tgt : Pos}
    (hne : sp ≠ tgt) (hsp : colors0 sp = orange) (htgt : colors0 tgt = turquoise)
    (hclean : ∀ q, q ≠ sp → q ≠ tgt → colors0 q = white ∨ colors0 q = black)
    (hcl : ∀ q, q ≠ sp → q ≠ tgt → colors1 q = colors0 q ∨
      (q.1 < rows ∧ q.2 < rows ∧ colors0 q = white ∧
        (colors1 q = green ∨ colors1 q = red ∨ colors1 q = purple))) :
    clearPathNodes rows colors1 sp tgt = colors0 := by
  funext q
  unfold clearPathNodes
  (try dsimp only)
  simp only [upd]
  by_cases hqt : q = tgt
  · subst hqt
    rw [if_pos rfl]
    exact htgt.symm
  · rw [if_neg hqt]
    by_cases hqs : q = sp
    · subst hqs
      rw [if_pos rfl]
      exact hsp.symm
    · rw [if_neg hqs]
      rcases hcl q hqs hqt with h1 | ⟨b1, b2, hw, hp⟩
      · rcases hclean q hqs hqt with hw | hb
        · rw [h1, hw]
          split <;> rfl
        · rw [h1, hb]
          rw [if_neg (by simp [isStart, isEnd, isBarrier])]
      · rcases hp with hp | hp | hp <;>
          rw [hp, if_pos ⟨b1, b2, by simp [isStart, isEnd, isBarrier]⟩] <;>
          exact hw.symm

theorem bfsStep_C8 {rows : Nat} {colors0 : Pos → Color} {nbrs : Pos → List Pos}
    {sp tgt : Pos} (hne : sp ≠ tgt)
    (hclean : ∀ q, q ≠ sp → q ≠ tgt → colors0 q = white ∨ colors0 q = black)
    (hnb : ∀ c n, n ∈ nbrs c → c.1 < rows ∧ c.2 < rows → n.1 < rows ∧ n.2 < rows)
    {s : BfsSt} (hinv : bfsC8Inv rows colors0 sp tgt s) :
    (∀ s', bfsStep nbrs sp tgt s = StepRes.next s' → bfsC8Inv rows colors0 sp tgt s') ∧
    (∀ r s', bfsStep nbrs sp tgt s = StepRes.done r s' →
      colorClass rows colors0 sp tgt s'.colors) := by
  obtain ⟨hcc, hfr, hv, hcf⟩ := hinv
  constructor
  · intro s' h
    unfold bfsStep at h
    split at h
    · exact absurd h (by simp)
    · split at h
      · exact absurd h (by simp)
      · cases h
        rename_i cur rest hq hc
        have hcurb := hfr cur (by rw [hq]; exact List.mem_cons_self _ _)
        have hone : ∀ (x : BfsSt) (n : Pos), n ∈ nbrs cur →
            (colorClass rows colors0 sp tgt x.colors ∧
              frontierOK rows colors0 sp tgt x.queue ∧ sp ∈ x.visited ∧
              cameFromOK rows colors0 sp tgt x.cameFrom) →
            (colorClass rows colors0 sp tgt (bfsDiscover tgt cur x n).colors ∧
              frontierOK rows colors0 sp tgt (bfsDiscover tgt cur x n).queue ∧
              sp ∈ (bfsDiscover tgt cur x n).visited ∧
              cameFromOK rows colors0 sp tgt (bfsDiscover tgt cur x n).cameFrom) := by
          intro x n hn hx
          obtain ⟨hxcc, hxfr, hxv, hxcf⟩ := hx
          unfold bfsDiscover
          split
          · rename_i hcond
            have hnsp : n ≠ sp := fun hh => hcond.1 (hh ▸ hxv)
            have hnbd : n.1 < rows ∧ n.2 < rows := hnb cur n hn hcurb.1
            refine ⟨?_, ?_, List.mem_cons_of_mem _ hxv, ?_⟩
            · dsimp only
              split
              · rename_i hntgt
                have hwhite : colors0 n = white :=
                  colorClass_white hxcc hclean hnsp hntgt hcond.2
                refine ⟨?_, ?_, ?_⟩
                · simp only [upd]
                  rw [if_neg (Ne.symm hnsp)]
                  exact hxcc.1
                · simp only [upd]
                  rw [if_neg (Ne.symm hntgt)]
                  exact hxcc.2.1
                · intro q hqs hqt
                  by_cases hqn : q = n
                  · subst hqn
                    right
                    refine ⟨hnbd.1, hnbd.2, hwhite, Or.inl ?_⟩
                    simp [upd]
                  · rcases hxcc.2.2 q hqs hqt with h1 | ⟨a1, a2, a3, a4⟩
                    · left
                      simp only [upd]
                      rw [if_neg hqn]
                      exact h1
                    · right
                      refine ⟨a1, a2, a3, ?_⟩
                      simp only [upd]
                      rw [if_neg hqn]
                      exact a4
              · exact hxcc
            · intro q hmem
              dsimp only at hmem
              rcases List.mem_append.mp hmem with hmem | hmem
              · exact hxfr q hmem
              · rw [List.mem_singleton] at hmem
                subst hmem
                exact ⟨hnbd, fun h1 h2 => colorClass_white hxcc hclean h1 h2 hcond.2⟩
            · intro pr hpr
              dsimp only at hpr
              rcases List.mem_cons.mp hpr with rfl | hpr
              · exact ⟨hcurb.1, hcurb.2⟩
              · exact hxcf pr hpr
          · exact ⟨hxcc, hxfr, hxv, hxcf⟩
        have hinit : colorClass rows colors0 sp tgt ({ s with queue := rest } : BfsSt).colors ∧
            frontierOK rows colors0 sp tgt ({ s with queue := rest } : BfsSt).queue ∧
            sp ∈ ({ s with queue := rest } : BfsSt).visited ∧
            cameFromOK rows colors0 sp tgt ({ s with queue := rest } : BfsSt).cameFrom := by
          refine ⟨hcc, ?_, hv, hcf⟩
          intro q hmem
          exact hfr q (by rw [hq]; exact List.mem_cons_of_mem _ hmem)
        have hfold := foldlPresMem
          (fun x : BfsSt => colorClass rows colors0 sp tgt x.colors ∧
            frontierOK rows colors0 sp tgt x.queue ∧ sp ∈ x.visited ∧
            cameFromOK rows colors0 sp tgt x.cameFrom)
          (bfsDiscover tgt cur) (nbrs cur) hone { s with queue := rest } hinit
        obtain ⟨h1, h2, h3, h4⟩ := hfold
        split <;> rename_i hcond2
        · refine ⟨⟨?_, ?_, ?_⟩, h2, h3, h4⟩
          · dsimp only
            simp only [upd]
            rw [if_neg (Ne.symm hcond2.1)]
            exact h1.1
          · dsimp only
            simp only [upd]
            rw [if_neg (Ne.symm hcond2.2)]
            exact h1.2.1
          · intro q hqs hqt
            dsimp only
            by_cases hqc : q = cur
            · subst hqc
              right
              refine ⟨hcurb.1.1, hcurb.1.2, hcurb.2 hcond2.1 hcond2.2, Or.inr (Or.inl ?_)⟩
              simp [upd]
            · rcases h1.2.2 q hqs hqt with hh | ⟨a1, a2, a3, a4⟩
              · left
                simp only [upd]
                rw [if_neg hqc]
                exact hh
              · right
                refine ⟨a1, a2, a3, ?_⟩
                simp only [upd]
                rw [if_neg hqc]
                exact a4
        · exact ⟨h1, h2, h3, h4⟩
  · intro r s' h
    unfold bfsStep at h
    split at h
    · cases h
      exact hcc
    · split at h
      · cases h
        exact colorClass_done hne hcc hcf _
      · exact absurd h (by simp)

theorem bfsRunC_C8 {rows : Nat} {colors0 : Pos → Color} (nbrs : Pos → List Pos)
    (sp tgt : Pos) (cancel : Nat → Bool) (hne : sp ≠ tgt)
    (hclean : ∀ q, q ≠ sp → q ≠ tgt → colors0 q = white ∨ colors0 q = black)
    (hnb : ∀ c n, n ∈ nbrs c → c.1 < rows ∧ c.2 < rows → n.1 < rows ∧ n.2 < rows) :
    ∀ (fuel i : Nat) (s : BfsSt) (r : RunRes) (sc : BfsSt),
      bfsC8Inv rows colors0 sp tgt s →
      bfsRunC nbrs sp tgt cancel fuel i s = some (r, sc) →
      colorClass rows colors0 sp tgt sc.colors := by
  intro fuel
  induction fuel with
  | zero => intro i s r sc _ h; exact absurd h (by simp [bfsRunC])
  | succ fuel ih =>
    intro i s r sc hinv h
    rw [bfsRunC] at h
    by_cases hcan : cancel i = true
    · rw [if_pos hcan] at h
      cases h
      exact hinv.1
    · rw [if_neg (by simpa using hcan)] at h
      rcases hstep : bfsStep nbrs sp tgt s with ⟨r0, s0⟩ | s0 <;> rw [hstep] at h
      · cases h
        exact (bfsStep_C8 hne hclean hnb hinv).2 _ _ hstep
      · exact ih _ _ _ _ ((bfsStep_C8 hne hclean hnb hinv).1 s0 hstep) h

theorem dfsStep_C8 {rows : Nat} {colors0 : Pos → Color} {nbrs : Pos → List Pos}
    {sp tgt : Pos} (hne : sp ≠ tgt)
    (hclean : ∀ q, q ≠ sp → q ≠ tgt → colors0 q = white ∨ colors0 q = black)
    (hnb : ∀ c n, n ∈ nbrs c → c.1 < rows ∧ c.2 < rows → n.1 < rows ∧ n.2 < rows)
    {s : DfsSt} (hinv : dfsC8Inv rows colors0 sp tgt s) :
    (∀ s', dfsStep nbrs sp tgt s = StepRes.next s' → dfsC8Inv rows colors0 sp tgt s') ∧
    (∀ r s', dfsStep nbrs sp tgt s = StepRes.done r s' →
      colorClass rows colors0 sp tgt s'.colors) := by
  obtain ⟨hcc, hfr, hv, hcf⟩ := hinv
  constructor
  · intro s' h
    unfold dfsStep at h
    split at h
    · exact absurd h (by simp)
    · split at h
      · exact absurd h (by simp)
      · cases h
        rename_i cur rest hq hc
        have hcurb := hfr cur (by rw [hq]; exact List.mem_cons_self _ _)
        have hone : ∀ (x : DfsSt) (n : Pos), n ∈ (nbrs cur).reverse →
            (colorClass rows colors0 sp tgt x.colors ∧
              frontierOK rows colors0 sp tgt x.stack ∧ sp ∈ x.visited ∧
              cameFromOK rows colors0 sp tgt x.cameFrom) →
            (colorClass rows colors0 sp tgt (dfsDiscover tgt cur x n).colors ∧
              frontierOK rows colors0 sp tgt (dfsDiscover tgt cur x n).stack ∧
              sp ∈ (dfsDiscover tgt cur x n).visited ∧
              cameFromOK rows colors0 sp tgt (dfsDiscover tgt cur x n).cameFrom) := by
          intro x n hn hx
          obtain ⟨hxcc, hxfr, hxv, hxcf⟩ := hx
          rw [List.mem_reverse] at hn
          unfold dfsDiscover
          split
          · rename_i hcond
            have hnsp : n ≠ sp := fun hh => hcond.1 (hh ▸ hxv)
            have hnbd : n.1 < rows ∧ n.2 < rows := hnb cur n hn hcurb.1
            refine ⟨?_, ?_, List.mem_cons_of_mem _ hxv, ?_⟩
            · dsimp only
              split
              · rename_i hntgt
                have hwhite : colors0 n = white :=
                  colorClass_white hxcc hclean hnsp hntgt hcond.2
                refine ⟨?_, ?_, ?_⟩
                · simp only [upd]
                  rw [if_neg (Ne.symm hnsp)]
                  exact hxcc.1
                · simp only [upd]
                  rw [if_neg (Ne.symm hntgt)]
                  exact hxcc.2.1
                · intro q hqs hqt
                  by_cases hqn : q = n
                  · subst hqn
                    right
                    refine ⟨hnbd.1, hnbd.2, hwhite, Or.inl ?_⟩
                    simp [upd]
                  · rcases hxcc.2.2 q hqs hqt with h1 | ⟨a1, a2, a3, a4⟩
                    · left
                      simp only [upd]
                      rw [if_neg hqn]
                      exact h1
                    · right
                      refine ⟨a1, a2, a3, ?_⟩
                      simp only [upd]
                      rw [if_neg hqn]
                      exact a4
              · exact hxcc
            · intro q hmem
              dsimp only at hmem
              rcases List.mem_cons.mp hmem with rfl | hmem
              · exact ⟨hnbd, fun h1 h2 => colorClass_white hxcc hclean h1 h2 hcond.2⟩
              · exact hxfr q hmem
            · intro pr hpr
              dsimp only at hpr
              rcases List.mem_cons.mp hpr with rfl | hpr
              · exact ⟨hcurb.1, hcurb.2⟩
              · exact hxcf pr hpr
          · exact ⟨hxcc, hxfr, hxv, hxcf⟩
        refine foldlPresMem
          (fun x : DfsSt => colorClass rows colors0 sp tgt x.colors ∧
            frontierOK rows colors0 sp tgt x.stack ∧ sp ∈ x.visited ∧
            cameFromOK rows colors0 sp tgt x.cameFrom)
          (dfsDiscover tgt cur) ((nbrs cur).reverse) hone _ ?_
        have htail : ∀ q ∈ rest, (q.1 < rows ∧ q.2 < rows) ∧
            (q ≠ sp → q ≠ tgt → colors0 q = white) := by
          intro q hmem
          exact hfr q (by rw [hq]; exact List.mem_cons_of_mem _ hmem)
        split <;> rename_i hcond2
        · refine ⟨⟨?_, ?_, ?_⟩, htail, hv, hcf⟩
          · dsimp only
            simp only [upd]
            rw [if_neg (Ne.symm hcond2.1)]
            exact hcc.1
          · dsimp only
            simp only [upd]
            rw [if_neg (Ne.symm hcond2.2)]
            exact hcc.2.1
          · intro q hqs hqt
            dsimp only
            by_cases hqc : q = cur
            · subst hqc
              right
              refine ⟨hcurb.1.1, hcurb.1.2, hcurb.2 hcond2.1 hcond2.2, Or.inr (Or.inl ?_)⟩
              simp [upd]
            · rcases hcc.2.2 q hqs hqt with hh | ⟨a1, a2, a3, a4⟩
              · left
                simp only [upd]
                rw [if_neg hqc]
                exact hh
              · right
                refine ⟨a1, a2, a3, ?_⟩
                simp only [upd]
                rw [if_neg hqc]
                exact a4
        · exact ⟨hcc, htail, hv, hcf⟩
  · intro r s' h
    unfold dfsStep at h
    split at h
    · cases h
      exact hcc
    · split at h
      · cases h
        exact colorClass_done hne hcc hcf _
      · exact absurd h (by simp)

theorem dfsRunC_C8 {rows : Nat} {colors0 : Pos → Color} (nbrs : Pos → List Pos)
    (sp tgt : Pos) (cancel : Nat → Bool) (hne : sp ≠ tgt)
    (hclean : ∀ q, q ≠ sp → q ≠ tgt → colors0 q = white ∨ colors0 q = black)
    (hnb : ∀ c n, n ∈ nbrs c → c.1 < rows ∧ c.2 < rows → n.1 < rows ∧ n.2 < rows) :
    ∀ (fuel i : Nat) (s : DfsSt) (r : RunRes) (sc : DfsSt),
      dfsC8Inv rows colors0 sp tgt s →
      dfsRunC nbrs sp tgt cancel fuel i s = some (r, sc) →
      colorClass rows colors0 sp tgt sc.colors := by
  intro fuel
  induction fuel with
  | zero => intro i s r sc _ h; exact absurd h (by simp [dfsRunC])
  | succ fuel ih =>
    intro i s r sc hinv h
    rw [dfsRunC] at h
    by_cases hcan : cancel i = true
    · rw [if_pos hcan] at h
      cases h
      exact hinv.1
    · rw [if_neg (by simpa using hcan)] at h
      rcases hstep : dfsStep nbrs sp tgt s with ⟨r0, s0⟩ | s0 <;> rw [hstep] at h
      · cases h
        exact (dfsStep_C8 hne hclean hnb hinv).2 _ _ hstep
      · exact ih _ _ _ _ ((dfsStep_C8 hne hclean hnb hinv).1 s0 hstep) h

theorem gStep_C8 {rows : Nat} {colors0 : Pos → Color} {hf : Pos → Nat}
    {nbrs : Pos → List Pos} {sp tgt : Pos} (hne : sp ≠ tgt)
    (hclean : ∀ q, q ≠ sp → q ≠ tgt → colors0 q = white ∨ colors0 q = black)
    (hnb : ∀ c n, n ∈ nbrs c → c.1 < rows ∧ c.2 < rows → n.1 < rows ∧ n.2 < rows)
    {s : GSt} (hinv : gC8Inv rows colors0 sp tgt s) :
    (∀ s', gStep hf nbrs sp tgt s = StepRes.next s' → gC8Inv rows colors0 sp tgt s') ∧
    (∀ r s', gStep hf nbrs sp tgt s = StepRes.done r s' →
      colorClass rows colors0 sp tgt s'.colors) := by
  obtain ⟨hcc, hfr, hg, hcf⟩ := hinv
  constructor
  · intro s' h
    unfold gStep at h
    split at h
    · exact absurd h (by simp)
    · dsimp only at h
      split at h
      · cases h
        rename_i e rest hpop hstale
        refine ⟨hcc, ?_, hg, hcf⟩
        intro q hmem
        dsimp only at hmem
        obtain ⟨e', he', rfl⟩ := List.mem_map.mp hmem
        exact hfr _ (List.mem_map.mpr ⟨e', popMin_rest_subset hpop e' he', rfl⟩)
      · split at h
        · exact absurd h (by simp)
        · cases h
          rename_i e rest hpop hstale hc
          have hcurb := hfr e.node (List.mem_map.mpr ⟨e, popMin_mem hpop, rfl⟩)
          have hone : ∀ (x : GSt) (n : Pos), n ∈ nbrs e.node →
              (colorClass rows colors0 sp tgt x.colors ∧
                frontierOK rows colors0 sp tgt (x.heap.map HeapEntry.node) ∧
                x.g sp = 0 ∧ cameFromOK rows colors0 sp tgt x.cameFrom) →
              (colorClass rows colors0 sp tgt (gRelax hf tgt e.node x n).colors ∧
                frontierOK rows colors0 sp tgt
                  ((gRelax hf tgt e.node x n).heap.map HeapEntry.node) ∧
                (gRelax hf tgt e.node x n).g sp = 0 ∧
                cameFromOK rows colors0 sp tgt (gRelax hf tgt e.node x n).cameFrom) := by
            intro x n hn hx
            obtain ⟨hxcc, hxfr, hxg, hxcf⟩ := hx
            unfold gRelax
            dsimp only
            split
            · exact ⟨hxcc, hxfr, hxg, hxcf⟩
            · split
              · rename_i hbar htemp
                have hnsp : n ≠ sp := by
                  intro hh
                  subst hh
                  rw [hxg] at htemp
                  exact absurd htemp (by simp)
                have hnbd : n.1 < rows ∧ n.2 < rows := hnb e.node n hn hcurb.1
                split
                · refine ⟨hxcc, hxfr, ?_, ?_⟩
                  · dsimp only
                    simp only [upd]
                    rw [if_neg (Ne.symm hnsp)]
                    exact hxg
                  · intro pr hpr
                    dsimp only at hpr
                    rcases List.mem_cons.mp hpr with rfl | hpr
                    · exact ⟨hcurb.1, hcurb.2⟩
                    · exact hxcf pr hpr
                · rename_i hhash
                  refine ⟨?_, ?_, ?_, ?_⟩
                  · dsimp only
                    split
                    · rename_i hntgt
                      have hwhite : colors0 n = white :=
                        colorClass_white hxcc hclean hnsp hntgt hbar
                      refine ⟨?_, ?_, ?_⟩
                      · simp only [upd]
                        rw [if_neg (Ne.symm hnsp)]
                        exact hxcc.1
                      · simp only [upd]
                        rw [if_neg (Ne.symm hntgt)]
                        exact hxcc.2.1
                      · intro q hqs hqt
                        by_cases hqn : q = n
                        · subst hqn
                          right
                          refine ⟨hnbd.1, hnbd.2, hwhite, Or.inl ?_⟩
                          simp [upd]
                        · rcases hxcc.2.2 q hqs hqt with h1 | ⟨a1, a2, a3, a4⟩
                          · left
                            simp only [upd]
                            rw [if_neg hqn]
                            exact h1
                          · right
                            refine ⟨a1, a2, a3, ?_⟩
                            simp only [upd]
                            rw [if_neg hqn]
                            exact a4
                    · exact hxcc
                  · intro q hmem
                    dsimp only at hmem
                    rw [List.map_append] at hmem
                    rcases List.mem_append.mp hmem with hmem | hmem
                    · exact hxfr q hmem
                    · simp only [List.map_cons, List.map_nil, List.mem_singleton] at hmem
                      subst hmem
                      refine ⟨hnbd, ?_⟩
                      intro h1 h2
                      exact colorClass_white hxcc hclean h1 h2 hbar
                  · dsimp only
                    simp only [upd]
                    rw [if_neg (Ne.symm hnsp)]
                    exact hxg
                  · intro pr hpr
                    dsimp only at hpr
                    rcases List.mem_cons.mp hpr with rfl | hpr
                    · exact ⟨hcurb.1, hcurb.2⟩
                    · exact hxcf pr hpr
              · exact ⟨hxcc, hxfr, hxg, hxcf⟩
          have hinit : colorClass rows colors0 sp tgt
              ({ s with heap := rest, hash := s.hash.erase e.node } : GSt).colors ∧
              frontierOK rows colors0 sp tgt
                (({ s with heap := rest, hash := s.hash.erase e.node } : GSt).heap.map
                  HeapEntry.node) ∧
              ({ s with heap := rest, hash := s.hash.erase e.node } : GSt).g sp = 0 ∧
              cameFromOK rows colors0 sp tgt
                ({ s with heap := rest, hash := s.hash.erase e.node } : GSt).cameFrom := by
            refine ⟨hcc, ?_, hg, hcf⟩
            intro q hmem
            dsimp only at hmem
            obtain ⟨e', he', rfl⟩ := List.mem_map.mp hmem
            exact hfr _ (List.mem_map.mpr ⟨e', popMin_rest_subset hpop e' he', rfl⟩)
          have hfold := foldlPresMem
            (fun x : GSt => colorClass rows colors0 sp tgt x.colors ∧
              frontierOK rows colors0 sp tgt (x.heap.map HeapEntry.node) ∧
              x.g sp = 0 ∧ cameFromOK rows colors0 sp tgt x.cameFrom)
            (gRelax hf tgt e.node) (nbrs e.node) hone
            { s with heap := rest, hash := s.hash.erase e.node } hinit
          obtain ⟨h1, h2, h3, h4⟩ := hfold
          split <;> rename_i hcond2
          · refine ⟨⟨?_, ?_, ?_⟩, h2, h3, h4⟩
            · dsimp only
              simp only [upd]
              rw [if_neg (Ne.symm hcond2.1)]
              exact h1.1
            · dsimp only
              simp only [upd]
              rw [if_neg (Ne.symm hcond2.2)]
              exact h1.2.1
            · intro q hqs hqt
              dsimp only
              by_cases hqc : q = e.node
              · subst hqc
                right
                refine ⟨hcurb.1.1, hcurb.1.2, hcurb.2 hcond2.1 hcond2.2, Or.inr (Or.inl ?_)⟩
                simp [upd]
              · rcases h1.2.2 q hqs hqt with hh | ⟨a1, a2, a3, a4⟩
                · left
                  simp only [upd]
                  rw [if_neg hqc]
                  exact hh
                · right
                  refine ⟨a1, a2, a3, ?_⟩
                  simp only [upd]
                  rw [if_neg hqc]
                  exact a4
          · exact ⟨h1, h2, h3, h4⟩
  · intro r s' h
    unfold gStep at h
    split at h
    · cases h
      exact hcc
    · dsimp only at h
      split at h
      · exact absurd h (by simp)
      · split at h
        · cases h
          exact colorClass_done hne hcc hcf _
        · exact absurd h (by simp)

theorem gRunC_C8 {rows : Nat} {colors0 : Pos → Color} (hf : Pos → Nat)
    (nbrs : Pos → List Pos) (sp tgt : Pos) (cancel : Nat → Bool) (hne : sp ≠ tgt)
    (hclean : ∀ q, q ≠ sp → q ≠ tgt → colors0 q = white ∨ colors0 q = black)
    (hnb : ∀ c n, n ∈ nbrs c → c.1 < rows ∧ c.2 < rows → n.1 < rows ∧ n.2 < rows) :
    ∀ (fuel i : Nat) (s : GSt) (r : RunRes) (sc : GSt),
      gC8Inv rows colors0 sp tgt s →
      gRunC hf nbrs sp tgt cancel fuel i s = some (r, sc) →
      colorClass rows colors0 sp tgt sc.colors := by
  intro fuel
  induction fuel with
  | zero => intro i s r sc _ h; exact absurd h (by simp [gRunC])
  | succ fuel ih =>
    intro i s r sc hinv h
    rw [gRunC] at h
    by_cases hcan : cancel i = true
    · rw [if_pos hcan] at h
      cases h
      exact hinv.1
    · rw [if_neg (by simpa using hcan)] at h
      rcases hstep : gStep hf nbrs sp tgt s with ⟨r0, s0⟩ | s0 <;> rw [hstep] at h
      · cases h
        exact (gStep_C8 hne hclean hnb hinv).2 _ _ hstep
      · exact ih _ _ _ _ ((gStep_C8 hne hclean hnb hinv).1 s0 hstep) h

/-! ## Claim C8 -/

/-- **C8**: Running `clear_path` and then re-running the same algorithm on an
otherwise unmodified grid with the same start and end reproduces the
identical result — not only `visitedCount` and `pathLength` but the entire
result and final state.  Stated for dispatch-time grids satisfying the data
model of `main.py` (start tagged Start, end tagged End, start distinct from
end and in bounds, every other cell Empty or Barrier): after any completed
run, `clear_path_nodes` restores exactly the dispatch-time grid, and the
re-run — with neighbour caches refreshed from the cleared grid, fixed
neighbour ordering and tie-break sequence numbers — returns the same
`(found, visitedCount, pathLength)` triple and the same final state, the
algorithms being deterministic functions of their inputs. -/
theorem claim_C8 (rows : Nat) (colors0 : Pos → Color) (sp tgt : Pos) (fuel : Nat)
    (hne : sp ≠ tgt) (hsp : colors0 sp = orange) (htgt : colors0 tgt = turquoise)
    (hspb : sp.1 < rows ∧ sp.2 < rows)
    (hclean : ∀ q, q ≠ sp → q ≠ tgt → colors0 q = white ∨ colors0 q = black) :
    (∀ r1 sc1, bfsRun (updateNeighbors rows colors0) sp tgt fuel (bfsInit colors0 sp) =
        some (r1, sc1) →
      clearPathNodes rows sc1.colors sp tgt = colors0 ∧
      bfsRun (updateNeighbors rows (clearPathNodes rows sc1.colors sp tgt)) sp tgt fuel
        (bfsInit (clearPathNodes rows sc1.colors sp tgt) sp) = some (r1, sc1)) ∧
    (∀ r1 sc1, dfsRun (updateNeighbors rows colors0) sp tgt fuel (dfsInit colors0 sp) =
        some (r1, sc1) →
      clearPathNodes rows sc1.colors sp tgt = colors0 ∧
      dfsRun (updateNeighbors rows (clearPathNodes rows sc1.colors sp tgt)) sp tgt fuel
        (dfsInit (clearPathNodes rows sc1.colors sp tgt) sp) = some (r1, sc1)) ∧
    (∀ r1 sc1, dijRun (updateNeighbors rows colors0) sp tgt fuel (dijInit colors0 sp) =
        some (r1, sc1) →
      clearPathNodes rows sc1.colors sp tgt = colors0 ∧
      dijRun (updateNeighbors rows (clearPathNodes rows sc1.colors sp tgt)) sp tgt fuel
        (dijInit (clearPathNodes rows sc1.colors sp tgt) sp) = some (r1, sc1)) ∧
    (∀ r1 sc1, astarRun (updateNeighbors rows colors0) sp tgt fuel
        (astarInit colors0 sp tgt) = some (r1, sc1) →
      clearPathNodes rows sc1.colors sp tgt = colors0 ∧
      astarRun (updateNeighbors rows (clearPathNodes rows sc1.colors sp tgt)) sp tgt fuel
        (astarInit (clearPathNodes rows sc1.colors sp tgt) sp tgt) = some (r1, sc1)) := by
  have hnb : ∀ c n, n ∈ updateNeighbors rows colors0 c →
      c.1 < rows ∧ c.2 < rows → n.1 < rows ∧ n.2 < rows :=
    fun c n hn hc => updateNeighbors_inBounds rows colors0 c n hc.1 hc.2 hn
  refine ⟨?_, ?_, ?_, ?_⟩
  · intro r1 sc1 h1
    have hinv0 : bfsC8Inv rows colors0 sp tgt (bfsInit colors0 sp) := by
      refine ⟨⟨hsp, htgt, fun q _ _ => Or.inl rfl⟩, ?_, ?_, ?_⟩
      · intro q hq
        simp only [bfsInit, List.mem_singleton] at hq
        subst hq
        exact ⟨hspb, fun hcon _ => absurd rfl hcon⟩
      · simp [bfsInit]
      · intro pr hpr
        simp [bfsInit] at hpr
    have hcc := bfsRunC_C8 (updateNeighbors rows colors0) sp tgt (fun _ => false)
      hne hclean hnb fuel 0 _ r1 sc1 hinv0 h1
    have hEq := clearPath_restores hne hsp htgt hclean hcc.2.2
    refine ⟨hEq, ?_⟩
    rw [hEq]
    exact h1
  · intro r1 sc1 h1
    have hinv0 : dfsC8Inv rows colors0 sp tgt (dfsInit colors0 sp) := by
      refine ⟨⟨hsp, htgt, fun q _ _ => Or.inl rfl⟩, ?_, ?_, ?_⟩
      · intro q hq
        simp only [dfsInit, List.mem_singleton] at hq
        subst hq
        exact ⟨hspb, fun hcon _ => absurd rfl hcon⟩
      · simp [dfsInit]
      · intro pr hpr
        simp [dfsInit] at hpr
    have hcc := dfsRunC_C8 (updateNeighbors rows colors0) sp tgt (fun _ => false)
      hne hclean hnb fuel 0 _ r1 sc1 hinv0 h1
    have hEq := clearPath_restores hne hsp htgt hclean hcc.2.2
    refine ⟨hEq, ?_⟩
    rw [hEq]
    exact h1
  · intro r1 sc1 h1
    have h1' : dijRunC (updateNeighbors rows colors0) sp tgt (fun _ => false) fuel 0
        (dijInit colors0 sp) = some (r1, sc1) := h1
    have h2 : gRunC (fun _ => 0) (updateNeighbors rows colors0) sp tgt (fun _ => false)
        fuel 0 (gInit (fun _ => 0) colors0 sp) = some (r1, gOfDij sc1) := by
      rw [← gOfDij_init, gOfDij_runC, h1']
      rfl
    have hinv0 : gC8Inv rows colors0 sp tgt (gInit (fun _ => 0) colors0 sp) := by
      refine ⟨⟨hsp, htgt, fun q _ _ => Or.inl rfl⟩, ?_, ?_, ?_⟩
      · intro q hq
        simp only [gInit, List.map_cons, List.map_nil, List.mem_singleton] at hq
        subst hq
        exact ⟨hspb, fun hcon _ => absurd rfl hcon⟩
      · simp [gInit, upd]
      · intro pr hpr
        simp [gInit] at hpr
    have hcc' : colorClass rows colors0 sp tgt sc1.colors :=
      gRunC_C8 (fun _ => 0) (updateNeighbors rows colors0) sp tgt (fun _ => false)
        hne hclean hnb fuel 0 _ r1 (gOfDij sc1) hinv0 h2
    have hEq := clearPath_restores hne hsp htgt hclean hcc'.2.2
    refine ⟨hEq, ?_⟩
    rw [hEq]
    exact h1
  · intro r1 sc1 h1
    have hinv0 : gC8Inv rows colors0 sp tgt (astarInit colors0 sp tgt) := by
      refine ⟨⟨hsp, htgt, fun q _ _ => Or.inl rfl⟩, ?_, ?_, ?_⟩
      · intro q hq
        simp only [astarInit, gInit, List.map_cons, List.map_nil, List.mem_singleton] at hq
        subst hq
        exact ⟨hspb, fun hcon _ => absurd rfl hcon⟩
      · simp [astarInit, gInit, upd]
      · intro pr hpr
        simp [astarInit, gInit] at hpr
    have hcc := gRunC_C8 (astarH tgt) (updateNeighbors rows colors0) sp tgt (fun _ => false)
      hne hclean hnb fuel 0 _ r1 sc1 hinv0 h1
    have hEq := clearPath_restores hne hsp htgt hclean hcc.2.2
    refine ⟨hEq, ?_⟩
    rw [hEq]
    exact h1

/-- Concrete instantiation of `claim_C8` on the 2-by-2 grid: each completed
run, followed by `clear_path_nodes`, restores the dispatch-time grid exactly,
and the re-run returns the identical result and final state. -/
theorem claim_C8_witness :
    ∃ r1 sc1 r2 sc2 r3 sc3 r4 sc4,
      bfsRun (updateNeighbors 2 adjColors) (0, 0) (0, 1) 8 (bfsInit adjColors (0, 0)) =
          some (r1, sc1) ∧
      clearPathNodes 2 sc1.colors (0, 0) (0, 1) = adjColors ∧
      bfsRun (updateNeighbors 2 (clearPathNodes 2 sc1.colors (0, 0) (0, 1))) (0, 0) (0, 1) 8
        (bfsInit (clearPathNodes 2 sc1.colors (0, 0) (0, 1)) (0, 0)) = some (r1, sc1) ∧
      dfsRun (updateNeighbors 2 adjColors) (0, 0) (0, 1) 8 (dfsInit adjColors (0, 0)) =
          some (r2, sc2) ∧
      clearPathNodes 2 sc2.colors (0, 0) (0, 1) = adjColors ∧
      dfsRun (updateNeighbors 2 (clearPathNodes 2 sc2.colors (0, 0) (0, 1))) (0, 0) (0, 1) 8
        (dfsInit (clearPathNodes 2 sc2.colors (0, 0) (0, 1)) (0, 0)) = some (r2, sc2) ∧
      dijRun (updateNeighbors 2 adjColors) (0, 0) (0, 1) 8 (dijInit adjColors (0, 0)) =
          some (r3, sc3) ∧
      clearPathNodes 2 sc3.colors (0, 0) (0, 1) = adjColors ∧
      dijRun (updateNeighbors 2 (clearPathNodes 2 sc3.colors (0, 0) (0, 1))) (0, 0) (0, 1) 8
        (dijInit (clearPathNodes 2 sc3.colors (0, 0) (0, 1)) (0, 0)) = some (r3, sc3) ∧
      astarRun (updateNeighbors 2 adjColors) (0, 0) (0, 1) 8
          (astarInit adjColors (0, 0) (0, 1)) = some (r4, sc4) ∧
      clearPathNodes 2 sc4.colors (0, 0) (0, 1) = adjColors ∧
      astarRun (updateNeighbors 2 (clearPathNodes 2 sc4.colors (0, 0) (0, 1))) (0, 0) (0, 1) 8
        (astarInit (clearPathNodes 2 sc4.colors (0, 0) (0, 1)) (0, 0) (0, 1)) =
          some (r4, sc4) := by
  obtain ⟨r1, sc1, h1⟩ : ∃ r sc,
      bfsRun (updateNeighbors 2 adjColors) (0, 0) (0, 1) 8 (bfsInit adjColors (0, 0)) =
        some (r, sc) := ⟨_, _, rfl⟩
  obtain ⟨r2, sc2, h2⟩ : ∃ r sc,
      dfsRun (updateNeighbors 2 adjColors) (0, 0) (0, 1) 8 (dfsInit adjColors (0, 0)) =
        some (r, sc) := ⟨_, _, rfl⟩
  obtain ⟨r3, sc3, h3⟩ : ∃ r sc,
      dijRun (updateNeighbors 2 adjColors) (0, 0) (0, 1) 8 (dijInit adjColors (0, 0)) =
        some (r, sc) := ⟨_, _, rfl⟩
  obtain ⟨r4, sc4, h4⟩ : ∃ r sc,
      astarRun (updateNeighbors 2 adjColors) (0, 0) (0, 1) 8
        (astarInit adjColors (0, 0) (0, 1)) = some (r, sc) := ⟨_, _, rfl⟩
  have hc := claim_C8 2 adjColors (0, 0) (0, 1) 8 (by decide) (by decide) (by decide)
    (by decide) (fun q hq1 hq2 => Or.inl (by
      simp only [adjColors]
      rw [if_neg hq1, if_neg hq2]))
  exact ⟨r1, sc1, r2, sc2, r3, sc3, r4, sc4,
    h1, (hc.1 r1 sc1 h1).1, (hc.1 r1 sc1 h1).2,
    h2, (hc.2.1 r2 sc2 h2).1, (hc.2.1 r2 sc2 h2).2,
    h3, (hc.2.2.1 r3 sc3 h3).1, (hc.2.2.1 r3 sc3 h3).2,
    h4, (hc.2.2.2 r4 sc4 h4).1, (hc.2.2.2 r4 sc4 h4).2⟩

/-! ## Claim C1 -/

/-- Claim C1 (code bug): on a 2 by 2 grid with start `(0,0)` adjacent to end
`(0,1)` and no barriers, every algorithm reports `pathLength = 1`, not the
claimed 2: `reconstruct_path` advances to the predecessor before appending,
so the end cell is never appended to the path list and
`len(path_nodes) + 1` counts the cells of the path excluding the end cell. -/
theorem claim_C1 :
    (bfsRun adjNbrs (0, 0) (0, 1) 100 (bfsInit adjColors (0, 0))).map Prod.fst
        = some ⟨true, 1, 1⟩ ∧
    (dfsRun adjNbrs (0, 0) (0, 1) 100 (dfsInit adjColors (0, 0))).map Prod.fst
        = some ⟨true, 2, 1⟩ ∧
    (dijRun adjNbrs (0, 0) (0, 1) 100 (dijInit adjColors (0, 0))).map Prod.fst
        = some ⟨true, 1, 1⟩ ∧
    (astarRun adjNbrs (0, 0) (0, 1) 100 (astarInit adjColors (0, 0) (0, 1))).map Prod.fst
        = some ⟨true, 0, 1⟩ := by
  refine ⟨?_, ?_, ?_, ?_⟩ <;> decide

/-! ## Claim C2 -/

/-- Claim C2 (code bug): on the `mazeColors` grid a path from `(3,6)` to
`(0,0)` exists — BFS, Dijkstra and DFS all find it and report length 11 —
but A* reports `found = false`: improving a node that is pending in
`open_set_hash` does not push a new heap entry, and the node's only heap
entry is later discarded by the lazy stale-entry filter, so the node is
dropped without ever being expanded. -/
theorem claim_C2 :
    (astarRun mazeNbrs (3, 6) (0, 0) 500 (astarInit mazeColors (3, 6) (0, 0))).map Prod.fst
        = some ⟨false, 14, 0⟩ ∧
    (bfsRun mazeNbrs (3, 6) (0, 0) 500 (bfsInit mazeColors (3, 6))).map Prod.fst
        = some ⟨true, 18, 11⟩ ∧
    (dijRun mazeNbrs (3, 6) (0, 0) 500 (dijInit mazeColors (3, 6))).map Prod.fst
        = some ⟨true, 18, 11⟩ ∧
    (dfsRun mazeNbrs (3, 6) (0, 0) 500 (dfsInit mazeColors (3, 6))).map Prod.fst
        = some ⟨true, 17, 11⟩ := by
  refine ⟨?_, ?_, ?_, ?_⟩ <;> decide

/-! ## Claim C3 -/

/-- Claim C3: the relaxation rule of Dijkstra and A*.  For a non-barrier
neighbour `n` of the expanded cell `cur`: when `g[cur] + 1 < g[n]` fails the
state is unchanged (no `g`, predecessor or `f` update); when it holds, `g[n]`
becomes `g[cur] + 1`, the predecessor of `n` becomes `cur`, `f[n]` is
recomputed (A* only), other cells' `g`, `f` and predecessors are untouched,
and a heap push happens exactly when `n` is not pending in `open_set_hash`,
with the freshly incremented sequence number, which exceeds every sequence
number already in the heap; when `n` is pending, heap, counter and hash are
left as they are.  Finally, a popped heap entry whose key is worse than the
node's current best score is skipped without expansion: only the entry and
the node's hash membership are removed, everything else is unchanged. -/
theorem claim_C3 :
    (∀ (tgt cur : Pos) (s : DijSt) (n : Pos),
      ¬ (s.g cur + 1 < s.g n) → dijRelax tgt cur s n = s) ∧
    (∀ (tgt cur : Pos) (s : DijSt) (n : Pos),
      ¬ isBarrier (s.colors n) → s.g cur + 1 < s.g n →
      (dijRelax tgt cur s n).g n = s.g cur + 1 ∧
      (∀ q, q ≠ n → (dijRelax tgt cur s n).g q = s.g q) ∧
      alookup (dijRelax tgt cur s n).cameFrom n = some cur ∧
      (∀ q, q ≠ n → alookup (dijRelax tgt cur s n).cameFrom q = alookup s.cameFrom q) ∧
      (n ∈ s.hash → (dijRelax tgt cur s n).heap = s.heap ∧
        (dijRelax tgt cur s n).count = s.count ∧ (dijRelax tgt cur s n).hash = s.hash) ∧
      (n ∉ s.hash → (dijRelax tgt cur s n).heap = s.heap ++ [⟨s.g cur + 1, s.count + 1, n⟩] ∧
        (dijRelax tgt cur s n).count = s.count + 1 ∧
        (dijRelax tgt cur s n).hash = n :: s.hash)) ∧
    (∀ (tgt cur : Pos) (s : DijSt) (n : Pos),
      ¬ isBarrier (s.colors n) → s.g cur + 1 < s.g n → n ∉ s.hash →
      (∀ e ∈ s.heap, e.seq ≤ s.count) →
      ∀ e' ∈ (dijRelax tgt cur s n).heap,
        e' ∈ s.heap ∨ (e'.node = n ∧ ∀ e ∈ s.heap, e.seq < e'.seq)) ∧
    (∀ (nbrs : Pos → List Pos) (sp tgt : Pos) (s : DijSt) (e : HeapEntry)
      (rest : List HeapEntry),
      popMin s.heap = some (e, rest) → s.g e.node < e.key →
      dijStep nbrs sp tgt s =
        StepRes.next { s with heap := rest, hash := s.hash.erase e.node }) ∧
    (∀ (hf : Pos → Nat) (tgt cur : Pos) (s : GSt) (n : Pos),
      ¬ (s.g cur + 1 < s.g n) → gRelax hf tgt cur s n = s) ∧
    (∀ (hf : Pos → Nat) (tgt cur : Pos) (s : GSt) (n : Pos),
      ¬ isBarrier (s.colors n) → s.g cur + 1 < s.g n →
      (gRelax hf tgt cur s n).g n = s.g cur + 1 ∧
      (gRelax hf tgt cur s n).f n = s.g cur + 1 + (hf n : WithTop Nat) ∧
      (∀ q, q ≠ n → (gRelax hf tgt cur s n).g q = s.g q ∧
        (gRelax hf tgt cur s n).f q = s.f q) ∧
      alookup (gRelax hf tgt cur s n).cameFrom n = some cur ∧
      (∀ q, q ≠ n → alookup (gRelax hf tgt cur s n).cameFrom q = alookup s.cameFrom q) ∧
      (n ∈ s.hash → (gRelax hf tgt cur s n).heap = s.heap ∧
        (gRelax hf tgt cur s n).count = s.count ∧ (gRelax hf tgt cur s n).hash = s.hash) ∧
      (n ∉ s.hash → (gRelax hf tgt cur s n).heap
          = s.heap ++ [⟨s.g cur + 1 + (hf n : WithTop Nat), s.count + 1, n⟩] ∧
        (gRelax hf tgt cur s n).count = s.count + 1 ∧
        (gRelax hf tgt cur s n).hash = n :: s.hash)) ∧
    (∀ (hf : Pos → Nat) (tgt cur : Pos) (s : GSt) (n : Pos),
      ¬ isBarrier (s.colors n) → s.g cur + 1 < s.g n → n ∉ s.hash →
      (∀ e ∈ s.heap, e.seq ≤ s.count) →
      ∀ e' ∈ (gRelax hf tgt cur s n).heap,
        e' ∈ s.heap ∨ (e'.node = n ∧ ∀ e ∈ s.heap, e.seq < e'.seq)) ∧
    (∀ (hf : Pos → Nat) (nbrs : Pos → List Pos) (sp tgt : Pos) (s : GSt) (e : HeapEntry)
      (rest : List HeapEntry),
      popMin s.heap = some (e, rest) → s.f e.node < e.key →
      gStep hf nbrs sp tgt s =
        StepRes.next { s with heap := rest, hash := s.hash.erase e.node }) := by
  refine ⟨?_, ?_, ?_, ?_, ?_, ?_, ?_, ?_⟩
  · intro tgt cur s n h
    by_cases hb : isBarrier (s.colors n) <;> simp [dijRelax, hb, h]
  · intro tgt cur s n hb hlt
    by_cases hh : n ∈ s.hash <;>
      refine ⟨?_, fun q hq => ?_, ?_, fun q hq => ?_, fun h => ?_, fun h => ?_⟩ <;>
      simp_all [dijRelax, upd, alookup]
  · intro tgt cur s n hb hlt hh hseq e' he'
    simp only [dijRelax, if_neg hb, if_pos hlt, if_neg hh] at he'
    simp only [List.mem_append, List.mem_singleton] at he'
    rcases he' with h | h
    · exact Or.inl h
    · subst h
      exact Or.inr ⟨rfl, fun e he => by have := hseq e he; simp; omega⟩
  · intro nbrs sp tgt s e rest hpop hstale
    simp only [dijStep, hpop]
    rw [if_pos hstale]
  · intro hf tgt cur s n h
    by_cases hb : isBarrier (s.colors n) <;> simp [gRelax, hb, h]
  · intro hf tgt cur s n hb hlt
    by_cases hh : n ∈ s.hash <;>
      refine ⟨?_, ?_, fun q hq => ⟨?_, ?_⟩, ?_, fun q hq => ?_, fun h => ?_, fun h => ?_⟩ <;>
      simp_all [gRelax, upd, alookup]
  · intro hf tgt cur s n hb hlt hh hseq e' he'
    simp only [gRelax, if_neg hb, if_pos hlt, if_neg hh] at he'
    simp only [List.mem_append, List.mem_singleton] at he'
    rcases he' with h | h
    · exact Or.inl h
    · subst h
      exact Or.inr ⟨rfl, fun e he => by have := hseq e he; simp; omega⟩
  · intro hf nbrs sp tgt s e rest hpop hstale
    simp only [gStep, hpop]
    rw [if_pos hstale]

/-- Witness for claim C3 at concrete states: a failed relaxation, a
successful relaxation with a fresh push, and a stale pop, for both Dijkstra
and the A* instance. -/
theorem claim_C3_witness :
    (¬ ((dijInit adjColors (0, 0)).g (1, 1) + 1 < (dijInit adjColors (0, 0)).g (0, 1)) ∧
      dijRelax (0, 1) (1, 1) (dijInit adjColors (0, 0)) (0, 1) = dijInit adjColors (0, 0)) ∧
    (¬ isBarrier ((dijInit adjColors (0, 0)).colors (1, 0)) ∧
      (dijInit adjColors (0, 0)).g (0, 0) + 1 < (dijInit adjColors (0, 0)).g (1, 0) ∧
      (dijRelax (0, 1) (0, 0) (dijInit adjColors (0, 0)) (1, 0)).g (1, 0)
        = (dijInit adjColors (0, 0)).g (0, 0) + 1) ∧
    ((1, 0) ∉ (dijInit adjColors (0, 0)).hash ∧
      (∀ e ∈ (dijInit adjColors (0, 0)).heap, e.seq ≤ (dijInit adjColors (0, 0)).count) ∧
      ∀ e' ∈ (dijRelax (0, 1) (0, 0) (dijInit adjColors (0, 0)) (1, 0)).heap,
        e' ∈ (dijInit adjColors (0, 0)).heap ∨
          (e'.node = (1, 0) ∧ ∀ e ∈ (dijInit adjColors (0, 0)).heap, e.seq < e'.seq)) ∧
    (popMin dijStaleSt.heap = some (⟨5, 1, (1, 0)⟩, []) ∧
      dijStaleSt.g (1, 0) < (5 : WithTop Nat) ∧
      dijStep (fun _ => []) (0, 0) (0, 1) dijStaleSt =
        StepRes.next { dijStaleSt with heap := [], hash := dijStaleSt.hash.erase (1, 0) }) ∧
    (¬ ((gInit (astarH (0, 1)) adjColors (0, 0)).g (1, 1) + 1
          < (gInit (astarH (0, 1)) adjColors (0, 0)).g (0, 1)) ∧
      gRelax (astarH (0, 1)) (0, 1) (1, 1) (gInit (astarH (0, 1)) adjColors (0, 0)) (0, 1)
        = gInit (astarH (0, 1)) adjColors (0, 0)) ∧
    (¬ isBarrier ((gInit (astarH (0, 1)) adjColors (0, 0)).colors (1, 0)) ∧
      (gInit (astarH (0, 1)) adjColors (0, 0)).g (0, 0) + 1
        < (gInit (astarH (0, 1)) adjColors (0, 0)).g (1, 0) ∧
      (gRelax (astarH (0, 1)) (0, 1) (0, 0) (gInit (astarH (0, 1)) adjColors (0, 0)) (1, 0)).f (1, 0)
        = (gInit (astarH (0, 1)) adjColors (0, 0)).g (0, 0) + 1
            + (astarH (0, 1) (1, 0) : WithTop Nat)) ∧
    ((1, 0) ∉ (gInit (astarH (0, 1)) adjColors (0, 0)).hash ∧
      (∀ e ∈ (gInit (astarH (0, 1)) adjColors (0, 0)).heap,
        e.seq ≤ (gInit (astarH (0, 1)) adjColors (0, 0)).count) ∧
      ∀ e' ∈ (gRelax (astarH (0, 1)) (0, 1) (0, 0)
          (gInit (astarH (0, 1)) adjColors (0, 0)) (1, 0)).heap,
        e' ∈ (gInit (astarH (0, 1)) adjColors (0, 0)).heap ∨
          (e'.node = (1, 0) ∧
            ∀ e ∈ (gInit (astarH (0, 1)) adjColors (0, 0)).heap, e.seq < e'.seq)) ∧
    (popMin gStaleSt.heap = some (⟨5, 1, (1, 0)⟩, []) ∧
      gStaleSt.f (1, 0) < (5 : WithTop Nat) ∧
      gStep (astarH (0, 1)) (fun _ => []) (0, 0) (0, 1) gStaleSt =
        StepRes.next { gStaleSt with heap := [], hash := gStaleSt.hash.erase (1, 0) }) :=
  ⟨⟨by decide, claim_C3.1 (0, 1) (1, 1) (dijInit adjColors (0, 0)) (0, 1) (by decide)⟩,
   ⟨by decide, by decide,
    (claim_C3.2.1 (0, 1) (0, 0) (dijInit adjColors (0, 0)) (1, 0) (by decide) (by decide)).1⟩,
   ⟨by decide, by decide,
    claim_C3.2.2.1 (0, 1) (0, 0) (dijInit adjColors (0, 0)) (1, 0)
      (by decide) (by decide) (by decide) (by decide)⟩,
   ⟨by decide, by decide,
    claim_C3.2.2.2.1 (fun _ => []) (0, 0) (0, 1) dijStaleSt ⟨5, 1, (1, 0)⟩ []
      (by decide) (by decide)⟩,
   ⟨by decide,
    claim_C3.2.2.2.2.1 (astarH (0, 1)) (0, 1) (1, 1)
      (gInit (astarH (0, 1)) adjColors (0, 0)) (0, 1) (by decide)⟩,
   ⟨by decide, by decide,
    (claim_C3.2.2.2.2.2.1 (astarH (0, 1)) (0, 1) (0, 0)
      (gInit (astarH (0, 1)) adjColors (0, 0)) (1, 0) (by decide) (by decide)).2.1⟩,
   ⟨by decide, by decide,
    claim_C3.2.2.2.2.2.2.1 (astarH (0, 1)) (0, 1) (0, 0)
      (gInit (astarH (0, 1)) adjColors (0, 0)) (1, 0)
      (by decide) (by decide) (by decide) (by decide)⟩,
   ⟨by decide, by decide,
    claim_C3.2.2.2.2.2.2.2 (astarH (0, 1)) (fun _ => []) (0, 0) (0, 1) gStaleSt ⟨5, 1, (1, 0)⟩ []
      (by decide) (by decide)⟩⟩

/-! ## Claim C7 -/

/-- Claim C7: for each of the four algorithms, a run cancelled at any
iteration (the oracle fires at the poll point) returns found false together
with the statistics accumulated so far and path length 0; and any cancelled
run's visited count is at most the visited count of the uninterrupted run of
the same configuration (when the oracle never fires the two runs coincide). -/
theorem claim_C7 :
    (∀ (nbrs : Pos → List Pos) (sp tgt : Pos) (cancel : Nat → Bool) (fuel i : Nat) (s : BfsSt),
      cancel i = true →
      bfsRunC nbrs sp tgt cancel (fuel + 1) i s = some (⟨false, s.cnt, 0⟩, s)) ∧
    (∀ (nbrs : Pos → List Pos) (sp tgt : Pos) (cancel : Nat → Bool) (fuel i j : Nat)
      (s : BfsSt) (r r' : RunRes) (sc s' : BfsSt),
      bfsRunC nbrs sp tgt cancel fuel i s = some (r, sc) →
      bfsRunC nbrs sp tgt (fun _ => false) fuel j s = some (r', s') →
      (r.found = false ∧ r.visitedCount ≤ r'.visitedCount) ∨ ((r, sc) = (r', s'))) ∧
    (∀ (nbrs : Pos → List Pos) (sp tgt : Pos) (cancel : Nat → Bool) (fuel i : Nat) (s : DfsSt),
      cancel i = true →
      dfsRunC nbrs sp tgt cancel (fuel + 1) i s = some (⟨false, s.cnt, 0⟩, s)) ∧
    (∀ (nbrs : Pos → List Pos) (sp tgt : Pos) (cancel : Nat → Bool) (fuel i j : Nat)
      (s : DfsSt) (r r' : RunRes) (sc s' : DfsSt),
      dfsRunC nbrs sp tgt cancel fuel i s = some (r, sc) →
      dfsRunC nbrs sp tgt (fun _ => false) fuel j s = some (r', s') →
      (r.found = false ∧ r.visitedCount ≤ r'.visitedCount) ∨ ((r, sc) = (r', s'))) ∧
    (∀ (nbrs : Pos → List Pos) (sp tgt : Pos) (cancel : Nat → Bool) (fuel i : Nat) (s : DijSt),
      cancel i = true →
      dijRunC nbrs sp tgt cancel (fuel + 1) i s = some (⟨false, s.cnt, 0⟩, s)) ∧
    (∀ (nbrs : Pos → List Pos) (sp tgt : Pos) (cancel : Nat → Bool) (fuel i j : Nat)
      (s : DijSt) (r r' : RunRes) (sc s' : DijSt),
      dijRunC nbrs sp tgt cancel fuel i s = some (r, sc) →
      dijRunC nbrs sp tgt (fun _ => false) fuel j s = some (r', s') →
      (r.found = false ∧ r.visitedCount ≤ r'.visitedCount) ∨ ((r, sc) = (r', s'))) ∧
    (∀ (hf : Pos → Nat) (nbrs : Pos → List Pos) (sp tgt : Pos) (cancel : Nat → Bool)
      (fuel i : Nat) (s : GSt),
      cancel i = true →
      gRunC hf nbrs sp tgt cancel (fuel + 1) i s = some (⟨false, s.cnt, 0⟩, s)) ∧
    (∀ (hf : Pos → Nat) (nbrs : Pos → List Pos) (sp tgt : Pos) (cancel : Nat → Bool)
      (fuel i j : Nat) (s : GSt) (r r' : RunRes) (sc s' : GSt),
      gRunC hf nbrs sp tgt cancel fuel i s = some (r, sc) →
      gRunC hf nbrs sp tgt (fun _ => false) fuel j s = some (r', s') →
      (r.found = false ∧ r.visitedCount ≤ r'.visitedCount) ∨ ((r, sc) = (r', s'))) := by
  refine ⟨?_, ?_, ?_, ?_, ?_, ?_, ?_, ?_⟩
  · intro nbrs sp tgt cancel fuel i s hc
    rw [bfsRunC, if_pos hc]
  · intro nbrs sp tgt cancel fuel i j s r r' sc s' h h'
    exact bfsRunC_vs_plain nbrs sp tgt cancel fuel i j s r r' sc s' h h'
  · intro nbrs sp tgt cancel fuel i s hc
    rw [dfsRunC, if_pos hc]
  · intro nbrs sp tgt cancel fuel i j s r r' sc s' h h'
    exact dfsRunC_vs_plain nbrs sp tgt cancel fuel i j s r r' sc s' h h'
  · intro nbrs sp tgt cancel fuel i s hc
    rw [dijRunC, if_pos hc]
  · intro nbrs sp tgt cancel fuel i j s r r' sc s' h h'
    exact dijRunC_vs_plain nbrs sp tgt cancel fuel i j s r r' sc s' h h'
  · intro hf nbrs sp tgt cancel fuel i s hc
    rw [gRunC, if_pos hc]
  · intro hf nbrs sp tgt cancel fuel i j s r r' sc s' h h'
    exact gRunC_vs_plain hf nbrs sp tgt cancel fuel i j s r r' sc s' h h'

/-- Witness for claim C7: a run cancelled at its first poll point, and the
comparison of a cancelled with an uninterrupted run from an
exhausted-frontier state, for each algorithm. -/
theorem claim_C7_witness :
    ((fun _ : Nat => true) 0 = true ∧
      bfsRunC adjNbrs (0, 0) (0, 1) (fun _ => true) 1 0 (bfsInit adjColors (0, 0))
        = some (⟨false, 0, 0⟩, bfsInit adjColors (0, 0))) ∧
    (bfsRunC adjNbrs (0, 0) (0, 1) (fun _ => true) 1 0 bfsEmptySt
        = some (⟨false, 0, 0⟩, bfsEmptySt) ∧
      bfsRunC adjNbrs (0, 0) (0, 1) (fun _ => false) 1 0 bfsEmptySt
        = some (⟨false, 0, 0⟩, bfsEmptySt) ∧
      (((⟨false, 0, 0⟩ : RunRes).found = false ∧
          (⟨false, 0, 0⟩ : RunRes).visitedCount ≤ (⟨false, 0, 0⟩ : RunRes).visitedCount) ∨
        (((⟨false, 0, 0⟩ : RunRes), bfsEmptySt) = ((⟨false, 0, 0⟩ : RunRes), bfsEmptySt)))) ∧
    ((fun _ : Nat => true) 0 = true ∧
      dfsRunC adjNbrs (0, 0) (0, 1) (fun _ => true) 1 0 (dfsInit adjColors (0, 0))
        = some (⟨false, 0, 0⟩, dfsInit adjColors (0, 0))) ∧
    (dfsRunC adjNbrs (0, 0) (0, 1) (fun _ => true) 1 0 dfsEmptySt
        = some (⟨false, 0, 0⟩, dfsEmptySt) ∧
      dfsRunC adjNbrs (0, 0) (0, 1) (fun _ => false) 1 0 dfsEmptySt
        = some (⟨false, 0, 0⟩, dfsEmptySt) ∧
      (((⟨false, 0, 0⟩ : RunRes).found = false ∧
          (⟨false, 0, 0⟩ : RunRes).visitedCount ≤ (⟨false, 0, 0⟩ : RunRes).visitedCount) ∨
        (((⟨false, 0, 0⟩ : RunRes), dfsEmptySt) = ((⟨false, 0, 0⟩ : RunRes), dfsEmptySt)))) ∧
    ((fun _ : Nat => true) 0 = true ∧
      dijRunC adjNbrs (0, 0) (0, 1) (fun _ => true) 1 0 (dijInit adjColors (0, 0))
        = some (⟨false, 0, 0⟩, dijInit adjColors (0, 0))) ∧
    (dijRunC adjNbrs (0, 0) (0, 1) (fun _ => true) 1 0 dijEmptySt
        = some (⟨false, 0, 0⟩, dijEmptySt) ∧
      dijRunC adjNbrs (0, 0) (0, 1) (fun _ => false) 1 0 dijEmptySt
        = some (⟨false, 0, 0⟩, dijEmptySt) ∧
      (((⟨false, 0, 0⟩ : RunRes).found = false ∧
          (⟨false, 0, 0⟩ : RunRes).visitedCount ≤ (⟨false, 0, 0⟩ : RunRes).visitedCount) ∨
        (((⟨false, 0, 0⟩ : RunRes), dijEmptySt) = ((⟨false, 0, 0⟩ : RunRes), dijEmptySt)))) ∧
    ((fun _ : Nat => true) 0 = true ∧
      gRunC (astarH (0, 1)) adjNbrs (0, 0) (0, 1) (fun _ => true) 1 0
          (gInit (astarH (0, 1)) adjColors (0, 0))
        = some (⟨false, 0, 0⟩, gInit (astarH (0, 1)) adjColors (0, 0))) ∧
    (gRunC (astarH (0, 1)) adjNbrs (0, 0) (0, 1) (fun _ => true) 1 0 gEmptySt
        = some (⟨false, 0, 0⟩, gEmptySt) ∧
      gRunC (astarH (0, 1)) adjNbrs (0, 0) (0, 1) (fun _ => false) 1 0 gEmptySt
        = some (⟨false, 0, 0⟩, gEmptySt) ∧
      (((⟨false, 0, 0⟩ : RunRes).found = false ∧
          (⟨false, 0, 0⟩ : RunRes).visitedCount ≤ (⟨false, 0, 0⟩ : RunRes).visitedCount) ∨
        (((⟨false, 0, 0⟩ : RunRes), gEmptySt) = ((⟨false, 0, 0⟩ : RunRes), gEmptySt)))) :=
  ⟨⟨rfl, claim_C7.1 adjNbrs (0, 0) (0, 1) (fun _ => true) 0 0 (bfsInit adjColors (0, 0)) rfl⟩,
   ⟨rfl, rfl, claim_C7.2.1 adjNbrs (0, 0) (0, 1) (fun _ => true) 1 0 0 bfsEmptySt
      ⟨false, 0, 0⟩ ⟨false, 0, 0⟩ bfsEmptySt bfsEmptySt rfl rfl⟩,
   ⟨rfl, claim_C7.2.2.1 adjNbrs (0, 0) (0, 1) (fun _ => true) 0 0 (dfsInit adjColors (0, 0)) rfl⟩,
   ⟨rfl, rfl, claim_C7.2.2.2.1 adjNbrs (0, 0) (0, 1) (fun _ => true) 1 0 0 dfsEmptySt
      ⟨false, 0, 0⟩ ⟨false, 0, 0⟩ dfsEmptySt dfsEmptySt rfl rfl⟩,
   ⟨rfl, claim_C7.2.2.2.2.1 adjNbrs (0, 0) (0, 1) (fun _ => true) 0 0
      (dijInit adjColors (0, 0)) rfl⟩,
   ⟨rfl, rfl, claim_C7.2.2.2.2.2.1 adjNbrs (0, 0) (0, 1) (fun _ => true) 1 0 0 dijEmptySt
      ⟨false, 0, 0⟩ ⟨false, 0, 0⟩ dijEmptySt dijEmptySt rfl rfl⟩,
   ⟨rfl, claim_C7.2.2.2.2.2.2.1 (astarH (0, 1)) adjNbrs (0, 0) (0, 1) (fun _ => true) 0 0
      (gInit (astarH (0, 1)) adjColors (0, 0)) rfl⟩,
   ⟨rfl, rfl, claim_C7.2.2.2.2.2.2.2 (astarH (0, 1)) adjNbrs (0, 0) (0, 1) (fun _ => true) 1 0 0
      gEmptySt ⟨false, 0, 0⟩ ⟨false, 0, 0⟩ gEmptySt gEmptySt rfl rfl⟩⟩

/-! ## Claim C5 -/

theorem map_filter_four {α β : Type} (f : α → β) (g : α → Bool) (a b c d : α) :
    List.map f (List.filter g [a, b, c, d]) =
      (if g a = true then [f a] else []) ++ (if g b = true then [f b] else []) ++
        (if g c = true then [f c] else []) ++ (if g d = true then [f d] else []) := by
  by_cases ha : g a = true <;> by_cases hb : g b = true <;>
    by_cases hc : g c = true <;> by_cases hd : g d = true <;>
    simp [ha, hb, hc, hd]

/-- Claim C5: for every in-bounds cell, the refreshed neighbour list is the
ordered sequence down, up, right, left restricted to in-bounds non-barrier
positions, and it has at most 4 elements. -/
theorem claim_C5 (rows : Nat) (colors : Pos → Color) (p : Pos)
    (hr : p.1 < rows) (hc : p.2 < rows) :
    updateNeighbors rows colors p = neighborsSpec rows colors p ∧
    (updateNeighbors rows colors p).length ≤ 4 := by
  rcases p with ⟨r, c⟩
  simp only at hr hc
  have e1 : ((r : Int) + 1).toNat = r + 1 := by omega
  have e2 : ((r : Int) - 1).toNat = r - 1 := by omega
  have e3 : (r : Int).toNat = r := by omega
  have e4 : ((c : Int) + 1).toNat = c + 1 := by omega
  have e5 : ((c : Int) - 1).toNat = c - 1 := by omega
  have e6 : (c : Int).toNat = c := by omega
  have d1 : inBoundsZ rows ((r : Int) + 1, (c : Int)) ↔ r < rows - 1 := by
    simp only [inBoundsZ]; omega
  have d2 : inBoundsZ rows ((r : Int) - 1, (c : Int)) ↔ 0 < r := by
    simp only [inBoundsZ]; omega
  have d3 : inBoundsZ rows ((r : Int), (c : Int) + 1) ↔ c < rows - 1 := by
    simp only [inBoundsZ]; omega
  have d4 : inBoundsZ rows ((r : Int), (c : Int) - 1) ↔ 0 < c := by
    simp only [inBoundsZ]; omega
  constructor
  · rw [show neighborsSpec rows colors (r, c) =
        List.map (fun q : Int × Int => ((q.1.toNat, q.2.toNat) : Pos))
          (List.filter
            (fun q => decide (inBoundsZ rows q) && ! isBarrier (colors (q.1.toNat, q.2.toNat)))
            [((r : Int) + 1, (c : Int)), ((r : Int) - 1, (c : Int)),
             ((r : Int), (c : Int) + 1), ((r : Int), (c : Int) - 1)]) from rfl,
      map_filter_four]
    simp only [updateNeighbors]
    congr 1
    congr 1
    congr 1
    · rw [show (((r : Int) + 1, (c : Int)).1.toNat, ((r : Int) + 1, (c : Int)).2.toNat)
          = ((r + 1 : Nat), c) from congrArg₂ Prod.mk e1 e6]
      by_cases hb : isBarrier (colors (r + 1, c)) <;> simp [hb, d1]
    · rw [show (((r : Int) - 1, (c : Int)).1.toNat, ((r : Int) - 1, (c : Int)).2.toNat)
          = ((r - 1 : Nat), c) from congrArg₂ Prod.mk e2 e6]
      by_cases hb : isBarrier (colors (r - 1, c)) <;> simp [hb, d2]
    · rw [show (((r : Int), (c : Int) + 1).1.toNat, ((r : Int), (c : Int) + 1).2.toNat)
          = (r, (c + 1 : Nat)) from congrArg₂ Prod.mk e3 e4]
      by_cases hb : isBarrier (colors (r, c + 1)) <;> simp [hb, d3]
    · rw [show (((r : Int), (c : Int) - 1).1.toNat, ((r : Int), (c : Int) - 1).2.toNat)
          = (r, (c - 1 : Nat)) from congrArg₂ Prod.mk e3 e5]
      by_cases hb : isBarrier (colors (r, c - 1)) <;> simp [hb, d4]
  · simp only [updateNeighbors]
    split_ifs <;> simp

/-- Witness for claim C5 at a concrete in-bounds cell. -/
theorem claim_C5_witness :
    (1 : Nat) < 3 ∧ (1 : Nat) < 3 ∧
    (updateNeighbors 3 (fun _ => white) (1, 1) = neighborsSpec 3 (fun _ => white) (1, 1) ∧
      (updateNeighbors 3 (fun _ => white) (1, 1)).length ≤ 4) :=
  ⟨by decide, by decide, claim_C5 3 (fun _ => white) (1, 1) (by decide) (by decide)⟩

/-! ## Claim C6 -/

/-- Claim C6: when the given start and end cells carry the Start and End
tags, `clear_path_nodes` resets every in-bounds cell that is not tagged
Start, End or Barrier to Empty (white), leaves every cell tagged Start, End
or Barrier unchanged, re-asserts the Start and End tags on the given start
and end cells, and changes no cell's Barrier status. -/
theorem claim_C6 (rows : Nat) (colors : Pos → Color) (sp ep : Pos)
    (hs : colors sp = orange) (he : colors ep = turquoise) :
    (∀ p, p.1 < rows → p.2 < rows →
      (colors p ≠ orange → colors p ≠ turquoise → colors p ≠ black →
        clearPathNodes rows colors sp ep p = white) ∧
      ((colors p = orange ∨ colors p = turquoise ∨ colors p = black) →
        clearPathNodes rows colors sp ep p = colors p)) ∧
    clearPathNodes rows colors sp ep sp = orange ∧
    clearPathNodes rows colors sp ep ep = turquoise ∧
    (∀ p, isBarrier (clearPathNodes rows colors sp ep p) = isBarrier (colors p)) := by
  have hne : sp ≠ ep := by
    intro h
    rw [h, he] at hs
    exact absurd hs (by decide)
  refine ⟨?_, ?_, ?_, ?_⟩
  · intro p hp1 hp2
    constructor
    · intro h1 h2 h3
      have hps : p ≠ sp := fun h => h1 (h ▸ hs)
      have hpe : p ≠ ep := fun h => h2 (h ▸ he)
      simp only [clearPathNodes, upd, if_neg hpe, if_neg hps]
      rw [if_pos]
      refine ⟨hp1, hp2, ?_⟩
      rintro (h | h | h)
      · cases hcol : colors p <;> simp [hcol, isStart] at h <;> simp_all
      · cases hcol : colors p <;> simp [hcol, isEnd] at h <;> simp_all
      · cases hcol : colors p <;> simp [hcol, isBarrier] at h <;> simp_all
    · intro h
      by_cases hpe : p = ep
      · subst hpe
        simp only [clearPathNodes, upd, if_pos rfl]
        exact he.symm
      · by_cases hps : p = sp
        · subst hps
          simp only [clearPathNodes, upd, if_neg hpe, if_pos rfl]
          exact hs.symm
        · simp only [clearPathNodes, upd, if_neg hpe, if_neg hps]
          rw [if_neg]
          intro hcond
          rcases hcond with ⟨_, _, hnot⟩
          apply hnot
          rcases h with h | h | h
          · exact Or.inl (by simp [h, isStart])
          · exact Or.inr (Or.inl (by simp [h, isEnd]))
          · exact Or.inr (Or.inr (by simp [h, isBarrier]))
  · simp [clearPathNodes, upd, hne]
  · simp [clearPathNodes, upd]
  · intro p
    by_cases hpe : p = ep
    · subst hpe
      simp [clearPathNodes, upd, he, isBarrier]
    · by_cases hps : p = sp
      · subst hps
        simp [clearPathNodes, upd, hpe, hs, isBarrier]
      · simp only [clearPathNodes, upd, if_neg hpe, if_neg hps]
        split_ifs with hcond
        · rcases hcond with ⟨_, _, hnot⟩
          have : colors p ≠ black := fun h => hnot (Or.inr (Or.inr (by simp [h, isBarrier])))
          cases hcol : colors p <;> simp [isBarrier] <;> simp_all
        · rfl

/-- Witness for claim C6 on the 2 by 2 adjacency grid. -/
theorem claim_C6_witness :
    adjColors (0, 0) = orange ∧ adjColors (0, 1) = turquoise ∧
    ((∀ p, p.1 < 2 → p.2 < 2 →
      (adjColors p ≠ orange → adjColors p ≠ turquoise → adjColors p ≠ black →
        clearPathNodes 2 adjColors (0, 0) (0, 1) p = white) ∧
      ((adjColors p = orange ∨ adjColors p = turquoise ∨ adjColors p = black) →
        clearPathNodes 2 adjColors (0, 0) (0, 1) p = adjColors p)) ∧
    clearPathNodes 2 adjColors (0, 0) (0, 1) (0, 0) = orange ∧
    clearPathNodes 2 adjColors (0, 0) (0, 1) (0, 1) = turquoise ∧
    (∀ p, isBarrier (clearPathNodes 2 adjColors (0, 0) (0, 1) p)
        = isBarrier (adjColors p))) :=
  ⟨by decide, by decide, claim_C6 2 adjColors (0, 0) (0, 1) (by decide) (by decide)⟩

/-! ## Claim C9 -/

/-- Counterexample to claim C9 as stated: `rows = -1` is a non-positive
dimension, yet grid construction succeeds (Python's `range(-1)` is empty, so
an empty cell array is silently built; only `rows = 0` raises
`ZeroDivisionError` in `width // rows`). -/
theorem claim_C9_counterexample : gridInit (-1) 10 ≠ none := by decide

/-- Claim C9 (amended): construction with positive rows allocates a square
rows-by-rows array of white (Empty) cells with pixel geometry derived from
the floor division `width // rows`; construction fails exactly when
`rows = 0`; with negative rows it succeeds with an empty cell array. -/
theorem claim_C9 (rows width : Int) :
    (0 < rows →
      ∃ gr, gridInit rows width = some gr ∧
        gr.gap = width.fdiv rows ∧
        gr.grid_nodes.length = rows.toNat ∧
        (∀ row ∈ gr.grid_nodes, row.length = rows.toNat) ∧
        (∀ row ∈ gr.grid_nodes, ∀ nd ∈ row,
          nd.color = white ∧ nd.size = gr.gap ∧
          nd.x = nd.col * gr.gap ∧ nd.y = nd.row * gr.gap ∧
          nd.total_rows = rows)) ∧
    (gridInit rows width = none ↔ rows = 0) ∧
    (rows < 0 → ∃ gr, gridInit rows width = some gr ∧ gr.grid_nodes = []) := by
  refine ⟨?_, ?_, ?_⟩
  · intro h
    refine ⟨{ rows := rows, width := width, gap := width.fdiv rows,
              grid_nodes := makeGrid rows (width.fdiv rows) }, ?_, rfl, ?_, ?_, ?_⟩
    · simp only [gridInit, if_neg (by omega : rows ≠ 0)]
    · simp only [makeGrid, List.length_map, List.length_range]
    · intro row hrow
      simp only [makeGrid, List.mem_map] at hrow
      obtain ⟨i, _, rfl⟩ := hrow
      simp only [List.length_map, List.length_range]
    · intro row hrow nd hnd
      simp only [makeGrid, List.mem_map] at hrow
      obtain ⟨i, _, rfl⟩ := hrow
      simp only [List.mem_map] at hnd
      obtain ⟨j, _, rfl⟩ := hnd
      simp [nodeInit]
  · constructor
    · intro h
      by_contra hne
      simp only [gridInit, if_neg hne] at h
      exact Option.noConfusion h
    · intro h
      simp [gridInit, h]
  · intro h
    refine ⟨{ rows := rows, width := width, gap := width.fdiv rows,
              grid_nodes := makeGrid rows (width.fdiv rows) }, ?_, ?_⟩
    · simp only [gridInit, if_neg (by omega : rows ≠ 0)]
    · simp [makeGrid, Int.toNat_of_nonpos (le_of_lt h)]

/-- Witness for the amended claim C9 at rows 3, width 10 and rows -1. -/
theorem claim_C9_witness :
    ((0 : Int) < 3 ∧
      ∃ gr, gridInit 3 10 = some gr ∧
        gr.gap = (10 : Int).fdiv 3 ∧
        gr.grid_nodes.length = (3 : Int).toNat ∧
        (∀ row ∈ gr.grid_nodes, row.length = (3 : Int).toNat) ∧
        (∀ row ∈ gr.grid_nodes, ∀ nd ∈ row,
          nd.color = white ∧ nd.size = gr.gap ∧
          nd.x = nd.col * gr.gap ∧ nd.y = nd.row * gr.gap ∧
          nd.total_rows = 3)) ∧
    ((-1 : Int) < 0 ∧ ∃ gr, gridInit (-1) 10 = some gr ∧ gr.grid_nodes = []) :=
  ⟨⟨by decide, (claim_C9 3 10).1 (by decide)⟩,
   ⟨by decide, (claim_C9 (-1) 10).2.2 (by decide)⟩⟩

end PathViz
